import Mathlib

set_option maxHeartbeats 1000000

/-!
# Verification of the pairing-heap implementation

Shallow embedding of `src/unnamed/part_002` (its compiled duplicate is
`src/unnamed/part_000`).  The mutable node graph of the TypeScript code is
modelled as a store `St α := Nat → PairingNode α` mapping node ids to node
records; object references become ids, reference equality becomes id equality,
and `null` / `undefined` become `none`.  The two unbounded `while` loops of
`collapse` and the recursive generator `_iterate` are modelled with a fuel
parameter; every heap operation passes `fresh + 1` fuel, which is enough for
every well-formed heap because all reachable ids are distinct and `< fresh`.
-/

open scoped List

universe u

variable {α : Type}

/-- The node record `PairingNode` (source lines 21-31): the client item plus the `child`,
`next` and `prev` links.  `item` is `Option α` because `delete` writes
`undefined` into it (source line 194). -/
structure PairingNode (α : Type) where
  item : Option α
  child : Option Nat
  next : Option Nat
  prev : Option Nat
deriving Repr, DecidableEq

/-- The node with every field cleared: a freshly deleted node. -/
def blankNode : PairingNode α := ⟨none, none, none, none⟩

/-- The node store: the JavaScript object graph as a map from ids to records. -/
abbrev St (α : Type) := Nat → PairingNode α

/-- Write a whole node record at id `i`. -/
def wr (s : St α) (i : Nat) (n : PairingNode α) : St α :=
  fun j => if j = i then n else s j

/-- Write `node.item = x`. -/
def wrItem (s : St α) (i : Nat) (x : Option α) : St α := wr s i { s i with item := x }

/-- Write `node.child = c`. -/
def wrChild (s : St α) (i : Nat) (c : Option Nat) : St α := wr s i { s i with child := c }

/-- Write `node.next = x`. -/
def wrNext (s : St α) (i : Nat) (x : Option Nat) : St α := wr s i { s i with next := x }

/-- Write `node.prev = x`. -/
def wrPrev (s : St α) (i : Nat) (x : Option Nat) : St α := wr s i { s i with prev := x }

/-- The comparator applied to stored items.  Live nodes always hold `some`;
on `undefined` (modelled `none`) the default comparator `o1 < o2` of the
source yields `false`, which this models. -/
def ltO (lt : α → α → Bool) : Option α → Option α → Bool
  | some a, some b => lt a b
  | _, _ => false

/-- Core of `merge` for two distinct present nodes (source lines 305-324):
the comparator picks the parent, then the six pointer writes happen in source
order. -/
def mergeCore (lt : α → α → Bool) (s : St α) (ia ib : Nat) : Nat × St α :=
  let pc : Nat × Nat := if ltO lt (s ib).item (s ia).item then (ib, ia) else (ia, ib)
  let p := pc.1
  let c := pc.2
  -- child.next = parent.child
  let s1 := wrNext s c ((s p).child)
  -- if (parent.child != null) parent.child.prev = child
  let s2 := match (s1 p).child with
    | some q => wrPrev s1 q (some c)
    | none => s1
  -- child.prev = parent
  let s3 := wrPrev s2 c (some p)
  -- parent.child = child
  let s4 := wrChild s3 p (some c)
  -- parent.next = null ; parent.prev = null
  let s5 := wrNext s4 p none
  let s6 := wrPrev s5 p none
  (p, s6)

/-- The function `merge(a, b, lessThanFunc)` (source lines 285-325). -/
def merge (lt : α → α → Bool) (s : St α) (a b : Option Nat) : Option Nat × St α :=
  match a, b with
  | none, _ => (b, s)
  | some ia, none => (some ia, s)
  | some ia, some ib =>
    if ia = ib then (some ia, s)
    else
      let ps := mergeCore lt s ia ib
      (some ps.1, ps.2)

/-- First `while` loop of `collapse` (source lines 353-368), fuelled.  Walks
the sibling list, merging adjacent pairs and threading the results through the
`prev` links as a scratch list; an odd final node is pushed unmerged.  When the
fuel runs out the loop is abandoned with the current scratch list (unreachable
for the fuel every caller passes on a well-formed heap). -/
def collapsePass1 (lt : α → α → Bool) :
    Nat → St α → Option Nat → Option Nat → Option Nat × St α
  | 0, s, _, tail => (tail, s)
  | fuel + 1, s, next, tail =>
    match next with
    | none => (tail, s)
    | some ia =>
      match (s ia).next with
      | some ib =>
        let nxt := (s ib).next
        let rs := mergeCore lt s ia ib
        -- result.prev = tail ; tail = result
        collapsePass1 lt fuel (wrPrev rs.2 rs.1 tail) nxt (some rs.1)
      | none =>
        -- a.prev = tail ; tail = a ; break
        (some ia, wrPrev s ia tail)

/-- Second `while` loop of `collapse` (source lines 370-376), fuelled.  Walks
the scratch list back through `prev`, accumulating with `merge`. -/
def collapsePass2 (lt : α → α → Bool) :
    Nat → St α → Option Nat → Option Nat → Option Nat × St α
  | 0, s, _, result => (result, s)
  | fuel + 1, s, tail, result =>
    match tail with
    | none => (result, s)
    | some it =>
      let nxt := (s it).prev
      let rs := merge lt s result (some it)
      collapsePass2 lt fuel rs.2 nxt rs.1

/-- The function `collapse(node, lessThanFunc)` (source lines 337-379). -/
def collapse (lt : α → α → Bool) (fuel : Nat) (s : St α) (node : Option Nat) :
    Option Nat × St α :=
  match node with
  | none => (none, s)
  | some _ =>
    let ts := collapsePass1 lt fuel s node none
    collapsePass2 lt fuel ts.2 ts.1 none

/-- The `PairingHeap` class state (source lines 46-64): the node store and
allocation counter model the JavaScript object graph, `root` and `size` are the
`_root` and `_size` fields, `pool` is the optional `_objectPool` collaborator
(modelled as its free list of node ids; `none` = no pool configured), `lt` is
`_lessThanFunc`. -/
structure PairingHeap (α : Type) where
  mem : St α
  fresh : Nat
  root : Option Nat
  size : Int
  pool : Option (List Nat)
  lt : α → α → Bool

namespace PairingHeap

/-- Modelled from the spec: the object-pool collaborator (`IObjectPool`, whose
implementation `src/test/object-pool` is not part of `src/`).  Per spec §6,
`get()` returns a stored node or misses (absent), here: pop an id off the free
list, or miss when it is empty or no pool is configured. -/
def poolGet : Option (List Nat) → Option Nat × Option (List Nat)
  | none => (none, none)
  | some [] => (none, some [])
  | some (f :: fs) => (some f, some fs)

/-- Modelled from the spec: `release(node)` accepts a node for future reuse
with no acknowledgment (spec §6); here: push the id onto the free list.  No
pool configured: no-op. -/
def poolRelease (n : Nat) : Option (List Nat) → Option (List Nat)
  | none => none
  | some fs => some (n :: fs)

/-- The constructor `new PairingHeap({objectPool, lessThanFunc})` (source lines 55-64). -/
def mkHeap (lt : α → α → Bool) (pool : Option (List Nat)) : PairingHeap α :=
  { mem := fun _ => blankNode, fresh := 0, root := none, size := 0, pool := pool, lt := lt }

/-- The method `clear()` (source lines 69-73): drop the root and zero the size; the nodes
themselves are not touched and nothing is released to the pool. -/
def clear (h : PairingHeap α) : PairingHeap α :=
  { h with root := none, size := 0 }

/-- The method `add(item)` (source lines 91-113).  A pooled node only has its `item`
assigned; a fresh node is allocated with all three links cleared. -/
def add (h : PairingHeap α) (x : α) : Nat × PairingHeap α :=
  let g := poolGet h.pool
  match g.1 with
  | some f =>
    -- node.item = item  (links are not written on this path)
    let s := wrItem h.mem f (some x)
    let rs := merge h.lt s h.root (some f)
    (f, { h with mem := rs.2, root := rs.1, pool := g.2, size := h.size + 1 })
  | none =>
    -- node = { child: null, next: null, prev: null, item }
    let n := h.fresh
    let s := wr h.mem n { item := some x, child := none, next := none, prev := none }
    let rs := merge h.lt s h.root (some n)
    (n, { h with mem := rs.2, root := rs.1, pool := g.2, fresh := n + 1, size := h.size + 1 })

/-- The method `getMin()` (source lines 120-125). -/
def getMin (h : PairingHeap α) : Option α :=
  match h.root with
  | none => none
  | some r => (h.mem r).item

/-- The method `getMinNode()` (source lines 132-134). -/
def getMinNode (h : PairingHeap α) : Option Nat := h.root

/-- The getter `isEmpty` (source lines 232-234). -/
def isEmpty (h : PairingHeap α) : Bool := h.root.isNone

/-- Unlink a node from its sibling list given `p := node.prev` (source lines
177-186).  The same six lines appear verbatim in `decreaseKey` (source lines
213-222), so both operations share this definition. -/
def cutNode (s : St α) (n p : Nat) : St α :=
  -- if (node.prev.child === node) node.prev.child = node.next
  -- else node.prev.next = node.next
  let s1 := if (s p).child = some n then wrChild s p ((s n).next)
            else wrNext s p ((s n).next)
  -- if (node.next != null) node.next.prev = node.prev
  match (s1 n).next with
  | some nx => wrPrev s1 nx ((s1 n).prev)
  | none => s1

/-- The clearing, pool release and size decrement shared by both branches of
`delete` (source lines 191-197).  The four field writes are combined into one
record write. -/
def clearRelease (h : PairingHeap α) (n : Nat) : PairingHeap α :=
  { h with mem := wr h.mem n blankNode, pool := poolRelease n h.pool, size := h.size - 1 }

/-- The error thrown by `delete` (source line 172). -/
def deleteErr : String :=
  "The node is already deleted. Do not use the objectPool to prevent this error."

/-- The method `delete(node)` (source lines 165-198).  The `throw` becomes
`Except.error`. -/
def delete (h : PairingHeap α) (n : Nat) : Except String (PairingHeap α) :=
  if h.root = some n then
    -- this._root = collapse(node.child, this._lessThanFunc)
    let cs := collapse h.lt (h.fresh + 1) h.mem ((h.mem n).child)
    .ok (clearRelease { h with mem := cs.2, root := cs.1 } n)
  else
    match (h.mem n).prev with
    | none =>
      if h.pool.isSome then .error deleteErr
      else .ok h  -- already deleted: silent no-op
    | some p =>
      let s2 := cutNode h.mem n p
      -- this._root = merge(this._root, collapse(node.child, ...), ...)
      let cs := collapse h.lt (h.fresh + 1) s2 ((s2 n).child)
      let rs := merge h.lt cs.2 h.root cs.1
      .ok (clearRelease { h with mem := rs.2, root := rs.1 } n)

/-- The method `deleteMin()` (source lines 143-154). -/
def deleteMin (h : PairingHeap α) : Option α × PairingHeap α :=
  match h.root with
  | none => (none, h)
  | some r =>
    let result := (h.mem r).item
    match delete h r with
    | .ok h' => (result, h')
    | .error _ => (result, h)  -- unreachable: deleting the root never errors

/-- The runtime type error of `decreaseKey` on a node whose `prev` link is
absent: the source dereferences `node.prev!` unconditionally. -/
def typeErr : String := "TypeError: node.prev is null"

/-- The method `decreaseKey(node)` (source lines 208-225).  A no-op on the root;
otherwise the node is cut from its sibling list (children left attached) and
merged with the root.  When `node.prev` is absent the source dereferences the
absent link (`node.prev!.child`), a runtime type error, modelled as
`Except.error`. -/
def decreaseKey (h : PairingHeap α) (n : Nat) : Except String (PairingHeap α) :=
  if h.root = some n then .ok h
  else
    match (h.mem n).prev with
    | none => .error typeErr
    | some p =>
      let s2 := cutNode h.mem n p
      let rs := merge h.lt s2 h.root (some n)
      .ok { h with mem := rs.2, root := rs.1 }

/-- The caller-side mutation `node.item = v` that precedes a `decreaseKey`
call (spec §4.3: the caller has already mutated the item). -/
def setItem (h : PairingHeap α) (n : Nat) (v : α) : PairingHeap α :=
  { h with mem := wrItem h.mem n (some v) }

end PairingHeap

/-- The item iterator `_iterate(false)` (source lines 248-271), fuelled:
yield the node's item; if the node's child has a sibling, collapse the child
list in place and re-attach it (`node.child = collapse(...); node.child.prev =
node`); then descend into the (now single) child.  Returns the yielded items
and the restructured store. -/
def iterate (lt : α → α → Bool) : Nat → St α → Option Nat → List (Option α) × St α
  | 0, s, _ => ([], s)
  | fuel + 1, s, node =>
    match node with
    | none => ([], s)
    | some i =>
      let y := (s i).item
      let s2 : St α :=
        match (s i).child with
        | none => s
        | some c =>
          match (s c).next with
          | none => s
          | some _ =>
            let cs := collapse lt (fuel + 1) s (some c)
            match cs.1 with
            | some rc => wrPrev (wrChild cs.2 i (some rc)) rc (some i)
            | none => wrChild cs.2 i none
      match (s2 i).child with
      | none => ([y], s2)
      | some c2 =>
        let rest := iterate lt fuel s2 (some c2)
        (y :: rest.1, rest.2)

/-- Default iteration over the heap (`[Symbol.iterator]`, source lines
236-238): the yielded item list and the heap afterwards (only the store is
restructured; `size`, `root`, `pool` are untouched by construction, as in the
source, which only rewrites node links). -/
def heapItems (h : PairingHeap α) : List (Option α) × PairingHeap α :=
  let r := iterate h.lt (h.fresh + 1) h.mem h.root
  (r.1, { h with mem := r.2 })

/-- Repeated `deleteMin()` until the heap is empty (driven by a fuel that every
claim instantiates with the number of items). -/
def extractAll : Nat → PairingHeap α → List (Option α)
  | 0, _ => []
  | n + 1, h =>
    match h.root with
    | none => []
    | some _ =>
      let r := PairingHeap.deleteMin h
      r.1 :: extractAll n r.2

/-- Build a heap (no pool) by `add`ing the items of `xs` in order. -/
def addAll (lt : α → α → Bool) (xs : List α) : PairingHeap α :=
  xs.foldl (fun h x => (PairingHeap.add h x).2) (PairingHeap.mkHeap lt none)

/-!
## The pure abstraction layer

A represented heap is abstracted to a pure rose tree carrying the node id and
item.  The spec-side pure operations below follow the spec's wording (§4.1 and
§4.2) and serve as the abstract model that the store-level code is proved to
refine.
-/

/-- Pure abstraction of one heap node: its id, its item, and its children in
sibling-list order. -/
inductive PT (α : Type) : Type where
  | mk : Nat → α → List (PT α) → PT α

/-- The node id at the root of a pure tree. -/
def PT.idOf : PT α → Nat
  | .mk i _ _ => i

/-- The item at the root of a pure tree. -/
def PT.itm : PT α → α
  | .mk _ x _ => x

/-- The children of the root of a pure tree. -/
def PT.children : PT α → List (PT α)
  | .mk _ _ cs => cs

mutual
/-- All node ids of a tree, root first. -/
def idsT : PT α → List Nat
  | .mk i _ cs => i :: idsF cs
/-- All node ids of a forest. -/
def idsF : List (PT α) → List Nat
  | [] => []
  | t :: ts => idsT t ++ idsF ts
end

mutual
/-- All items of a tree, root first. -/
def itemsT : PT α → List α
  | .mk _ x cs => x :: itemsF cs
/-- All items of a forest. -/
def itemsF : List (PT α) → List α
  | [] => []
  | t :: ts => itemsT t ++ itemsF ts
end

mutual
/-- Heap order (spec §3): no node of the tree has a descendant that ranks
strictly before it under the comparator. -/
def hOrdT (lt : α → α → Bool) : PT α → Prop
  | .mk _ x cs => (∀ y ∈ itemsF cs, lt y x = false) ∧ hOrdF lt cs
/-- Heap order for every tree of a forest. -/
def hOrdF (lt : α → α → Bool) : List (PT α) → Prop
  | [] => True
  | t :: ts => hOrdT lt t ∧ hOrdF lt ts
end

/-- The comparator is a strict weak order (spec §3: the comparator "must be a
valid strict weak ordering"): asymmetric, and its negation is transitive. -/
def SWO (lt : α → α → Bool) : Prop :=
  (∀ a b, lt a b = true → lt b a = false) ∧
  (∀ a b c, lt a b = false → lt b c = false → lt a c = false)

/-- Spec-side pure merge (spec §4.1): the comparator picks the winner — if `b`
ranks strictly before `a` then `b` is the parent, otherwise (ties included)
`a` is — and the loser becomes the winner's new first child. -/
def specMerge (lt : α → α → Bool) (a b : PT α) : PT α :=
  if lt b.itm a.itm then .mk b.idOf b.itm (a :: b.children)
  else .mk a.idOf a.itm (b :: a.children)

/-- The merge `specMerge` lifted to possibly-absent trees: an absent side returns the
other side (spec §4.1). -/
def specMergeO (lt : α → α → Bool) : Option (PT α) → Option (PT α) → Option (PT α)
  | none, b => b
  | some a, none => some a
  | some a, some b => some (specMerge lt a b)

/-- Modelled from the spec (§4.2, pass 1): walk the sibling list left to
right merging each adjacent pair; an odd final node passes through unmerged.
The temporary list of the code stores these results last-pushed-first, i.e. it
is the reverse of this list. -/
def specPass1 (lt : α → α → Bool) : List (PT α) → List (PT α)
  | a :: b :: rest => specMerge lt a b :: specPass1 lt rest
  | l => l

/-- Modelled from the spec (§4.2, pass 2): reduce the pass-1 results right to
left, from the last-produced result back to the first, via repeated
Merge(accumulator, next-in-temp-list). -/
def specPass2 (lt : α → α → Bool) (ms : List (PT α)) : Option (PT α) :=
  ms.reverse.foldl (fun acc t => specMergeO lt acc (some t)) none

/-- Modelled from the spec (§4.2): the standard recursive two-pass method that
the iterative `collapse` is claimed to implement. -/
def specCollapse (lt : α → α → Bool) (ts : List (PT α)) : Option (PT α) :=
  specPass2 lt (specPass1 lt ts)

/-- Ids of a possibly-absent tree. -/
def idsO : Option (PT α) → List Nat
  | none => []
  | some t => idsT t

/-- Items of a possibly-absent tree. -/
def itemsO : Option (PT α) → List α
  | none => []
  | some t => itemsT t

/-- Heap order for a possibly-absent tree. -/
def hOrdO (lt : α → α → Bool) : Option (PT α) → Prop
  | none => True
  | some t => hOrdT lt t

/-!
## Representation: the store spells out a pure tree
-/
mutual
/-- The store `s` represents the pure tree `t`: the root's `item` and `child`
fields match and the children hang off it as a well-linked sibling list.  The
root's own `next`/`prev` fields are not constrained here — they belong to the
context the tree sits in. -/
def ReprT (s : St α) : PT α → Prop
  | .mk i x cs => (s i).item = some x ∧ ReprL s ((s i).child) i cs
/-- The store represents `cs` as the doubly linked sibling list starting at
`first`, where the first node's `prev` points back at `p` (the parent for the
head of a child list, the previous sibling further along). -/
def ReprL (s : St α) (first : Option Nat) (p : Nat) : List (PT α) → Prop
  | [] => first = none
  | c :: rest =>
    first = some c.idOf ∧ (s c.idOf).prev = some p ∧ ReprT s c ∧
      ReprL s ((s c.idOf).next) c.idOf rest
end

/-- The store represents `cs` as the singly linked (via `next`) list of trees
starting at `first`; the `prev` fields of the list roots are unconstrained.
This is the input shape of `collapse`, which never reads them. -/
def ReprS (s : St α) : Option Nat → List (PT α) → Prop
  | first, [] => first = none
  | first, c :: rest => first = some c.idOf ∧ ReprT s c ∧ ReprS s ((s c.idOf).next) rest

/-- The store represents `ms` as the scratch list of `collapse`, threaded
last-pushed-first through the `prev` fields starting at `tail`; every entry is
a detached pass-1 result, whose `next` is absent. -/
def ReprTemp (s : St α) : Option Nat → List (PT α) → Prop
  | tail, [] => tail = none
  | tail, t :: rest => tail = some t.idOf ∧ (s t.idOf).next = none ∧ ReprT s t ∧
      ReprTemp s ((s t.idOf).prev) rest

/-- The six pointer writes of `merge` (source lines 314-322) once the parent
`p` and child `c` have been chosen. -/
def mergeWr (s : St α) (p c : Nat) : St α :=
  let s1 := wrNext s c ((s p).child)
  let s2 := match (s1 p).child with
    | some q => wrPrev s1 q (some c)
    | none => s1
  let s3 := wrPrev s2 c (some p)
  let s4 := wrChild s3 p (some c)
  let s5 := wrNext s4 p none
  wrPrev s5 p none

/-!
## The collapse simulation
-/

/-- The result of `collapse`/`merge` as a possibly-absent represented tree. -/
def OptRepr (s : St α) : Option Nat → Option (PT α) → Prop
  | none, none => True
  | some r, some t => r = t.idOf ∧ ReprT s t
  | _, _ => False

/-!
## Pure subtree removal, lookup and item replacement
-/
mutual
/-- Remove the subtree whose root id is `n` (assumed not this tree's root). -/
def removeT (n : Nat) : PT α → PT α
  | .mk i x cs => .mk i x (removeF n cs)
/-- Remove the subtree rooted at `n` from a forest (first hit only). -/
def removeF (n : Nat) : List (PT α) → List (PT α)
  | [] => []
  | c :: rest => if c.idOf = n then rest else removeT n c :: removeF n rest
end

mutual
/-- Find the subtree whose root id is `n`. -/
def findT (n : Nat) : PT α → Option (PT α)
  | .mk i x cs => if i = n then some (.mk i x cs) else findF n cs
/-- Find the subtree rooted at `n` in a forest. -/
def findF (n : Nat) : List (PT α) → Option (PT α)
  | [] => none
  | c :: rest =>
    match findT n c with
    | some r => some r
    | none => findF n rest
end

mutual
/-- Replace the item of the node with id `n`. -/
def setItemT (n : Nat) (v : α) : PT α → PT α
  | .mk i x cs => .mk i (if i = n then v else x) (setItemF n v cs)
/-- Replace the item of the node with id `n` throughout a forest. -/
def setItemF (n : Nat) (v : α) : List (PT α) → List (PT α)
  | [] => []
  | c :: rest => setItemT n v c :: setItemF n v rest
end

/-!
## The unlink simulation (`delete` on a non-root node, `decreaseKey`)
-/

/-- The sibling link that leads into a list after cutting node `n` out of it:
if `n` was the head, the link becomes `n`'s old `next`, otherwise it is
unchanged. -/
def cutLink (n : Nat) (nnext fallback : Option Nat) : List (PT α) → Option Nat
  | [] => fallback
  | c :: _ => if c.idOf = n then nnext else fallback

/-!
## The heap invariant
-/

/-- The invariant of a non-empty heap with abstract tree `t` (spec §3):
`root` points at `t`'s root, the store represents `t`, the root is detached,
all reachable ids are distinct and below `fresh`, `size` counts the items, and
the tree is heap-ordered under the heap's comparator. -/
structure InvT (h : PairingHeap α) (t : PT α) : Prop where
  root_eq : h.root = some t.idOf
  rep : ReprT h.mem t
  root_prev : (h.mem t.idOf).prev = none
  root_next : (h.mem t.idOf).next = none
  nodup : (idsT t).Nodup
  bounded : ∀ i ∈ idsT t, i < h.fresh
  size_eq : h.size = ((itemsT t).length : Int)
  hord : hOrdT h.lt t

/-- Pool sanity (spec §6 collaborator contract): the free list holds distinct
ids below `fresh` whose nodes are fully cleared — which also makes them
unreachable, since every reachable node holds an item. -/
def PoolInv (h : PairingHeap α) : Prop :=
  ∀ fs, h.pool = some fs → fs.Nodup ∧ ∀ f ∈ fs, f < h.fresh ∧ h.mem f = blankNode

/-- The heap is well formed with abstract contents `ot` (absent = empty). -/
def Abs (h : PairingHeap α) (ot : Option (PT α)) : Prop :=
  PoolInv h ∧
  ((ot = none ∧ h.root = none ∧ h.size = 0) ∨ (∃ t, ot = some t ∧ InvT h t))

/-- The heap invariants of spec §3, existentially over the abstract contents. -/
def HeapInv (h : PairingHeap α) : Prop := ∃ ot, Abs h ot

/-- The spec-side sorted extraction sequence (spec SECTION 8): repeatedly take
the root item and collapse its children. -/
def specSeq (lt : α → α → Bool) : Nat → Option (PT α) → List α
  | 0, _ => []
  | _ + 1, none => []
  | fuel + 1, some t => t.itm :: specSeq lt fuel (specCollapse lt t.children)

/-!
## Witness fixtures

Concrete comparator, stores and heaps that the claim witnesses instantiate.
-/

/-- Strict natural-number comparison, as a Bool comparator. -/
def natLtB (a b : Nat) : Bool := decide (a < b)

/-- A two-node store: node 0 (item 3) is the parent of node 1 (item 5). -/
def wMem : St Nat := fun j =>
  if j = 0 then ⟨some 3, some 1, none, none⟩
  else if j = 1 then ⟨some 5, none, none, some 0⟩
  else blankNode

/-- The two-node heap over `wMem`. -/
def wHeap : PairingHeap Nat :=
  { mem := wMem, fresh := 2, root := some 0, size := 2, pool := none, lt := natLtB }

/-- The abstract tree `wHeap` holds. -/
def wTree : PT Nat := PT.mk 0 3 [PT.mk 1 5 []]

/-- Two sibling singleton trees threaded by `next`, for the collapse witness. -/
def wMem2 : St Nat := fun j =>
  if j = 0 then ⟨some 4, none, some 1, none⟩
  else if j = 1 then ⟨some 2, none, none, some 0⟩
  else blankNode

/-- A heap whose node 1 has an absent `prev` link and is not the root, for
the C5 counterexample. -/
def c5Heap : PairingHeap Nat :=
  { mem := fun _ => blankNode, fresh := 2, root := some 0, size := 1,
    pool := none, lt := natLtB }

/-- A heap whose pool holds a node with a dangling `child` link, for the C7
counterexample. -/
def c7Heap : PairingHeap Nat :=
  { mem := fun j => if j = 0 then ⟨none, some 5, none, none⟩ else blankNode,
    fresh := 1, root := none, size := 0, pool := some [0], lt := natLtB }

/-- A non-empty heap's root node has both its `prev` and `next` links absent:
the top-level tree is a single detached root. -/
def RootDetached (h : PairingHeap α) : Prop :=
  ∀ r, h.root = some r → (h.mem r).prev = none ∧ (h.mem r).next = none

/-!
## Theorems
-/

@[simp] theorem PT.idOf_mk (i : Nat) (x : α) (cs : List (PT α)) :
    (PT.mk i x cs).idOf = i := rfl

@[simp] theorem PT.itm_mk (i : Nat) (x : α) (cs : List (PT α)) :
    (PT.mk i x cs).itm = x := rfl

@[simp] theorem PT.children_mk (i : Nat) (x : α) (cs : List (PT α)) :
    (PT.mk i x cs).children = cs := rfl

@[simp] theorem wr_self (s : St α) (i : Nat) (n : PairingNode α) : wr s i n i = n := by
  simp [wr]

theorem wr_other {j i : Nat} (s : St α) (n : PairingNode α) (h : j ≠ i) :
    wr s i n j = s j := by
  simp [wr, h]

@[simp] theorem idsT_mk (i : Nat) (x : α) (cs : List (PT α)) :
    idsT (PT.mk i x cs) = i :: idsF cs := by rw [idsT]

@[simp] theorem idsF_nil : idsF ([] : List (PT α)) = [] := by rw [idsF]

@[simp] theorem idsF_cons (t : PT α) (ts : List (PT α)) :
    idsF (t :: ts) = idsT t ++ idsF ts := by rw [idsF]

@[simp] theorem itemsT_mk (i : Nat) (x : α) (cs : List (PT α)) :
    itemsT (PT.mk i x cs) = x :: itemsF cs := by rw [itemsT]

@[simp] theorem itemsF_nil : itemsF ([] : List (PT α)) = [] := by rw [itemsF]

@[simp] theorem itemsF_cons (t : PT α) (ts : List (PT α)) :
    itemsF (t :: ts) = itemsT t ++ itemsF ts := by rw [itemsF]

theorem hOrdT_mk (lt : α → α → Bool) (i : Nat) (x : α) (cs : List (PT α)) :
    hOrdT lt (PT.mk i x cs) ↔ (∀ y ∈ itemsF cs, lt y x = false) ∧ hOrdF lt cs := by
  rw [hOrdT]

@[simp] theorem hOrdF_nil (lt : α → α → Bool) : hOrdF lt ([] : List (PT α)) := by
  rw [hOrdF]; trivial

theorem hOrdF_cons (lt : α → α → Bool) (t : PT α) (ts : List (PT α)) :
    hOrdF lt (t :: ts) ↔ hOrdT lt t ∧ hOrdF lt ts := by rw [hOrdF]

theorem reprT_mk {s : St α} {i : Nat} {x : α} {cs : List (PT α)} :
    ReprT s (PT.mk i x cs) ↔ (s i).item = some x ∧ ReprL s ((s i).child) i cs := by
  rw [ReprT]

theorem reprL_nil {s : St α} {first : Option Nat} {p : Nat} :
    ReprL s first p [] ↔ first = none := by rw [ReprL]

theorem reprL_cons {s : St α} {first : Option Nat} {p : Nat} {c : PT α}
    {rest : List (PT α)} :
    ReprL s first p (c :: rest) ↔
      first = some c.idOf ∧ (s c.idOf).prev = some p ∧ ReprT s c ∧
        ReprL s ((s c.idOf).next) c.idOf rest := by rw [ReprL]

theorem reprS_nil {s : St α} {first : Option Nat} :
    ReprS s first [] ↔ first = none := by rw [ReprS]

theorem reprS_cons {s : St α} {first : Option Nat} {c : PT α} {rest : List (PT α)} :
    ReprS s first (c :: rest) ↔
      first = some c.idOf ∧ ReprT s c ∧ ReprS s ((s c.idOf).next) rest := by rw [ReprS]

theorem reprTemp_nil {s : St α} {tail : Option Nat} :
    ReprTemp s tail [] ↔ tail = none := by rw [ReprTemp]

theorem reprTemp_cons {s : St α} {tail : Option Nat} {t : PT α} {rest : List (PT α)} :
    ReprTemp s tail (t :: rest) ↔
      tail = some t.idOf ∧ (s t.idOf).next = none ∧ ReprT s t ∧
        ReprTemp s ((s t.idOf).prev) rest := by rw [ReprTemp]

mutual
theorem reprT_frame {s s' : St α} : ∀ (t : PT α), ReprT s t →
    (∀ j ∈ idsT t, s' j = s j) → ReprT s' t
  | .mk i x cs, h, hf => by
    rw [reprT_mk] at h ⊢
    have hi : s' i = s i := hf i (by simp)
    refine ⟨by rw [hi]; exact h.1, hi ▸ ?_⟩
    exact reprL_frame cs h.2 (fun j hj => hf j (by simp [hj]))
theorem reprL_frame {s s' : St α} {first : Option Nat} {p : Nat} :
    ∀ (cs : List (PT α)), ReprL s first p cs →
    (∀ j ∈ idsF cs, s' j = s j) → ReprL s' first p cs
  | [], h, _ => h
  | c :: rest, h, hf => by
    rw [reprL_cons] at h ⊢
    obtain ⟨h1, h2, h3, h4⟩ := h
    have hc : s' c.idOf = s c.idOf := by
      refine hf c.idOf ?_
      cases c with
      | mk i x cs => simp [PT.idOf]
    refine ⟨h1, by rw [hc]; exact h2, reprT_frame c h3 (fun j hj => hf j (by simp [hj])),
      hc ▸ reprL_frame rest h4 (fun j hj => hf j (by simp [hj]))⟩
end

/-- Frame rule that allows the root's `next` and `prev` fields to change. -/
theorem reprT_frame_root {s s' : St α} {t : PT α} (h : ReprT s t)
    (hit : (s' t.idOf).item = (s t.idOf).item)
    (hch : (s' t.idOf).child = (s t.idOf).child)
    (hf : ∀ j ∈ idsF t.children, s' j = s j) : ReprT s' t := by
  obtain ⟨i, x, cs⟩ := t
  rw [reprT_mk] at h ⊢
  simp only [PT.idOf_mk] at hit hch
  simp only [PT.children_mk] at hf
  exact ⟨hit ▸ h.1, hch ▸ reprL_frame cs h.2 hf⟩

theorem reprS_frame {s s' : St α} {first : Option Nat} :
    ∀ (cs : List (PT α)), ReprS s first cs →
    (∀ j ∈ idsF cs, s' j = s j) → ReprS s' first cs
  | [], h, _ => h
  | c :: rest, h, hf => by
    rw [reprS_cons] at h ⊢
    obtain ⟨h1, h2, h3⟩ := h
    have hc : s' c.idOf = s c.idOf := by
      refine hf c.idOf ?_
      cases c with
      | mk i x cs => simp [PT.idOf]
    exact ⟨h1, reprT_frame c h2 (fun j hj => hf j (by simp [hj])),
      hc ▸ reprS_frame rest h3 (fun j hj => hf j (by simp [hj]))⟩

theorem reprTemp_frame {s s' : St α} {tail : Option Nat} :
    ∀ (ms : List (PT α)), ReprTemp s tail ms →
    (∀ j ∈ idsF ms, s' j = s j) → ReprTemp s' tail ms
  | [], h, _ => h
  | t :: rest, h, hf => by
    rw [reprTemp_cons] at h ⊢
    obtain ⟨h1, h2, h3, h4⟩ := h
    have hc : s' t.idOf = s t.idOf := by
      refine hf t.idOf ?_
      cases t with
      | mk i x cs => simp [PT.idOf]
    exact ⟨h1, by rw [hc]; exact h2, reprT_frame t h3 (fun j hj => hf j (by simp [hj])),
      hc ▸ reprTemp_frame rest h4 (fun j hj => hf j (by simp [hj]))⟩

/-- The root id is among the ids of a tree. -/
theorem idOf_mem_idsT (t : PT α) : t.idOf ∈ idsT t := by
  cases t with
  | mk i x cs => simp [PT.idOf]

mutual
/-- Every id of a represented tree holds a `some` item. -/
theorem reprT_item_isSome {s : St α} : ∀ (t : PT α), ReprT s t →
    ∀ j ∈ idsT t, (s j).item ≠ none
  | .mk i x cs, h, j, hj => by
    rw [reprT_mk] at h
    rcases (by simpa using hj : j = i ∨ j ∈ idsF cs) with rfl | hj'
    · rw [h.1]; simp
    · exact reprL_item_isSome cs h.2 j hj'
/-- Every id of a represented sibling list holds a `some` item. -/
theorem reprL_item_isSome {s : St α} {first : Option Nat} {p : Nat} :
    ∀ (cs : List (PT α)), ReprL s first p cs → ∀ j ∈ idsF cs, (s j).item ≠ none
  | [], _, j, hj => by simp at hj
  | c :: rest, h, j, hj => by
    rw [reprL_cons] at h
    rcases (by simpa using hj : j ∈ idsT c ∨ j ∈ idsF rest) with hj' | hj'
    · exact reprT_item_isSome c h.2.2.1 j hj'
    · exact reprL_item_isSome rest h.2.2.2 j hj'
end

/-!
## Pure-level lemmas
-/
theorem swo_irrefl {lt : α → α → Bool} (hs : SWO lt) (x : α) : lt x x = false := by
  cases hx : lt x x
  · rfl
  · have := hs.1 x x hx
    rw [this] at hx
    exact hx.symm

mutual
theorem length_items_eq_idsT : ∀ (t : PT α), (itemsT t).length = (idsT t).length
  | .mk i x cs => by simp [length_items_eq_idsF cs]
theorem length_items_eq_idsF : ∀ (ts : List (PT α)), (itemsF ts).length = (idsF ts).length
  | [] => by simp
  | t :: ts => by simp [length_items_eq_idsT t, length_items_eq_idsF ts]
end

theorem idsT_specMerge (lt : α → α → Bool) (a b : PT α) :
    idsT (specMerge lt a b) ~ idsT a ++ idsT b := by
  cases a with
  | mk ia xa csa =>
    cases b with
    | mk ib xb csb =>
      rw [specMerge]
      split
      · simp only [PT.idOf, PT.itm, PT.children, idsT_mk, idsF_cons]
        exact (@List.perm_middle _ ib (ia :: idsF csa) (idsF csb)).symm
      · simp only [PT.idOf, PT.itm, PT.children, idsT_mk, idsF_cons]
        exact List.Perm.cons ia List.perm_append_comm

theorem itemsT_specMerge (lt : α → α → Bool) (a b : PT α) :
    itemsT (specMerge lt a b) ~ itemsT a ++ itemsT b := by
  cases a with
  | mk ia xa csa =>
    cases b with
    | mk ib xb csb =>
      rw [specMerge]
      split
      · simp only [PT.idOf, PT.itm, PT.children, itemsT_mk, itemsF_cons]
        exact (@List.perm_middle _ xb (xa :: itemsF csa) (itemsF csb)).symm
      · simp only [PT.idOf, PT.itm, PT.children, itemsT_mk, itemsF_cons]
        exact List.Perm.cons xa List.perm_append_comm

theorem hOrdT_root_min {lt : α → α → Bool} (hs : SWO lt) :
    ∀ (t : PT α), hOrdT lt t → ∀ y ∈ itemsT t, lt y t.itm = false
  | .mk i x cs, h, y, hy => by
    rw [hOrdT_mk] at h
    rcases (by simpa using hy : y = x ∨ y ∈ itemsF cs) with rfl | hy'
    · simpa [PT.itm] using swo_irrefl hs y
    · simpa [PT.itm] using h.1 y hy'

theorem hOrdT_specMerge {lt : α → α → Bool} (hs : SWO lt) {a b : PT α}
    (ha : hOrdT lt a) (hb : hOrdT lt b) : hOrdT lt (specMerge lt a b) := by
  rw [specMerge]
  split
  · next hlt =>
    cases b with
    | mk ib xb csb =>
      rw [hOrdT_mk] at hb ⊢
      refine ⟨?_, ?_⟩
      · intro y hy
        rcases (by simpa using hy : y ∈ itemsT a ∨ y ∈ itemsF csb) with hy' | hy'
        · have h1 : lt y a.itm = false := hOrdT_root_min hs a ha y hy'
          have h2 : lt a.itm xb = false := hs.1 _ _ (by simpa [PT.itm] using hlt)
          simpa [PT.itm] using hs.2 y a.itm xb h1 h2
        · simpa [PT.itm] using hb.1 y hy'
      · rw [hOrdF_cons]
        exact ⟨ha, hb.2⟩
  · next hlt =>
    cases a with
    | mk ia xa csa =>
      rw [hOrdT_mk] at ha ⊢
      refine ⟨?_, ?_⟩
      · intro y hy
        rcases (by simpa using hy : y ∈ itemsT b ∨ y ∈ itemsF csa) with hy' | hy'
        · have h1 : lt y b.itm = false := hOrdT_root_min hs b hb y hy'
          have h2 : lt b.itm xa = false := by
            simpa [PT.itm] using (by simpa using hlt : lt b.itm (PT.mk ia xa csa).itm = false)
          simpa [PT.itm] using hs.2 y b.itm xa h1 h2
        · simpa [PT.itm] using ha.1 y hy'
      · rw [hOrdF_cons]
        exact ⟨hb, ha.2⟩

theorem specPass1_nil (lt : α → α → Bool) : specPass1 lt ([] : List (PT α)) = [] := rfl

theorem specPass1_one (lt : α → α → Bool) (a : PT α) : specPass1 lt [a] = [a] := rfl

theorem specPass1_cons₂ (lt : α → α → Bool) (a b : PT α) (rest : List (PT α)) :
    specPass1 lt (a :: b :: rest) = specMerge lt a b :: specPass1 lt rest := rfl

theorem idsF_specPass1 (lt : α → α → Bool) :
    ∀ (ts : List (PT α)), idsF (specPass1 lt ts) ~ idsF ts
  | [] => by rw [specPass1_nil]
  | [a] => by rw [specPass1_one]
  | a :: b :: rest => by
    rw [specPass1_cons₂]
    simp only [idsF_cons]
    calc idsT (specMerge lt a b) ++ idsF (specPass1 lt rest)
        ~ (idsT a ++ idsT b) ++ idsF rest :=
          List.Perm.append (idsT_specMerge lt a b) (idsF_specPass1 lt rest)
      _ = idsT a ++ (idsT b ++ idsF rest) := by simp

theorem itemsF_specPass1 (lt : α → α → Bool) :
    ∀ (ts : List (PT α)), itemsF (specPass1 lt ts) ~ itemsF ts
  | [] => by rw [specPass1_nil]
  | [a] => by rw [specPass1_one]
  | a :: b :: rest => by
    rw [specPass1_cons₂]
    simp only [itemsF_cons]
    calc itemsT (specMerge lt a b) ++ itemsF (specPass1 lt rest)
        ~ (itemsT a ++ itemsT b) ++ itemsF rest :=
          List.Perm.append (itemsT_specMerge lt a b) (itemsF_specPass1 lt rest)
      _ = itemsT a ++ (itemsT b ++ itemsF rest) := by simp

theorem hOrdF_specPass1 {lt : α → α → Bool} (hs : SWO lt) :
    ∀ (ts : List (PT α)), hOrdF lt ts → hOrdF lt (specPass1 lt ts)
  | [], h => by rwa [specPass1_nil]
  | [a], h => by rwa [specPass1_one]
  | a :: b :: rest, h => by
    rw [hOrdF_cons, hOrdF_cons] at h
    rw [specPass1_cons₂, hOrdF_cons]
    exact ⟨hOrdT_specMerge hs h.1 h.2.1, hOrdF_specPass1 hs rest h.2.2⟩

theorem idsO_specMergeO (lt : α → α → Bool) (a b : Option (PT α)) :
    idsO (specMergeO lt a b) ~ idsO a ++ idsO b := by
  match a, b with
  | none, b => simp [specMergeO, idsO]
  | some a, none => simp [specMergeO, idsO]
  | some a, some b => simpa [specMergeO, idsO] using idsT_specMerge lt a b

theorem itemsO_specMergeO (lt : α → α → Bool) (a b : Option (PT α)) :
    itemsO (specMergeO lt a b) ~ itemsO a ++ itemsO b := by
  match a, b with
  | none, b => simp [specMergeO, itemsO]
  | some a, none => simp [specMergeO, itemsO]
  | some a, some b => simpa [specMergeO, itemsO] using itemsT_specMerge lt a b

theorem hOrdO_specMergeO {lt : α → α → Bool} (hs : SWO lt) {a b : Option (PT α)}
    (ha : hOrdO lt a) (hb : hOrdO lt b) : hOrdO lt (specMergeO lt a b) := by
  match a, b with
  | none, b => exact hb
  | some a, none => exact ha
  | some a, some b => exact hOrdT_specMerge hs ha hb

theorem foldl_specMergeO_ids (lt : α → α → Bool) :
    ∀ (ms : List (PT α)) (acc : Option (PT α)),
    idsO (ms.foldl (fun a t => specMergeO lt a (some t)) acc) ~ idsO acc ++ idsF ms
  | [], acc => by simp
  | m :: rest, acc => by
    simp only [List.foldl_cons, idsF_cons]
    calc idsO (rest.foldl (fun a t => specMergeO lt a (some t)) (specMergeO lt acc (some m)))
        ~ idsO (specMergeO lt acc (some m)) ++ idsF rest := foldl_specMergeO_ids lt rest _
      _ ~ (idsO acc ++ idsT m) ++ idsF rest :=
          List.Perm.append (idsO_specMergeO lt acc (some m)) (List.Perm.refl _)
      _ = idsO acc ++ (idsT m ++ idsF rest) := by simp

theorem foldl_specMergeO_items (lt : α → α → Bool) :
    ∀ (ms : List (PT α)) (acc : Option (PT α)),
    itemsO (ms.foldl (fun a t => specMergeO lt a (some t)) acc) ~ itemsO acc ++ itemsF ms
  | [], acc => by simp
  | m :: rest, acc => by
    simp only [List.foldl_cons, itemsF_cons]
    calc itemsO (rest.foldl (fun a t => specMergeO lt a (some t)) (specMergeO lt acc (some m)))
        ~ itemsO (specMergeO lt acc (some m)) ++ itemsF rest := foldl_specMergeO_items lt rest _
      _ ~ (itemsO acc ++ itemsT m) ++ itemsF rest :=
          List.Perm.append (itemsO_specMergeO lt acc (some m)) (List.Perm.refl _)
      _ = itemsO acc ++ (itemsT m ++ itemsF rest) := by simp

theorem foldl_specMergeO_hOrd {lt : α → α → Bool} (hs : SWO lt) :
    ∀ (ms : List (PT α)) (acc : Option (PT α)), hOrdF lt ms → hOrdO lt acc →
    hOrdO lt (ms.foldl (fun a t => specMergeO lt a (some t)) acc)
  | [], acc, _, hacc => hacc
  | m :: rest, acc, hms, hacc => by
    rw [hOrdF_cons] at hms
    exact foldl_specMergeO_hOrd hs rest _ hms.2 (hOrdO_specMergeO hs hacc hms.1)

theorem hOrdF_reverse {lt : α → α → Bool} :
    ∀ (ts : List (PT α)), hOrdF lt ts → hOrdF lt ts.reverse := by
  have append : ∀ (l1 l2 : List (PT α)), hOrdF lt l1 → hOrdF lt l2 → hOrdF lt (l1 ++ l2) := by
    intro l1
    induction l1 with
    | nil => intro l2 _ h2; simpa using h2
    | cons t ts ih =>
      intro l2 h1 h2
      rw [hOrdF_cons] at h1
      rw [List.cons_append, hOrdF_cons]
      exact ⟨h1.1, ih l2 h1.2 h2⟩
  intro ts
  induction ts with
  | nil => intro h; exact h
  | cons t ts ih =>
    intro h
    rw [hOrdF_cons] at h
    rw [List.reverse_cons]
    refine append _ _ (ih h.2) ?_
    rw [hOrdF_cons]
    exact ⟨h.1, hOrdF_nil lt⟩

theorem idsF_reverse : ∀ (ts : List (PT α)), idsF ts.reverse ~ idsF ts := by
  have append : ∀ (l1 l2 : List (PT α)), idsF (l1 ++ l2) = idsF l1 ++ idsF l2 := by
    intro l1
    induction l1 with
    | nil => simp
    | cons t ts ih => intro l2; simp [ih]
  intro ts
  induction ts with
  | nil => simp [List.Perm.refl]
  | cons t ts ih =>
    rw [List.reverse_cons, append]
    calc idsF ts.reverse ++ idsF [t] ~ idsF [t] ++ idsF ts.reverse := List.perm_append_comm
      _ ~ idsF [t] ++ idsF ts := List.Perm.append_left _ ih
      _ = idsT t ++ idsF ts := by simp
      _ = idsF (t :: ts) := by simp

theorem itemsF_reverse : ∀ (ts : List (PT α)), itemsF ts.reverse ~ itemsF ts := by
  have append : ∀ (l1 l2 : List (PT α)), itemsF (l1 ++ l2) = itemsF l1 ++ itemsF l2 := by
    intro l1
    induction l1 with
    | nil => simp
    | cons t ts ih => intro l2; simp [ih]
  intro ts
  induction ts with
  | nil => simp [List.Perm.refl]
  | cons t ts ih =>
    rw [List.reverse_cons, append]
    calc itemsF ts.reverse ++ itemsF [t] ~ itemsF [t] ++ itemsF ts.reverse :=
          List.perm_append_comm
      _ ~ itemsF [t] ++ itemsF ts := List.Perm.append_left _ ih
      _ = itemsT t ++ itemsF ts := by simp
      _ = itemsF (t :: ts) := by simp

theorem idsO_specCollapse (lt : α → α → Bool) (ts : List (PT α)) :
    idsO (specCollapse lt ts) ~ idsF ts := by
  rw [specCollapse, specPass2]
  calc idsO ((specPass1 lt ts).reverse.foldl (fun a t => specMergeO lt a (some t)) none)
      ~ idsO (none : Option (PT α)) ++ idsF (specPass1 lt ts).reverse :=
        foldl_specMergeO_ids lt _ none
    _ = idsF (specPass1 lt ts).reverse := by simp [idsO]
    _ ~ idsF (specPass1 lt ts) := idsF_reverse _
    _ ~ idsF ts := idsF_specPass1 lt ts

theorem itemsO_specCollapse (lt : α → α → Bool) (ts : List (PT α)) :
    itemsO (specCollapse lt ts) ~ itemsF ts := by
  rw [specCollapse, specPass2]
  calc itemsO ((specPass1 lt ts).reverse.foldl (fun a t => specMergeO lt a (some t)) none)
      ~ itemsO (none : Option (PT α)) ++ itemsF (specPass1 lt ts).reverse :=
        foldl_specMergeO_items lt _ none
    _ = itemsF (specPass1 lt ts).reverse := by simp [itemsO]
    _ ~ itemsF (specPass1 lt ts) := itemsF_reverse _
    _ ~ itemsF ts := itemsF_specPass1 lt ts

theorem hOrdO_specCollapse {lt : α → α → Bool} (hs : SWO lt) (ts : List (PT α))
    (h : hOrdF lt ts) : hOrdO lt (specCollapse lt ts) := by
  rw [specCollapse, specPass2]
  refine foldl_specMergeO_hOrd hs _ none ?_ trivial
  exact hOrdF_reverse _ (hOrdF_specPass1 hs ts h)

theorem specPass1_ne_nil (lt : α → α → Bool) :
    ∀ (ts : List (PT α)), ts ≠ [] → specPass1 lt ts ≠ []
  | [], h => absurd rfl h
  | [a], _ => by rw [specPass1_one]; simp
  | a :: b :: rest, _ => by rw [specPass1_cons₂]; simp

theorem foldl_specMergeO_isSome (lt : α → α → Bool) :
    ∀ (ms : List (PT α)) (acc : Option (PT α)), (acc.isSome ∨ ms ≠ []) →
    (ms.foldl (fun a t => specMergeO lt a (some t)) acc).isSome
  | [], acc, h => by
    rcases h with h | h
    · simpa using h
    · exact absurd rfl h
  | m :: rest, acc, _ => by
    simp only [List.foldl_cons]
    refine foldl_specMergeO_isSome lt rest _ (Or.inl ?_)
    match acc with
    | none => simp [specMergeO]
    | some a => simp [specMergeO]

theorem specCollapse_isSome (lt : α → α → Bool) (ts : List (PT α)) (h : ts ≠ []) :
    (specCollapse lt ts).isSome := by
  rw [specCollapse, specPass2]
  refine foldl_specMergeO_isSome lt _ none (Or.inr ?_)
  simpa using specPass1_ne_nil lt ts h

/-!
## Store-level characterization of `merge`
-/
theorem wrItem_other (s : St α) {j i : Nat} (x : Option α) (h : j ≠ i) :
    wrItem s i x j = s j := by simp [wrItem, wr, h]

theorem wrChild_other (s : St α) {j i : Nat} (c : Option Nat) (h : j ≠ i) :
    wrChild s i c j = s j := by simp [wrChild, wr, h]

theorem wrNext_other (s : St α) {j i : Nat} (x : Option Nat) (h : j ≠ i) :
    wrNext s i x j = s j := by simp [wrNext, wr, h]

theorem wrPrev_other (s : St α) {j i : Nat} (x : Option Nat) (h : j ≠ i) :
    wrPrev s i x j = s j := by simp [wrPrev, wr, h]

@[simp] theorem wrItem_self (s : St α) (i : Nat) (x : Option α) :
    wrItem s i x i = { s i with item := x } := by simp [wrItem]

@[simp] theorem wrChild_self (s : St α) (i : Nat) (c : Option Nat) :
    wrChild s i c i = { s i with child := c } := by simp [wrChild]

@[simp] theorem wrNext_self (s : St α) (i : Nat) (x : Option Nat) :
    wrNext s i x i = { s i with next := x } := by simp [wrNext]

@[simp] theorem wrPrev_self (s : St α) (i : Nat) (x : Option Nat) :
    wrPrev s i x i = { s i with prev := x } := by simp [wrPrev]

theorem mergeCore_def (lt : α → α → Bool) (s : St α) (ia ib : Nat) :
    mergeCore lt s ia ib =
      if ltO lt (s ib).item (s ia).item then (ib, mergeWr s ib ia)
      else (ia, mergeWr s ia ib) := by
  rw [mergeCore, mergeWr, mergeWr]
  split <;> rfl

/-- After the writes, the parent's record: its item survives, its first child
is `c`, its own `next`/`prev` are cleared. -/
theorem mergeWr_p (s : St α) {p c : Nat} (hne : p ≠ c) :
    mergeWr s p c p = ⟨(s p).item, some c, none, none⟩ := by
  have hcp : c ≠ p := fun h => hne h.symm
  simp only [mergeWr]
  rw [wrNext_other s ((s p).child) hne]
  rcases hch : (s p).child with _ | q
  · simp [wrPrev, wrChild, wrNext, wr, hne, hcp]
  · by_cases hq : q = p
    · subst hq
      simp [wrPrev, wrChild, wrNext, wr, hne, hcp]
    · have hq2 : p ≠ q := fun h => hq h.symm
      simp [wrPrev, wrChild, wrNext, wr, hne, hcp, hq, hq2]

/-- After the writes, the child's record: item and child survive, `next` is
the parent's former first child, `prev` is the parent. -/
theorem mergeWr_c (s : St α) {p c : Nat} (hne : p ≠ c) :
    mergeWr s p c c = ⟨(s c).item, (s c).child, (s p).child, some p⟩ := by
  have hcp : c ≠ p := fun h => hne h.symm
  simp only [mergeWr]
  rw [wrNext_other s ((s p).child) hne]
  rcases hch : (s p).child with _ | q
  · simp [wrPrev, wrChild, wrNext, wr, hne, hcp]
  · by_cases hq : q = c
    · subst hq
      simp [wrPrev, wrChild, wrNext, wr, hne, hcp]
    · have hq2 : c ≠ q := fun h => hq h.symm
      simp [wrPrev, wrChild, wrNext, wr, hne, hcp, hq, hq2]

/-- After the writes, any other node is untouched, except that the parent's
former first child now has the child as its `prev`. -/
theorem mergeWr_other (s : St α) {p c j : Nat} (hne : p ≠ c) (hjp : j ≠ p) (hjc : j ≠ c) :
    mergeWr s p c j =
      if (s p).child = some j then { s j with prev := some c } else s j := by
  have hcp : c ≠ p := fun h => hne h.symm
  simp only [mergeWr]
  rw [wrNext_other s ((s p).child) hne]
  rcases hch : (s p).child with _ | q
  · simp [wrPrev, wrChild, wrNext, wr, hne, hcp, hjp, hjc]
  · by_cases hq : q = j
    · subst hq
      simp [wrPrev, wrChild, wrNext, wr, hne, hcp, hjp, hjc, Ne.symm hjp, Ne.symm hjc]
    · have hq2 : j ≠ q := fun h => hq h.symm
      simp [wrPrev, wrChild, wrNext, wr, hne, hcp, hjp, hjc, hq, hq2]

theorem nodup_append_swap {l1 l2 : List Nat} (h : (l1 ++ l2).Nodup) :
    (l2 ++ l1).Nodup := List.perm_append_comm.nodup h

/-- A represented sibling list starts at the id of its first tree (or is
absent). -/
theorem reprL_first {s : St α} {first : Option Nat} {p : Nat} {cs : List (PT α)}
    (h : ReprL s first p cs) :
    (cs = [] ∧ first = none) ∨ ∃ c0 rest, cs = c0 :: rest ∧ first = some c0.idOf := by
  cases cs with
  | nil => exact Or.inl ⟨rfl, (reprL_nil).1 h⟩
  | cons c0 rest => exact Or.inr ⟨c0, rest, rfl, ((reprL_cons).1 h).1⟩

theorem mem_idsF_of_mem {cs : List (PT α)} {c : PT α} (hc : c ∈ cs) :
    ∀ {j : Nat}, j ∈ idsT c → j ∈ idsF cs := by
  induction cs with
  | nil => cases hc
  | cons d ds ih =>
    intro j hj
    rcases List.mem_cons.mp hc with rfl | hc'
    · simp [hj]
    · simp [ih hc' hj]

theorem mem_idsT_children {t : PT α} {j : Nat} (hj : j ∈ idsF t.children) : j ∈ idsT t := by
  obtain ⟨i, x, cs⟩ := t
  simp only [PT.children_mk] at hj
  simp [hj]

theorem nodup_idsT_of_mem {cs : List (PT α)} (hnd : (idsF cs).Nodup) {c : PT α}
    (hc : c ∈ cs) : (idsT c).Nodup := by
  induction cs with
  | nil => cases hc
  | cons d ds ih =>
    rw [idsF_cons] at hnd
    rcases List.mem_cons.mp hc with rfl | hc'
    · exact hnd.of_append_left
    · exact ih hnd.of_append_right hc'

theorem idOf_not_mem_children {t : PT α} (hnd : (idsT t).Nodup) :
    t.idOf ∉ idsF t.children := by
  obtain ⟨i, x, cs⟩ := t
  simp only [idsT_mk, List.nodup_cons] at hnd
  simpa using hnd.1

/-- Core of the merge simulation: with parent tree `tp` and child tree `tc`
already chosen, the writes of `merge` produce a store representing the tree
with `tc` pushed as the parent's new first child, the new root's `next`/`prev`
cleared, and all nodes outside the two trees untouched. -/
theorem mergeWr_repr {s : St α} {tp tc : PT α}
    (hp : ReprT s tp) (hc : ReprT s tc)
    (hnd : (idsT tp ++ idsT tc).Nodup) :
    ReprT (mergeWr s tp.idOf tc.idOf) (PT.mk tp.idOf tp.itm (tc :: tp.children)) ∧
    (mergeWr s tp.idOf tc.idOf tp.idOf).next = none ∧
    (mergeWr s tp.idOf tc.idOf tp.idOf).prev = none ∧
    (∀ j, j ∉ idsT tp → j ∉ idsT tc → mergeWr s tp.idOf tc.idOf j = s j) := by
  obtain ⟨ip, xp, csp⟩ := tp
  have htc : tc.idOf ∈ idsT tc := idOf_mem_idsT tc
  simp only [PT.idOf_mk, PT.itm_mk, PT.children_mk] at *
  have hdisj : (idsT (PT.mk ip xp csp)).Disjoint (idsT tc) :=
    List.disjoint_of_nodup_append hnd
  have hndc : (idsT tc).Nodup := hnd.of_append_right
  have hpc : ip ≠ tc.idOf := fun h =>
    hdisj (show ip ∈ idsT (PT.mk ip xp csp) by simp) (by rw [h]; exact htc)
  have hip_not_c : ip ∉ idsT tc := fun h =>
    hdisj (show ip ∈ idsT (PT.mk ip xp csp) by simp) h
  have hic_not_p : tc.idOf ∉ idsF csp := fun h => hdisj (by simp [h]) htc
  have hip_not_p : ip ∉ idsF csp := by
    have h2 := hnd.of_append_left
    simp only [idsT_mk, List.nodup_cons] at h2
    exact h2.1
  have hndcs : (idsF csp).Nodup := by
    have h2 := hnd.of_append_left
    simp only [idsT_mk, List.nodup_cons] at h2
    exact h2.2
  obtain ⟨hpitem, hpl⟩ := (reprT_mk).mp hp
  have hsp := mergeWr_p s hpc
  have hsc := mergeWr_c s hpc
  set s' := mergeWr s ip tc.idOf with hs'
  have hframe : ∀ j, j ≠ ip → j ≠ tc.idOf → (s ip).child ≠ some j → s' j = s j := by
    intro j hj1 hj2 hj3
    rw [hs', mergeWr_other s hpc hj1 hj2, if_neg hj3]
  have hnx : (s' tc.idOf).next = (s ip).child := by rw [hsc]
  rcases reprL_first hpl with ⟨hnil, hfi⟩ | ⟨c0, rest, hcons, hfi⟩
  · -- the parent had no children
    subst hnil
    refine ⟨?_, by rw [hsp], by rw [hsp], ?_⟩
    · rw [reprT_mk, hsp]
      refine ⟨hpitem, ?_⟩
      rw [reprL_cons]
      refine ⟨rfl, by rw [hsc], ?_, ?_⟩
      · refine reprT_frame_root hc (by rw [hsc]) (by rw [hsc]) ?_
        intro j hj
        have hjT : j ∈ idsT tc := mem_idsT_children hj
        refine hframe j (fun h => hip_not_c (h ▸ hjT)) ?_ (by simp [hfi])
        intro h
        exact idOf_not_mem_children hndc (h ▸ hj)
      · rw [hnx, hfi, reprL_nil]
    · intro j hjp hjc
      exact hframe j (fun h => hjp (by simp [h])) (fun h => hjc (h.symm ▸ htc))
        (by simp [hfi])
  · -- the parent had first child c0
    subst hcons
    rw [reprL_cons] at hpl
    obtain ⟨hfi2, hprev0, hrc0, hrest⟩ := hpl
    have hc0mem : c0.idOf ∈ idsF (c0 :: rest) :=
      mem_idsF_of_mem (by simp) (idOf_mem_idsT c0)
    have hc0p : c0.idOf ≠ ip := fun h => hip_not_p (h ▸ hc0mem)
    have hc0c : c0.idOf ≠ tc.idOf := fun h => hic_not_p (h ▸ hc0mem)
    have hs'c0 : s' c0.idOf = { s c0.idOf with prev := some tc.idOf } := by
      rw [hs', mergeWr_other s hpc hc0p hc0c, hfi, if_pos rfl]
    have hndc0 : (idsT c0).Nodup := nodup_idsT_of_mem hndcs (by simp)
    have hnd0 : c0.idOf ∉ idsF rest := by
      have h2 := hndcs
      rw [idsF_cons, List.nodup_append] at h2
      exact fun h => h2.2.2 (idOf_mem_idsT c0) h
    have hchild_ne : ∀ j, j ≠ c0.idOf → (s ip).child ≠ some j := by
      intro j hj hcon
      rw [hfi] at hcon
      exact hj (by simpa using hcon.symm)
    have hmemT : ∀ {j : Nat}, j ∈ idsF (c0 :: rest) → j ∈ idsT (PT.mk ip xp (c0 :: rest)) := by
      intro j hj
      simp only [idsT_mk, List.mem_cons]
      exact Or.inr hj
    refine ⟨?_, by rw [hsp], by rw [hsp], ?_⟩
    · rw [reprT_mk, hsp]
      refine ⟨hpitem, ?_⟩
      rw [reprL_cons]
      refine ⟨rfl, by rw [hsc], ?_, ?_⟩
      · -- the pushed child tree tc survives
        refine reprT_frame_root hc (by rw [hsc]) (by rw [hsc]) ?_
        intro j hj
        have hjT : j ∈ idsT tc := mem_idsT_children hj
        refine hframe j (fun h => hip_not_c (h ▸ hjT)) ?_ ?_
        · intro h
          exact idOf_not_mem_children hndc (h ▸ hj)
        · refine hchild_ne j ?_
          intro h
          exact hdisj (hmemT hc0mem) (h ▸ hjT)
      · -- the former child list, its head's prev repointed at tc
        rw [hnx, hfi, reprL_cons]
        refine ⟨rfl, by rw [hs'c0], ?_, ?_⟩
        · -- c0's subtree survives with only its root's prev changed
          refine reprT_frame_root hrc0 (by rw [hs'c0]) (by rw [hs'c0]) ?_
          intro j hj
          have hjc0 : j ∈ idsT c0 := mem_idsT_children hj
          have hjcs : j ∈ idsF (c0 :: rest) := mem_idsF_of_mem (by simp) hjc0
          refine hframe j (fun h => hip_not_p (h ▸ hjcs))
            (fun h => hdisj (hmemT hjcs) (h.symm ▸ htc)) ?_
          refine hchild_ne j ?_
          intro h
          exact idOf_not_mem_children hndc0 (h ▸ hj)
        · -- the rest of the sibling list is untouched
          have hnx0 : (s' c0.idOf).next = (s c0.idOf).next := by rw [hs'c0]
          rw [hnx0]
          refine reprL_frame rest hrest ?_
          intro j hj
          have hjcs : j ∈ idsF (c0 :: rest) := by simp [hj]
          refine hframe j (fun h => hip_not_p (h ▸ hjcs))
            (fun h => hdisj (hmemT hjcs) (h.symm ▸ htc)) ?_
          exact hchild_ne j (fun h => hnd0 (h ▸ hj))
    · intro j hjp hjc
      refine hframe j (fun h => hjp (by simp [h])) (fun h => hjc (h.symm ▸ htc)) ?_
      refine hchild_ne j ?_
      intro h
      refine hjp ?_
      simp only [idsT_mk, List.mem_cons]
      right
      rw [h]
      exact hc0mem

theorem reprT_item {s : St α} {t : PT α} (h : ReprT s t) :
    (s t.idOf).item = some t.itm := by
  obtain ⟨i, x, cs⟩ := t
  exact ((reprT_mk).mp h).1

/-- Merge simulation: `merge` refines `specMerge` on two disjoint represented trees: the result
is the merged tree's root, the store represents the merged tree, the new
root's `next`/`prev` are cleared, and everything else is untouched. -/
theorem merge_sim {lt : α → α → Bool} {s : St α} {ta tb : PT α}
    (ha : ReprT s ta) (hb : ReprT s tb)
    (hnd : (idsT ta ++ idsT tb).Nodup) :
    (merge lt s (some ta.idOf) (some tb.idOf)).1 = some (specMerge lt ta tb).idOf ∧
    ReprT (merge lt s (some ta.idOf) (some tb.idOf)).2 (specMerge lt ta tb) ∧
    ((merge lt s (some ta.idOf) (some tb.idOf)).2 (specMerge lt ta tb).idOf).next = none ∧
    ((merge lt s (some ta.idOf) (some tb.idOf)).2 (specMerge lt ta tb).idOf).prev = none ∧
    ∀ j, j ∉ idsT ta → j ∉ idsT tb →
      (merge lt s (some ta.idOf) (some tb.idOf)).2 j = s j := by
  have hne : ta.idOf ≠ tb.idOf := by
    intro h
    exact List.disjoint_of_nodup_append hnd (idOf_mem_idsT ta) (h ▸ idOf_mem_idsT tb)
  have hlt : ltO lt (s tb.idOf).item (s ta.idOf).item = lt tb.itm ta.itm := by
    rw [reprT_item ha, reprT_item hb]
    rfl
  simp only [merge, if_neg hne, mergeCore_def, hlt]
  by_cases hcmp : lt tb.itm ta.itm
  · simp only [if_pos hcmp, specMerge]
    have ms := mergeWr_repr hb ha (nodup_append_swap hnd)
    refine ⟨by simp, ?_, by simpa using ms.2.1, by simpa using ms.2.2.1, ?_⟩
    · simpa using ms.1
    · intro j hja hjb
      simpa using ms.2.2.2 j hjb hja
  · simp only [if_neg hcmp, specMerge]
    have ms := mergeWr_repr ha hb hnd
    refine ⟨by simp, ?_, by simpa using ms.2.1, by simpa using ms.2.2.1, ?_⟩
    · simpa using ms.1
    · intro j hja hjb
      simpa using ms.2.2.2 j hja hjb

theorem optRepr_none {s : St α} : OptRepr s none none := trivial

theorem optRepr_some {s : St α} {r : Nat} {t : PT α} :
    OptRepr s (some r) (some t) ↔ r = t.idOf ∧ ReprT s t := Iff.rfl

theorem specPass1_length_le (lt : α → α → Bool) :
    ∀ (ts : List (PT α)), (specPass1 lt ts).length ≤ ts.length
  | [] => by rw [specPass1_nil]
  | [a] => by rw [specPass1_one]
  | a :: b :: rest => by
    rw [specPass1_cons₂]
    have := specPass1_length_le lt rest
    simp only [List.length_cons]
    omega

theorem reprS_of_reprL {s : St α} {first : Option Nat} {p : Nat} :
    ∀ {cs : List (PT α)}, ReprL s first p cs → ReprS s first cs
  | [], h => by
    rw [reprL_nil] at h
    rw [reprS_nil]
    exact h
  | c :: rest, h => by
    rw [reprL_cons] at h
    rw [reprS_cons]
    exact ⟨h.1, h.2.2.1, reprS_of_reprL h.2.2.2⟩

theorem perm_rearrange (A B P M : List Nat) :
    P ++ ((A ++ B) ++ M) ~ (A ++ (B ++ P)) ++ M := by
  calc P ++ ((A ++ B) ++ M) = (P ++ (A ++ B)) ++ M := by simp
    _ ~ ((A ++ B) ++ P) ++ M := List.Perm.append_right M List.perm_append_comm
    _ = (A ++ (B ++ P)) ++ M := by simp

/-- The `mergeCore` version of the merge simulation. -/
theorem mergeCore_sim {lt : α → α → Bool} {s : St α} {ta tb : PT α}
    (ha : ReprT s ta) (hb : ReprT s tb)
    (hnd : (idsT ta ++ idsT tb).Nodup) :
    (mergeCore lt s ta.idOf tb.idOf).1 = (specMerge lt ta tb).idOf ∧
    ReprT (mergeCore lt s ta.idOf tb.idOf).2 (specMerge lt ta tb) ∧
    ((mergeCore lt s ta.idOf tb.idOf).2 (specMerge lt ta tb).idOf).next = none ∧
    ((mergeCore lt s ta.idOf tb.idOf).2 (specMerge lt ta tb).idOf).prev = none ∧
    ∀ j, j ∉ idsT ta → j ∉ idsT tb →
      (mergeCore lt s ta.idOf tb.idOf).2 j = s j := by
  have hne : ta.idOf ≠ tb.idOf := by
    intro h
    exact List.disjoint_of_nodup_append hnd (idOf_mem_idsT ta) (h ▸ idOf_mem_idsT tb)
  have hm := @merge_sim _ lt _ _ _ ha hb hnd
  simp only [merge, if_neg hne] at hm
  refine ⟨by simpa using hm.1, hm.2.1, hm.2.2.1, hm.2.2.2.1, hm.2.2.2.2⟩

/-- Pass 1 of `collapse` refines `specPass1`: starting from a represented
sibling list `ts` and an already built scratch list `ms`, the loop ends with
the scratch list holding the pass-1 results (in reverse push order) on top of
`ms`, and touches only nodes of `ts`. -/
theorem pass1_sim {lt : α → α → Bool} :
    ∀ (ts : List (PT α)) {ms : List (PT α)} {s : St α} {next tail : Option Nat}
      (fuel : Nat),
    ReprS s next ts → ReprTemp s tail ms →
    (idsF ts ++ idsF ms).Nodup →
    ts.length ≤ fuel →
    ReprTemp (collapsePass1 lt fuel s next tail).2 (collapsePass1 lt fuel s next tail).1
      ((specPass1 lt ts).reverse ++ ms) ∧
    ∀ j, j ∉ idsF ts → (collapsePass1 lt fuel s next tail).2 j = s j
  | [], ms, s, next, tail, fuel, hs, hm, hnd, hfuel => by
    have hnone : next = none := (reprS_nil).mp hs
    subst hnone
    cases fuel with
    | zero => exact ⟨by simpa [collapsePass1, specPass1_nil] using hm, fun j _ => rfl⟩
    | succ f => exact ⟨by simpa [collapsePass1, specPass1_nil] using hm, fun j _ => rfl⟩
  | [a], ms, s, next, tail, fuel, hs, hm, hnd, hfuel => by
    rw [reprS_cons] at hs
    obtain ⟨hfi, hra, hrest⟩ := hs
    have hnext : (s a.idOf).next = none := (reprS_nil).mp hrest
    cases fuel with
    | zero => exact absurd hfuel (by simp)
    | succ f =>
      subst hfi
      simp only [collapsePass1, hnext]
      have hnda : (idsT a).Nodup := by
        have := hnd.of_append_left
        simpa using this
      have haid : a.idOf ∉ idsF ms := by
        have := List.disjoint_of_nodup_append hnd
        exact fun h => this (by simpa using idOf_mem_idsT a) h
      constructor
      · rw [specPass1_one]
        simp only [List.reverse_singleton, List.singleton_append]
        rw [reprTemp_cons]
        refine ⟨rfl, ?_, ?_, ?_⟩
        · rw [wrPrev_self]
          exact hnext
        · refine reprT_frame_root hra ?_ ?_ ?_
          · rw [wrPrev_self]
          · rw [wrPrev_self]
          · intro j hj
            refine wrPrev_other s tail ?_
            intro h
            exact idOf_not_mem_children hnda (h ▸ hj)
        · rw [wrPrev_self]
          refine reprTemp_frame ms hm ?_
          intro j hj
          refine wrPrev_other s tail ?_
          intro h
          exact haid (h ▸ hj)
      · intro j hj
        refine wrPrev_other s tail ?_
        intro h
        exact hj (by simp [h, idOf_mem_idsT a])
  | a :: b :: rest, ms, s, next, tail, fuel, hs, hm, hnd, hfuel => by
    rw [reprS_cons] at hs
    obtain ⟨hfi, hra, hs2⟩ := hs
    rw [reprS_cons] at hs2
    obtain ⟨hfi2, hrb, hrest⟩ := hs2
    cases fuel with
    | zero => exact absurd hfuel (by simp)
    | succ f =>
      subst hfi
      simp only [collapsePass1, hfi2]
      -- disjointness bookkeeping
      have hndts : (idsF (a :: b :: rest)).Nodup := hnd.of_append_left
      have hndab : (idsT a ++ idsT b).Nodup := by
        have h1 : idsT a ++ idsT b <+ idsT a ++ (idsT b ++ idsF rest) :=
          List.Sublist.append_left (List.sublist_append_left _ _) _
        exact List.Nodup.sublist h1 (by simpa using hndts)
      have hdAB : (idsT a).Disjoint (idsT b ++ idsF rest) :=
        List.disjoint_of_nodup_append (by simpa using hndts)
      have hdBR : (idsT b).Disjoint (idsF rest) :=
        List.disjoint_of_nodup_append ((by simpa using hndts : 
          (idsT a ++ (idsT b ++ idsF rest)).Nodup).of_append_right)
      have hdM : (idsF (a :: b :: rest)).Disjoint (idsF ms) :=
        List.disjoint_of_nodup_append hnd
      have hnotR : ∀ {j : Nat}, j ∈ idsT a ∨ j ∈ idsT b → j ∉ idsF rest := by
        intro j hj hcon
        rcases hj with h | h
        · exact hdAB h (by simp [hcon])
        · exact hdBR h hcon
      have hnotM : ∀ {j : Nat}, j ∈ idsT a ∨ j ∈ idsT b → j ∉ idsF ms := by
        intro j hj hcon
        refine hdM ?_ hcon
        rcases hj with h | h
        · simp [h]
        · simp [h]
      have hm1 := @mergeCore_sim _ lt _ _ _ hra hrb hndab
      obtain ⟨hres1, hrm, hmn, hmp, hframe1⟩ := hm1
      have hmem_ab : ∀ {j : Nat}, j ∈ idsT (specMerge lt a b) → j ∈ idsT a ∨ j ∈ idsT b := by
        intro j hj
        have := (idsT_specMerge lt a b).mem_iff.mp hj
        simpa using this
      have hmid : (specMerge lt a b).idOf ∈ idsT a ∨ (specMerge lt a b).idOf ∈ idsT b :=
        hmem_ab (idOf_mem_idsT _)
      have hndm : (idsT (specMerge lt a b)).Nodup :=
        ((idsT_specMerge lt a b).nodup_iff).mpr hndab
      rw [hres1]
      have hframe2 : ∀ j, j ∉ idsT a → j ∉ idsT b →
          wrPrev (mergeCore lt s a.idOf b.idOf).2 (specMerge lt a b).idOf tail j
            = s j := by
        intro j hj1 hj2
        have hjm : j ≠ (specMerge lt a b).idOf := by
          intro h
          rcases hmid with hh | hh
          · exact hj1 (h ▸ hh)
          · exact hj2 (h ▸ hh)
        rw [wrPrev_other _ tail hjm]
        exact hframe1 j hj1 hj2
      -- state after the scratch write
      have hs2m : ∀ j, j ≠ (specMerge lt a b).idOf →
          wrPrev (mergeCore lt s a.idOf b.idOf).2 (specMerge lt a b).idOf tail j
            = (mergeCore lt s a.idOf b.idOf).2 j := by
        intro j hj
        rw [wrPrev_other _ tail hj]
      have hs2self :
          wrPrev (mergeCore lt s a.idOf b.idOf).2 (specMerge lt a b).idOf tail
            (specMerge lt a b).idOf
            = { (mergeCore lt s a.idOf b.idOf).2 (specMerge lt a b).idOf
                with prev := tail } := by
        rw [wrPrev_self]
      -- recursion prerequisites
      have hrS : ReprS (wrPrev (mergeCore lt s a.idOf b.idOf).2
          (specMerge lt a b).idOf tail) ((s b.idOf).next) rest := by
        refine reprS_frame rest hrest ?_
        intro j hj
        refine (hs2m j ?_).trans (hframe1 j ?_ ?_)
        · intro h
          exact hnotR hmid (h ▸ hj)
        · exact fun h => hnotR (Or.inl h) hj
        · exact fun h => hnotR (Or.inr h) hj
      have hrT : ReprTemp (wrPrev (mergeCore lt s a.idOf b.idOf).2
          (specMerge lt a b).idOf tail)
          (some (specMerge lt a b).idOf) (specMerge lt a b :: ms) := by
        rw [reprTemp_cons]
        refine ⟨rfl, ?_, ?_, ?_⟩
        · rw [hs2self]
          exact hmn
        · refine reprT_frame_root hrm (by rw [hs2self]) (by rw [hs2self]) ?_
          intro j hj
          refine hs2m j ?_
          intro h
          exact idOf_not_mem_children hndm (h ▸ hj)
        · rw [hs2self]
          refine reprTemp_frame ms hm ?_
          intro j hj
          refine (hs2m j ?_).trans (hframe1 j ?_ ?_)
          · intro h
            exact hnotM hmid (h ▸ hj)
          · exact fun h => hnotM (Or.inl h) hj
          · exact fun h => hnotM (Or.inr h) hj
      have hndrec : (idsF rest ++ idsF (specMerge lt a b :: ms)).Nodup := by
        have hperm : ((idsT a ++ (idsT b ++ idsF rest)) ++ idsF ms) ~
            (idsF rest ++ (idsT (specMerge lt a b) ++ idsF ms)) := by
          refine List.Perm.trans (perm_rearrange (idsT a) (idsT b) (idsF rest)
            (idsF ms)).symm ?_
          exact List.Perm.append_left (idsF rest)
            (List.Perm.append (idsT_specMerge lt a b).symm (List.Perm.refl _))
        have := hperm.nodup (by simpa using hnd)
        simpa using this
      have hfuel' : rest.length ≤ f := by
        simp only [List.length_cons] at hfuel
        omega
      have hrec := @pass1_sim lt rest _ _ _ _ f hrS hrT hndrec hfuel'
      constructor
      · have hlist : (specPass1 lt (a :: b :: rest)).reverse ++ ms =
            (specPass1 lt rest).reverse ++ (specMerge lt a b :: ms) := by
          rw [specPass1_cons₂, List.reverse_cons, List.append_assoc]
          rfl
        rw [hlist]
        exact hrec.1
      · intro j hj
        have hja : j ∉ idsT a := fun h => hj (by simp [h])
        have hjb : j ∉ idsT b := fun h => hj (by simp [h])
        have hjr : j ∉ idsF rest := fun h => hj (by simp [h])
        exact (hrec.2 j hjr).trans (hframe2 j hja hjb)

theorem optRepr_none_inv {s : St α} {r0 : Option Nat} (h : OptRepr s r0 none) :
    r0 = none := by
  cases r0 with
  | none => rfl
  | some r => exact h.elim

theorem optRepr_some_inv {s : St α} {r0 : Option Nat} {t : PT α}
    (h : OptRepr s r0 (some t)) : r0 = some t.idOf ∧ ReprT s t := by
  cases r0 with
  | none => exact h.elim
  | some r =>
    obtain ⟨h1, h2⟩ := h
    exact ⟨by rw [h1], h2⟩

/-- Pass 2 of `collapse` refines the right-to-left reduction of the scratch
list: folding Merge(accumulator, next-in-temp-list).  The accumulated root,
when present, has a clear `next` and a `prev` that is either clear or the
current scratch pointer; at the end the scratch pointer is absent, so the
final root is fully detached. -/
theorem pass2_sim {lt : α → α → Bool} :
    ∀ (ms : List (PT α)) {res : Option (PT α)} {s : St α} {tail r0 : Option Nat}
      (fuel : Nat),
    ReprTemp s tail ms →
    OptRepr s r0 res →
    (idsO res ++ idsF ms).Nodup →
    ms.length ≤ fuel →
    (∀ rt, res = some rt → (s rt.idOf).next = none ∧
      ((s rt.idOf).prev = none ∨ (s rt.idOf).prev = tail)) →
    OptRepr (collapsePass2 lt fuel s tail r0).2 (collapsePass2 lt fuel s tail r0).1
      (ms.foldl (fun a t => specMergeO lt a (some t)) res) ∧
    (∀ rt, ms.foldl (fun a t => specMergeO lt a (some t)) res = some rt →
      ((collapsePass2 lt fuel s tail r0).2 rt.idOf).next = none ∧
      ((collapsePass2 lt fuel s tail r0).2 rt.idOf).prev = none) ∧
    ∀ j, j ∉ idsO res → j ∉ idsF ms → (collapsePass2 lt fuel s tail r0).2 j = s j
  | [], res, s, tail, r0, fuel, hms, hr, hnd, hfuel, hres => by
    have htail : tail = none := (reprTemp_nil).mp hms
    subst htail
    have hsame : collapsePass2 lt fuel s none r0 = (r0, s) := by
      cases fuel with
      | zero => rw [collapsePass2]
      | succ f => rw [collapsePass2]
    rw [hsame]
    refine ⟨hr, ?_, fun j _ _ => rfl⟩
    intro rt hrt
    simp only [List.foldl_nil] at hrt
    have h2 := hres rt hrt
    rcases h2.2 with h | h
    · exact ⟨h2.1, h⟩
    · exact ⟨h2.1, h⟩
  | m :: rest, res, s, tail, r0, fuel, hms, hr, hnd, hfuel, hres => by
    rw [reprTemp_cons] at hms
    obtain ⟨htail, hmn, hrm, hms'⟩ := hms
    cases fuel with
    | zero => exact absurd hfuel (by simp)
    | succ f =>
      subst htail
      simp only [collapsePass2, List.foldl_cons]
      cases res with
      | none =>
        have hr0 : r0 = none := optRepr_none_inv hr
        subst hr0
        have hmerge : merge lt s none (some m.idOf) = (some m.idOf, s) := rfl
        simp only [hmerge]
        have hres' : ∀ rt, (some m : Option (PT α)) = some rt →
            (s rt.idOf).next = none ∧
            ((s rt.idOf).prev = none ∨ (s rt.idOf).prev = (s m.idOf).prev) := by
          intro rt hrt
          have hrteq : rt = m := (Option.some.inj hrt).symm
          subst hrteq
          exact ⟨hmn, Or.inr rfl⟩
        have hrec := @pass2_sim lt rest (some m) s ((s m.idOf).prev) (some m.idOf) f
          hms' ⟨rfl, hrm⟩ (by simpa using hnd)
          (by simp only [List.length_cons] at hfuel; omega) hres'
        have hfold : specMergeO lt none (some m) = some m := rfl
        rw [hfold]
        refine ⟨hrec.1, hrec.2.1, ?_⟩
        intro j hj1 hj2
        refine hrec.2.2 j ?_ ?_
        · simp only [idsO]
          exact fun h => hj2 (by simp [h])
        · exact fun h => hj2 (by simp [h])
      | some rt =>
        obtain ⟨hr0, hrt⟩ := optRepr_some_inv hr
        subst hr0
        have hnd2 : (idsT rt ++ idsT m).Nodup := by
          have h1 : idsT rt ++ idsT m <+ idsT rt ++ (idsT m ++ idsF rest) :=
            List.Sublist.append_left (List.sublist_append_left _ _) _
          exact List.Nodup.sublist h1 (by simpa using hnd)
        have hm2 := @merge_sim _ lt _ _ _ hrt hrm hnd2
        obtain ⟨hres2, hrepr2, hnext2, hprev2, hframe2⟩ := hm2
        rw [hres2]
        have hdRT : (idsT rt).Disjoint (idsT m ++ idsF rest) :=
          List.disjoint_of_nodup_append (by simpa using hnd)
        have hdMR : (idsT m).Disjoint (idsF rest) :=
          List.disjoint_of_nodup_append ((by simpa using hnd :
            (idsT rt ++ (idsT m ++ idsF rest)).Nodup).of_append_right)
        have hmem_sm : ∀ {j : Nat}, j ∈ idsT (specMerge lt rt m) →
            j ∈ idsT rt ∨ j ∈ idsT m := by
          intro j hj
          have := (idsT_specMerge lt rt m).mem_iff.mp hj
          simpa using this
        have hnotR : ∀ {j : Nat}, j ∈ idsT rt ∨ j ∈ idsT m → j ∉ idsF rest := by
          intro j hj hcon
          rcases hj with h | h
          · exact hdRT h (by simp [hcon])
          · exact hdMR h hcon
        have hrT' : ReprTemp (merge lt s (some rt.idOf) (some m.idOf)).2
            ((s m.idOf).prev) rest := by
          refine reprTemp_frame rest hms' ?_
          intro j hj
          refine hframe2 j ?_ ?_
          · exact fun h => hnotR (Or.inl h) hj
          · exact fun h => hnotR (Or.inr h) hj
        have hndrec : (idsO (some (specMerge lt rt m)) ++ idsF rest).Nodup := by
          have hperm : (idsT rt ++ (idsT m ++ idsF rest)) ~
              (idsT (specMerge lt rt m) ++ idsF rest) := by
            calc idsT rt ++ (idsT m ++ idsF rest)
                = (idsT rt ++ idsT m) ++ idsF rest := by simp
              _ ~ idsT (specMerge lt rt m) ++ idsF rest :=
                  List.Perm.append_right _ (idsT_specMerge lt rt m).symm
          have := hperm.nodup (by simpa using hnd)
          simpa [idsO] using this
        have hres' : ∀ rt2, (some (specMerge lt rt m) : Option (PT α)) = some rt2 →
            ((merge lt s (some rt.idOf) (some m.idOf)).2 rt2.idOf).next = none ∧
            (((merge lt s (some rt.idOf) (some m.idOf)).2 rt2.idOf).prev = none ∨
              ((merge lt s (some rt.idOf) (some m.idOf)).2 rt2.idOf).prev
                = (s m.idOf).prev) := by
          intro rt2 hrt2
          have hrteq : rt2 = specMerge lt rt m := (Option.some.inj hrt2).symm
          subst hrteq
          exact ⟨hnext2, Or.inl hprev2⟩
        have hrec := @pass2_sim lt rest (some (specMerge lt rt m))
          (merge lt s (some rt.idOf) (some m.idOf)).2 ((s m.idOf).prev)
          (some (specMerge lt rt m).idOf) f hrT' ⟨rfl, hrepr2⟩ hndrec
          (by simp only [List.length_cons] at hfuel; omega) hres'
        have hfold : specMergeO lt (some rt) (some m) = some (specMerge lt rt m) := rfl
        rw [hfold]
        refine ⟨hrec.1, hrec.2.1, ?_⟩
        intro j hj1 hj2
        have hjrt : j ∉ idsT rt := by simpa [idsO] using hj1
        have hjm : j ∉ idsT m := fun h => hj2 (by simp [h])
        have hjr : j ∉ idsF rest := fun h => hj2 (by simp [h])
        refine ((hrec.2.2 j ?_ hjr).trans (hframe2 j hjrt hjm))
        simp only [idsO]
        intro h
        rcases hmem_sm h with hh | hh
        · exact hjrt hh
        · exact hjm hh

/-- The iterative `collapse` refines the spec's two-pass method
(`specCollapse`): on a represented sibling list it returns the root of the
spec-collapsed tree, the final store represents that tree, the new root is
fully detached (`next`/`prev` absent), and no node outside the list's trees is
touched. -/
theorem collapse_sim {lt : α → α → Bool} {s : St α} {first : Option Nat}
    {ts : List (PT α)} (fuel : Nat)
    (hr : ReprS s first ts) (hnd : (idsF ts).Nodup) (hfuel : ts.length ≤ fuel) :
    OptRepr (collapse lt fuel s first).2 (collapse lt fuel s first).1
      (specCollapse lt ts) ∧
    (∀ tfin, specCollapse lt ts = some tfin →
      ((collapse lt fuel s first).2 tfin.idOf).next = none ∧
      ((collapse lt fuel s first).2 tfin.idOf).prev = none) ∧
    ∀ j, j ∉ idsF ts → (collapse lt fuel s first).2 j = s j := by
  cases ts with
  | nil =>
    have h0 : first = none := (reprS_nil).mp hr
    subst h0
    have hc : collapse lt fuel s none = (none, s) := rfl
    have hsc : specCollapse lt ([] : List (PT α)) = none := rfl
    rw [hc, hsc]
    exact ⟨trivial, fun tfin h => absurd h (by simp), fun j _ => rfl⟩
  | cons c rest =>
    have hfi : first = some c.idOf := ((reprS_cons).1 hr).1
    subst hfi
    have hc : collapse lt fuel s (some c.idOf) =
        collapsePass2 lt fuel (collapsePass1 lt fuel s (some c.idOf) none).2
          (collapsePass1 lt fuel s (some c.idOf) none).1 none := rfl
    rw [hc]
    have hmt : ReprTemp s none ([] : List (PT α)) := (reprTemp_nil).mpr rfl
    have h1 := @pass1_sim _ lt (c :: rest) [] s (some c.idOf) none fuel hr hmt
      (by simpa using hnd) hfuel
    have hperm : idsF ((specPass1 lt (c :: rest)).reverse ++ ([] : List (PT α)))
        ~ idsF (c :: rest) := by
      simp only [List.append_nil]
      exact (idsF_reverse _).trans (idsF_specPass1 lt _)
    have hndm : (idsO (none : Option (PT α)) ++
        idsF ((specPass1 lt (c :: rest)).reverse ++ [])).Nodup := by
      simp only [idsO, List.nil_append]
      exact hperm.symm.nodup (by simpa using hnd)
    have hlen : ((specPass1 lt (c :: rest)).reverse ++ ([] : List (PT α))).length ≤ fuel := by
      simp only [List.append_nil, List.length_reverse]
      exact le_trans (specPass1_length_le lt _) hfuel
    have h2 := @pass2_sim _ lt ((specPass1 lt (c :: rest)).reverse ++ [])
      none (collapsePass1 lt fuel s (some c.idOf) none).2
      (collapsePass1 lt fuel s (some c.idOf) none).1 none fuel
      h1.1 trivial hndm hlen (fun rt h => absurd h (by simp))
    have hfold : ((specPass1 lt (c :: rest)).reverse ++ ([] : List (PT α))).foldl
        (fun a t => specMergeO lt a (some t)) none = specCollapse lt (c :: rest) := by
      simp only [List.append_nil]
      rfl
    rw [hfold] at h2
    refine ⟨h2.1, h2.2.1, ?_⟩
    intro j hj
    have hjm : j ∉ idsF ((specPass1 lt (c :: rest)).reverse ++ ([] : List (PT α))) := by
      intro h
      exact hj (hperm.mem_iff.mp h)
    exact (h2.2.2 j (by simp [idsO]) hjm).trans (h1.2 j hj)

theorem removeT_mk (n i : Nat) (x : α) (cs : List (PT α)) :
    removeT n (PT.mk i x cs) = PT.mk i x (removeF n cs) := by rw [removeT]

theorem removeF_nil (n : Nat) : removeF n ([] : List (PT α)) = [] := by rw [removeF]

theorem removeF_cons (n : Nat) (c : PT α) (rest : List (PT α)) :
    removeF n (c :: rest) =
      if c.idOf = n then rest else removeT n c :: removeF n rest := by rw [removeF]

theorem findT_mk (n i : Nat) (x : α) (cs : List (PT α)) :
    findT n (PT.mk i x cs) =
      if i = n then some (PT.mk i x cs) else findF n cs := by rw [findT]

theorem findF_nil (n : Nat) : findF n ([] : List (PT α)) = none := by rw [findF]

theorem findF_cons (n : Nat) (c : PT α) (rest : List (PT α)) :
    findF n (c :: rest) =
      match findT n c with
      | some r => some r
      | none => findF n rest := by rw [findF]

theorem setItemT_mk (n : Nat) (v : α) (i : Nat) (x : α) (cs : List (PT α)) :
    setItemT n v (PT.mk i x cs) =
      PT.mk i (if i = n then v else x) (setItemF n v cs) := by rw [setItemT]

theorem setItemF_nil (n : Nat) (v : α) : setItemF n v ([] : List (PT α)) = [] := by
  rw [setItemF]

theorem setItemF_cons (n : Nat) (v : α) (c : PT α) (rest : List (PT α)) :
    setItemF n v (c :: rest) = setItemT n v c :: setItemF n v rest := by rw [setItemF]

theorem removeT_idOf (n : Nat) (t : PT α) : (removeT n t).idOf = t.idOf := by
  obtain ⟨i, x, cs⟩ := t
  rw [removeT_mk]
  rfl

theorem setItemT_idOf (n : Nat) (v : α) (t : PT α) : (setItemT n v t).idOf = t.idOf := by
  obtain ⟨i, x, cs⟩ := t
  rw [setItemT_mk]
  rfl

mutual
theorem removeT_not_mem (n : Nat) : ∀ (t : PT α), n ∉ idsT t → removeT n t = t
  | .mk i x cs, h => by
    rw [removeT_mk, removeF_not_mem n cs (fun hc => h (by simp [hc]))]
theorem removeF_not_mem (n : Nat) : ∀ (cs : List (PT α)), n ∉ idsF cs → removeF n cs = cs
  | [], _ => by rw [removeF_nil]
  | c :: rest, h => by
    rw [removeF_cons, if_neg, removeT_not_mem n c (fun hc => h (by simp [hc])),
      removeF_not_mem n rest (fun hc => h (by simp [hc]))]
    intro hc
    exact h (by simp [hc ▸ idOf_mem_idsT c])
end

mutual
theorem setItemT_not_mem (n : Nat) (v : α) : ∀ (t : PT α), n ∉ idsT t → setItemT n v t = t
  | .mk i x cs, h => by
    rw [setItemT_mk, if_neg (fun hc => h (by simp [hc])),
      setItemF_not_mem n v cs (fun hc => h (by simp [hc]))]
theorem setItemF_not_mem (n : Nat) (v : α) :
    ∀ (cs : List (PT α)), n ∉ idsF cs → setItemF n v cs = cs
  | [], _ => by rw [setItemF_nil]
  | c :: rest, h => by
    rw [setItemF_cons, setItemT_not_mem n v c (fun hc => h (by simp [hc])),
      setItemF_not_mem n v rest (fun hc => h (by simp [hc]))]
end

mutual
theorem setItemT_ids (n : Nat) (v : α) : ∀ (t : PT α), idsT (setItemT n v t) = idsT t
  | .mk i x cs => by
    rw [setItemT_mk]
    simp [setItemF_ids n v cs]
theorem setItemF_ids (n : Nat) (v : α) :
    ∀ (cs : List (PT α)), idsF (setItemF n v cs) = idsF cs
  | [] => by rw [setItemF_nil]
  | c :: rest => by
    rw [setItemF_cons]
    simp [setItemT_ids n v c, setItemF_ids n v rest]
end

mutual
theorem findT_mem_ids (n : Nat) : ∀ (t : PT α), n ∈ idsT t → ∃ tn, findT n t = some tn
  | .mk i x cs, h => by
    rw [findT_mk]
    by_cases hi : i = n
    · exact ⟨_, by rw [if_pos hi]⟩
    · rw [if_neg hi]
      refine findF_mem_ids n cs ?_
      rcases (by simpa using h : n = i ∨ n ∈ idsF cs) with h' | h'
      · exact absurd h'.symm hi
      · exact h'
theorem findF_mem_ids (n : Nat) : ∀ (cs : List (PT α)), n ∈ idsF cs →
    ∃ tn, findF n cs = some tn
  | [], h => by simp at h
  | c :: rest, h => by
    rw [findF_cons]
    rcases (by simpa using h : n ∈ idsT c ∨ n ∈ idsF rest) with h' | h'
    · obtain ⟨tn, htn⟩ := findT_mem_ids n c h'
      exact ⟨tn, by rw [htn]⟩
    · match hfc : findT n c with
      | some r => exact ⟨r, rfl⟩
      | none =>
        obtain ⟨tn, htn⟩ := findF_mem_ids n rest h'
        exact ⟨tn, htn⟩
end

mutual
theorem findT_some (n : Nat) : ∀ (t : PT α) {tn : PT α}, findT n t = some tn →
    tn.idOf = n ∧ n ∈ idsT t
  | .mk i x cs, tn, h => by
    rw [findT_mk] at h
    by_cases hi : i = n
    · rw [if_pos hi] at h
      refine ⟨?_, by simp [hi]⟩
      rw [← Option.some.inj h]
      simpa using hi
    · rw [if_neg hi] at h
      have := findF_some n cs h
      exact ⟨this.1, by simp [this.2]⟩
theorem findF_some (n : Nat) : ∀ (cs : List (PT α)) {tn : PT α}, findF n cs = some tn →
    tn.idOf = n ∧ n ∈ idsF cs
  | [], tn, h => by rw [findF_nil] at h; cases h
  | c :: rest, tn, h => by
    rw [findF_cons] at h
    match hfc : findT n c with
    | some r =>
      rw [hfc] at h
      have h2 := findT_some n c hfc
      have : r = tn := Option.some.inj h
      subst this
      exact ⟨h2.1, by simp [h2.2]⟩
    | none =>
      rw [hfc] at h
      have h2 := findF_some n rest h
      exact ⟨h2.1, by simp [h2.2]⟩
end

theorem findT_self {n : Nat} {t : PT α} (h : t.idOf = n) : findT n t = some t := by
  obtain ⟨i, x, cs⟩ := t
  rw [findT_mk, if_pos (by simpa using h)]

theorem findT_none_not_mem {n : Nat} {t : PT α} (h : n ∈ idsT t) : findT n t ≠ none := by
  obtain ⟨tn, htn⟩ := findT_mem_ids n t h
  rw [htn]
  simp

mutual
theorem find_remove_T (n : Nat) : ∀ (t : PT α) {tn : PT α}, (idsT t).Nodup →
    n ≠ t.idOf → findT n t = some tn →
    (idsT t ~ idsT (removeT n t) ++ idsT tn) ∧
    (itemsT t ~ itemsT (removeT n t) ++ itemsT tn)
  | .mk i x cs, tn, hnd, hne, hf => by
    rw [findT_mk, if_neg (fun h => hne (by simp [h.symm]))] at hf
    have hndf : (idsF cs).Nodup := by
      simp only [idsT_mk, List.nodup_cons] at hnd
      exact hnd.2
    have h2 := find_remove_F n cs hndf hf
    rw [removeT_mk]
    simp only [idsT_mk, itemsT_mk]
    exact ⟨List.Perm.cons i h2.1, List.Perm.cons x h2.2⟩
theorem find_remove_F (n : Nat) : ∀ (cs : List (PT α)) {tn : PT α}, (idsF cs).Nodup →
    findF n cs = some tn →
    (idsF cs ~ idsF (removeF n cs) ++ idsT tn) ∧
    (itemsF cs ~ itemsF (removeF n cs) ++ itemsT tn)
  | [], tn, _, hf => by rw [findF_nil] at hf; cases hf
  | c :: rest, tn, hnd, hf => by
    rw [findF_cons] at hf
    rw [removeF_cons]
    have hndc : (idsT c).Nodup := (by simpa using hnd : (idsT c ++ idsF rest).Nodup).of_append_left
    have hndr : (idsF rest).Nodup := (by simpa using hnd : (idsT c ++ idsF rest).Nodup).of_append_right
    have hdisj : (idsT c).Disjoint (idsF rest) :=
      List.disjoint_of_nodup_append (by simpa using hnd)
    by_cases hc : c.idOf = n
    · rw [findT_self hc] at hf
      have htn : c = tn := Option.some.inj hf
      subst htn
      rw [if_pos hc]
      simp only [idsF_cons, itemsF_cons]
      exact ⟨List.perm_append_comm, List.perm_append_comm⟩
    · rw [if_neg hc]
      match hfc : findT n c with
      | some r =>
        rw [hfc] at hf
        have htn : r = tn := Option.some.inj hf
        subst htn
        have hmemc : n ∈ idsT c := (findT_some n c hfc).2
        have hnrest : n ∉ idsF rest := fun h => hdisj hmemc h
        have hrec := find_remove_T n c hndc (fun h => hc h.symm) hfc
        rw [removeF_not_mem n rest hnrest]
        simp only [idsF_cons, itemsF_cons]
        constructor
        · calc idsT c ++ idsF rest
              ~ (idsT (removeT n c) ++ idsT r) ++ idsF rest :=
                List.Perm.append_right _ hrec.1
            _ ~ idsT (removeT n c) ++ (idsF rest ++ idsT r) := by
                rw [List.append_assoc]
                exact List.Perm.append_left _ List.perm_append_comm
            _ = (idsT (removeT n c) ++ idsF rest) ++ idsT r := by
                rw [List.append_assoc]
        · calc itemsT c ++ itemsF rest
              ~ (itemsT (removeT n c) ++ itemsT r) ++ itemsF rest :=
                List.Perm.append_right _ hrec.2
            _ ~ itemsT (removeT n c) ++ (itemsF rest ++ itemsT r) := by
                rw [List.append_assoc]
                exact List.Perm.append_left _ List.perm_append_comm
            _ = (itemsT (removeT n c) ++ itemsF rest) ++ itemsT r := by
                rw [List.append_assoc]
      | none =>
        rw [hfc] at hf
        have hnmemc : n ∉ idsT c := fun h => findT_none_not_mem h hfc
        have hrec := find_remove_F n rest hndr hf
        rw [removeT_not_mem n c hnmemc]
        simp only [idsF_cons, itemsF_cons]
        constructor
        · calc idsT c ++ idsF rest
              ~ idsT c ++ (idsF (removeF n rest) ++ idsT tn) :=
                List.Perm.append_left _ hrec.1
            _ = (idsT c ++ idsF (removeF n rest)) ++ idsT tn := by
                rw [List.append_assoc]
        · calc itemsT c ++ itemsF rest
              ~ itemsT c ++ (itemsF (removeF n rest) ++ itemsT tn) :=
                List.Perm.append_left _ hrec.2
            _ = (itemsT c ++ itemsF (removeF n rest)) ++ itemsT tn := by
                rw [List.append_assoc]
end

mutual
theorem items_removeT_subset (n : Nat) : ∀ (t : PT α) {y : α},
    y ∈ itemsT (removeT n t) → y ∈ itemsT t
  | .mk i x cs, y, h => by
    rw [removeT_mk] at h
    simp only [itemsT_mk] at h ⊢
    rcases (by simpa using h : y = x ∨ y ∈ itemsF (removeF n cs)) with h' | h'
    · simp [h']
    · simp [items_removeF_subset n cs h']
theorem items_removeF_subset (n : Nat) : ∀ (cs : List (PT α)) {y : α},
    y ∈ itemsF (removeF n cs) → y ∈ itemsF cs
  | [], y, h => by rw [removeF_nil] at h; exact h
  | c :: rest, y, h => by
    rw [removeF_cons] at h
    by_cases hc : c.idOf = n
    · rw [if_pos hc] at h
      simp [h]
    · rw [if_neg hc] at h
      simp only [itemsF_cons] at h ⊢
      rcases (by simpa using h : y ∈ itemsT (removeT n c) ∨ y ∈ itemsF (removeF n rest))
        with h' | h'
      · simp [items_removeT_subset n c h']
      · simp [items_removeF_subset n rest h']
end

mutual
theorem hOrd_removeT {lt : α → α → Bool} (n : Nat) : ∀ (t : PT α),
    hOrdT lt t → hOrdT lt (removeT n t)
  | .mk i x cs, h => by
    rw [hOrdT_mk] at h
    rw [removeT_mk, hOrdT_mk]
    exact ⟨fun y hy => h.1 y (items_removeF_subset n cs hy), hOrd_removeF n cs h.2⟩
theorem hOrd_removeF {lt : α → α → Bool} (n : Nat) : ∀ (cs : List (PT α)),
    hOrdF lt cs → hOrdF lt (removeF n cs)
  | [], h => by rwa [removeF_nil]
  | c :: rest, h => by
    rw [hOrdF_cons] at h
    rw [removeF_cons]
    by_cases hc : c.idOf = n
    · rw [if_pos hc]
      exact h.2
    · rw [if_neg hc, hOrdF_cons]
      exact ⟨hOrd_removeT n c h.1, hOrd_removeF n rest h.2⟩
end

mutual
theorem hOrd_findT {lt : α → α → Bool} (n : Nat) : ∀ (t : PT α) {tn : PT α},
    hOrdT lt t → findT n t = some tn → hOrdT lt tn
  | .mk i x cs, tn, h, hf => by
    rw [findT_mk] at hf
    by_cases hi : i = n
    · rw [if_pos hi] at hf
      rw [← Option.some.inj hf]
      exact h
    · rw [if_neg hi] at hf
      rw [hOrdT_mk] at h
      exact hOrd_findF n cs h.2 hf
theorem hOrd_findF {lt : α → α → Bool} (n : Nat) : ∀ (cs : List (PT α)) {tn : PT α},
    hOrdF lt cs → findF n cs = some tn → hOrdT lt tn
  | [], tn, _, hf => by rw [findF_nil] at hf; cases hf
  | c :: rest, tn, h, hf => by
    rw [findF_cons] at hf
    rw [hOrdF_cons] at h
    match hfc : findT n c with
    | some r =>
      rw [hfc] at hf
      rw [← Option.some.inj hf]
      exact hOrd_findT n c h.1 hfc
    | none =>
      rw [hfc] at hf
      exact hOrd_findF n rest h.2 hf
end

mutual
/-- Writing `node.item = v` in the store corresponds to `setItemT` on the
abstract tree. -/
theorem reprT_setItem {s : St α} {n : Nat} {v : α} : ∀ (t : PT α), ReprT s t →
    ReprT (wrItem s n (some v)) (setItemT n v t)
  | .mk i x cs, h => by
    rw [reprT_mk] at h
    rw [setItemT_mk, reprT_mk]
    by_cases hi : i = n
    · subst hi
      rw [if_pos rfl]
      refine ⟨by simp [wrItem, wr], ?_⟩
      have hch : (wrItem s i (some v) i).child = (s i).child := by simp [wrItem, wr]
      rw [hch]
      exact reprL_setItem cs h.2
    · rw [if_neg hi]
      have hrec : ReprL (wrItem s n (some v)) ((s i).child) i (setItemF n v cs) :=
        reprL_setItem cs h.2
      refine ⟨?_, ?_⟩
      · rw [wrItem_other s (some v) hi]
        exact h.1
      · rw [wrItem_other s (some v) hi]
        exact hrec
theorem reprL_setItem {s : St α} {n : Nat} {v : α} {first : Option Nat} {p : Nat} :
    ∀ (cs : List (PT α)), ReprL s first p cs →
    ReprL (wrItem s n (some v)) first p (setItemF n v cs)
  | [], h => by
    rw [reprL_nil] at h
    rw [setItemF_nil, reprL_nil]
    exact h
  | c :: rest, h => by
    rw [reprL_cons] at h
    rw [setItemF_cons, reprL_cons, setItemT_idOf]
    have hprev : (wrItem s n (some v) c.idOf).prev = (s c.idOf).prev := by
      by_cases hc : c.idOf = n
      · subst hc
        simp [wrItem, wr]
      · rw [wrItem_other s (some v) hc]
    have hnext : (wrItem s n (some v) c.idOf).next = (s c.idOf).next := by
      by_cases hc : c.idOf = n
      · subst hc
        simp [wrItem, wr]
      · rw [wrItem_other s (some v) hc]
    exact ⟨h.1, by rw [hprev]; exact h.2.1, reprT_setItem c h.2.2.1,
      by rw [hnext]; exact reprL_setItem rest h.2.2.2⟩
end

mutual
theorem remove_setItem_T (n : Nat) (v : α) : ∀ (t : PT α), (idsT t).Nodup →
    n ≠ t.idOf → removeT n (setItemT n v t) = removeT n t
  | .mk i x cs, hnd, hne => by
    rw [setItemT_mk, removeT_mk, removeT_mk, if_neg (fun h => hne (by simp [h.symm]))]
    have hndf : (idsF cs).Nodup := by
      simp only [idsT_mk, List.nodup_cons] at hnd
      exact hnd.2
    rw [remove_setItem_F n v cs hndf]
theorem remove_setItem_F (n : Nat) (v : α) : ∀ (cs : List (PT α)), (idsF cs).Nodup →
    removeF n (setItemF n v cs) = removeF n cs
  | [], _ => by rw [setItemF_nil]
  | c :: rest, hnd => by
    have hndc : (idsT c).Nodup :=
      (by simpa using hnd : (idsT c ++ idsF rest).Nodup).of_append_left
    have hndr : (idsF rest).Nodup :=
      (by simpa using hnd : (idsT c ++ idsF rest).Nodup).of_append_right
    have hdisj : (idsT c).Disjoint (idsF rest) :=
      List.disjoint_of_nodup_append (by simpa using hnd)
    rw [setItemF_cons, removeF_cons, removeF_cons, setItemT_idOf]
    by_cases hc : c.idOf = n
    · rw [if_pos hc, if_pos hc]
      refine setItemF_not_mem n v rest ?_
      exact fun h => hdisj (hc ▸ idOf_mem_idsT c) h
    · rw [if_neg hc, if_neg hc, remove_setItem_T n v c hndc (fun h => hc h.symm),
        remove_setItem_F n v rest hndr]
end

mutual
theorem find_setItem_T (n : Nat) (v : α) : ∀ (t : PT α) {tn : PT α}, (idsT t).Nodup →
    findT n t = some tn → findT n (setItemT n v t) = some (PT.mk n v tn.children)
  | .mk i x cs, tn, hnd, hf => by
    rw [findT_mk] at hf
    rw [setItemT_mk, findT_mk]
    have hndf : (idsF cs).Nodup := by
      simp only [idsT_mk, List.nodup_cons] at hnd
      exact hnd.2
    by_cases hi : i = n
    · rw [if_pos hi] at hf
      rw [if_pos hi, if_pos hi]
      have htn : PT.mk i x cs = tn := Option.some.inj hf
      have hcs : setItemF n v cs = cs := by
        refine setItemF_not_mem n v cs ?_
        subst hi
        simp only [idsT_mk, List.nodup_cons] at hnd
        exact hnd.1
      rw [hcs, ← htn, hi]
      rfl
    · rw [if_neg hi] at hf
      rw [if_neg hi]
      exact find_setItem_F n v cs hndf hf
theorem find_setItem_F (n : Nat) (v : α) : ∀ (cs : List (PT α)) {tn : PT α},
    (idsF cs).Nodup → findF n cs = some tn →
    findF n (setItemF n v cs) = some (PT.mk n v tn.children)
  | [], tn, _, hf => by rw [findF_nil] at hf; cases hf
  | c :: rest, tn, hnd, hf => by
    have hndc : (idsT c).Nodup :=
      (by simpa using hnd : (idsT c ++ idsF rest).Nodup).of_append_left
    have hndr : (idsF rest).Nodup :=
      (by simpa using hnd : (idsT c ++ idsF rest).Nodup).of_append_right
    rw [findF_cons] at hf
    rw [setItemF_cons, findF_cons]
    match hfc : findT n c with
    | some r =>
      rw [hfc] at hf
      have h2 := find_setItem_T n v c hndc hfc
      rw [h2]
      rw [← Option.some.inj hf]
    | none =>
      rw [hfc] at hf
      have hnm : n ∉ idsT c := fun h => findT_none_not_mem h hfc
      have hnone : findT n (setItemT n v c) = none := by
        match hfc2 : findT n (setItemT n v c) with
        | none => rfl
        | some r2 =>
          have := (findT_some n _ hfc2).2
          rw [setItemT_ids] at this
          exact absurd this hnm
      rw [hnone]
      exact find_setItem_F n v rest hndr hf
end

mutual
theorem items_length_setItemT (n : Nat) (v : α) : ∀ (t : PT α),
    (itemsT (setItemT n v t)).length = (itemsT t).length
  | .mk i x cs => by
    rw [setItemT_mk]
    simpa using items_length_setItemF n v cs
theorem items_length_setItemF (n : Nat) (v : α) : ∀ (cs : List (PT α)),
    (itemsF (setItemF n v cs)).length = (itemsF cs).length
  | [] => by rw [setItemF_nil]
  | c :: rest => by
    rw [setItemF_cons]
    simpa using congrArg₂ (· + ·) (items_length_setItemT n v c)
      (items_length_setItemF n v rest)
end

theorem cutNode_def (s : St α) (n p : Nat) :
    PairingHeap.cutNode s n p =
      match (s n).next with
      | some nx => wrPrev (if (s p).child = some n then wrChild s p ((s n).next)
          else wrNext s p ((s n).next)) nx ((s n).prev)
      | none => if (s p).child = some n then wrChild s p ((s n).next)
          else wrNext s p ((s n).next) := by
  have hnext : ((if (s p).child = some n then wrChild s p ((s n).next)
      else wrNext s p ((s n).next)) n).next = (s n).next := by
    by_cases hpn : n = p
    · subst hpn
      split <;> simp [wrChild, wrNext, wr]
    · split
      · rw [wrChild_other s _ hpn]
      · rw [wrNext_other s _ hpn]
  have hprev : ((if (s p).child = some n then wrChild s p ((s n).next)
      else wrNext s p ((s n).next)) n).prev = (s n).prev := by
    by_cases hpn : n = p
    · subst hpn
      split <;> simp [wrChild, wrNext, wr]
    · split
      · rw [wrChild_other s _ hpn]
      · rw [wrNext_other s _ hpn]
  simp only [PairingHeap.cutNode]
  rw [hnext, hprev]

theorem cutNode_other {s : St α} {n p j : Nat} (hjp : j ≠ p)
    (hjn : (s n).next ≠ some j) : PairingHeap.cutNode s n p j = s j := by
  rw [cutNode_def]
  rcases hx : (s n).next with _ | nx
  · dsimp only
    split
    · exact wrChild_other s _ hjp
    · exact wrNext_other s _ hjp
  · have hjnx : j ≠ nx := by
      intro h
      exact hjn (by rw [hx, h])
    dsimp only
    rw [wrPrev_other _ _ hjnx]
    split
    · exact wrChild_other s _ hjp
    · exact wrNext_other s _ hjp

theorem cutNode_p_child {s : St α} {n p : Nat} (hb : (s p).child = some n)
    (hpn : (s n).next ≠ some p) :
    PairingHeap.cutNode s n p p = { s p with child := (s n).next } := by
  rw [cutNode_def]
  rcases hx : (s n).next with _ | nx
  · dsimp only
    rw [if_pos hb]
    simp [hx]
  · have hpnx : p ≠ nx := by
      intro h
      exact hpn (by rw [hx, h])
    dsimp only
    rw [wrPrev_other _ _ hpnx, if_pos hb]
    simp [hx]

theorem cutNode_p_next {s : St α} {n p : Nat} (hb : (s p).child ≠ some n)
    (hpn : (s n).next ≠ some p) :
    PairingHeap.cutNode s n p p = { s p with next := (s n).next } := by
  rw [cutNode_def]
  rcases hx : (s n).next with _ | nx
  · dsimp only
    rw [if_neg hb]
    simp [hx]
  · have hpnx : p ≠ nx := by
      intro h
      exact hpn (by rw [hx, h])
    dsimp only
    rw [wrPrev_other _ _ hpnx, if_neg hb]
    simp [hx]

theorem cutNode_nx {s : St α} {n p nx : Nat} (hnx : (s n).next = some nx)
    (hnxp : nx ≠ p) : PairingHeap.cutNode s n p nx = { s nx with prev := (s n).prev } := by
  rw [cutNode_def, hnx]
  dsimp only
  rw [wrPrev_self]
  have h2 : ((if (s p).child = some n then wrChild s p (some nx)
      else wrNext s p (some nx)) nx) = s nx := by
    split
    · exact wrChild_other s _ hnxp
    · exact wrNext_other s _ hnxp
  rw [h2]

theorem reprT_child_ne {s : St α} {t : PT α} (h : ReprT s t) {n : Nat}
    (hn : n ∉ idsT t) : (s t.idOf).child ≠ some n := by
  obtain ⟨i, x, cs⟩ := t
  obtain ⟨hitem, hl⟩ := (reprT_mk).mp h
  simp only [PT.idOf_mk]
  rcases reprL_first hl with ⟨hnil, hfi⟩ | ⟨c0, rest, hcons, hfi⟩
  · simp [hfi]
  · rw [hfi]
    intro hcon
    refine hn ?_
    have : c0.idOf = n := by simpa using hcon
    rw [hcons] at hn ⊢
    simp only [PT.idOf_mk, idsT_mk, List.mem_cons]
    right
    rw [← this]
    exact mem_idsF_of_mem (by simp) (idOf_mem_idsT c0)

mutual
/-- Cutting a non-root node `n` out of a represented tree: the store then
represents the tree with `n`'s subtree removed, and still represents `n`'s
subtree itself (children left attached); nodes outside the tree, the node `n`
itself, and the root's `prev`/`next`/`item` are untouched. -/
theorem cutT {s : St α} {n p : Nat} : ∀ (t : PT α), ReprT s t → (idsT t).Nodup →
    n ∈ idsT t → n ≠ t.idOf → (s n).prev = some p →
    ∃ tn, findT n t = some tn ∧
      ReprT (PairingHeap.cutNode s n p) (removeT n t) ∧
      ReprT (PairingHeap.cutNode s n p) tn ∧
      (∀ j, j ∉ idsT t → PairingHeap.cutNode s n p j = s j) ∧
      PairingHeap.cutNode s n p n = s n ∧
      (PairingHeap.cutNode s n p t.idOf).prev = (s t.idOf).prev ∧
      (PairingHeap.cutNode s n p t.idOf).next = (s t.idOf).next ∧
      (PairingHeap.cutNode s n p t.idOf).item = (s t.idOf).item
  | .mk i x cs, hr, hnd, hmem, hne, hp => by
    obtain ⟨hitem, hl⟩ := (reprT_mk).mp hr
    simp only [PT.idOf_mk]
    have hnei : n ≠ i := by simpa using hne
    have hmemf : n ∈ idsF cs := by
      rcases (by simpa using hmem : n = i ∨ n ∈ idsF cs) with h | h
      · exact absurd h hnei
      · exact h
    have hndf : (idsF cs).Nodup := by
      simp only [idsT_mk, List.nodup_cons] at hnd
      exact hnd.2
    have hinotf : i ∉ idsF cs := by
      simp only [idsT_mk, List.nodup_cons] at hnd
      exact hnd.1
    match cs, hl, hmemf, hndf, hinotf with
    | c0 :: rest, hl, hmemf, hndf, hinotf =>
    obtain ⟨hfi, hprev0, hrc0, hrest⟩ := (reprL_cons).mp hl
    have hndc0 : (idsT c0).Nodup :=
      (by simpa using hndf : (idsT c0 ++ idsF rest).Nodup).of_append_left
    have hndr : (idsF rest).Nodup :=
      (by simpa using hndf : (idsT c0 ++ idsF rest).Nodup).of_append_right
    have hdisj : (idsT c0).Disjoint (idsF rest) :=
      List.disjoint_of_nodup_append (by simpa using hndf)
    by_cases hc0 : c0.idOf = n
    · -- n is the first child of the root
      have hpi : p = i := by
        rw [hc0] at hprev0
        rw [hprev0] at hp
        exact (Option.some.inj hp).symm
      subst hpi
      have hfin : (s p).child = some n := by rwa [hc0] at hfi
      have hnrest : n ∉ idsF rest := fun h => hdisj (hc0 ▸ idOf_mem_idsT c0) h
      have hfind : findT n (PT.mk p x (c0 :: rest)) = some c0 := by
        rw [findT_mk, if_neg (fun h => hnei h.symm), findF_cons, findT_self hc0]
      have hremove : removeT n (PT.mk p x (c0 :: rest)) = PT.mk p x rest := by
        rw [removeT_mk, removeF_cons, if_pos hc0]
      match rest, hrest, hndr, hdisj with
      | [], hrest, hndr, hdisj =>
        have hnone : (s n).next = none := by
          rw [← hc0]
          exact (reprL_nil).mp hrest
        have hother : ∀ j, j ≠ p → PairingHeap.cutNode s n p j = s j := by
          intro j hj
          exact cutNode_other hj (by simp [hnone])
        have hself : PairingHeap.cutNode s n p p = { s p with child := (s n).next } :=
          cutNode_p_child hfin (by simp [hnone])
        have hpn : n ≠ p := hnei
        refine ⟨c0, hfind, ?_, ?_, ?_, hother n hpn, by rw [hself], by rw [hself],
          by rw [hself]⟩
        · rw [hremove, reprT_mk]
          refine ⟨by rw [hself]; exact hitem, ?_⟩
          have : (PairingHeap.cutNode s n p p).child = none := by rw [hself, hnone]
          rw [this, reprL_nil]
        · refine reprT_frame c0 hrc0 ?_
          intro j hj
          refine hother j ?_
          intro h
          refine hinotf ?_
          rw [← h]
          exact (by simp [hj] : j ∈ idsF [c0])
        · intro j hj
          refine hother j ?_
          intro h
          exact hj (by simp [h])
      | c1 :: rest2, hrest, hndr, hdisj =>
        obtain ⟨hfi1, hprev1, hrc1, hrest2⟩ := (reprL_cons).mp hrest
        have hnext : (s n).next = some c1.idOf := by rwa [hc0] at hfi1
        have hc1mem : c1.idOf ∈ idsF (c1 :: rest2) :=
          mem_idsF_of_mem (by simp) (idOf_mem_idsT c1)
        have hc1memf : c1.idOf ∈ idsF (c0 :: c1 :: rest2) := by
          simp only [idsF_cons, List.mem_append]
          exact Or.inr (Or.inl (idOf_mem_idsT c1))
        have hc1i : c1.idOf ≠ p := fun h => hinotf (h ▸ hc1memf)
        have hc1n : c1.idOf ≠ n := by
          intro h
          exact hdisj (hc0 ▸ idOf_mem_idsT c0) (h ▸ hc1mem)
        have hother : ∀ j, j ≠ p → j ≠ c1.idOf → PairingHeap.cutNode s n p j = s j := by
          intro j hj1 hj2
          refine cutNode_other hj1 ?_
          rw [hnext]
          simpa using fun h => hj2 h.symm
        have hself : PairingHeap.cutNode s n p p = { s p with child := (s n).next } :=
          cutNode_p_child hfin (show (s n).next ≠ some p by
            rw [hnext]
            intro hh
            exact hc1i (by simpa using hh))
        have hc1rec : PairingHeap.cutNode s n p c1.idOf =
            { s c1.idOf with prev := (s n).prev } := cutNode_nx hnext hc1i
        have hpn : n ≠ p := hnei
        have hnprev : (s n).prev = some p := hp
        have hndr2 : (idsF rest2).Nodup :=
          (by simpa using hndr : (idsT c1 ++ idsF rest2).Nodup).of_append_right
        have hd12 : (idsT c1).Disjoint (idsF rest2) :=
          List.disjoint_of_nodup_append (by simpa using hndr)
        refine ⟨c0, hfind, ?_, ?_, ?_, hother n hpn (fun h => hc1n h.symm), by rw [hself], by rw [hself],
          by rw [hself]⟩
        · rw [hremove, reprT_mk]
          refine ⟨by rw [hself]; exact hitem, ?_⟩
          have hch : (PairingHeap.cutNode s n p p).child = some c1.idOf := by
            rw [hself, hnext]
          rw [hch, reprL_cons]
          refine ⟨rfl, by rw [hc1rec, hnprev], ?_, ?_⟩
          · refine reprT_frame_root hrc1 (by rw [hc1rec]) (by rw [hc1rec]) ?_
            intro j hj
            have hjc1 : j ∈ idsT c1 := mem_idsT_children hj
            refine hother j ?_ ?_
            · intro h
              have hjmemf : j ∈ idsF (c0 :: c1 :: rest2) := by
                simp only [idsF_cons, List.mem_append]
                exact Or.inr (Or.inl hjc1)
              exact hinotf (h ▸ hjmemf)
            · intro h
              exact idOf_not_mem_children
                ((by simpa using hndr : (idsT c1 ++ idsF rest2).Nodup).of_append_left)
                (h ▸ hj)
          · have hnx2 : (PairingHeap.cutNode s n p c1.idOf).next = (s c1.idOf).next := by
              rw [hc1rec]
            rw [hnx2]
            refine reprL_frame rest2 hrest2 ?_
            intro j hj
            refine hother j ?_ ?_
            · intro h
              refine hinotf ?_
              rw [h] at hj
              exact (by simp [hj] : p ∈ idsF (c0 :: c1 :: rest2))
            · intro h
              exact hd12 (idOf_mem_idsT c1) (h ▸ hj)
        · refine reprT_frame c0 hrc0 ?_
          intro j hj
          refine hother j ?_ ?_
          · intro h
            exact hinotf (h ▸ (by simp [hj] : j ∈ idsF (c0 :: c1 :: rest2)))
          · intro h
            exact hdisj (h ▸ hj) hc1mem
        · intro j hj
          refine hother j ?_ ?_
          · intro h
            exact hj (by simp [h])
          · intro h
            refine hj ?_
            rw [h]
            simp only [idsT_mk, List.mem_cons]
            exact Or.inr hc1memf
    · -- n is deeper: delegate to the sibling-list lemma
      have hppchild : (s i).child ≠ some n := by
        rw [hfi]
        intro hh
        exact hc0 (by simpa using hh)
      have hcl := cutL (c0 :: rest) ((s i).child) i hl hndf hmemf hp hppchild hinotf
      obtain ⟨tn, hfind, hrtn, hrl, h4c, h4p, h4i, h5, hframe, hsn⟩ := hcl
      have hlink : cutLink n ((s n).next) ((s i).child) (c0 :: rest) = (s i).child := by
        rw [cutLink, if_neg hc0]
      have hlink2 : cutLink n ((s n).next) ((s i).next) (c0 :: rest) = (s i).next := by
        rw [cutLink, if_neg hc0]
      refine ⟨tn, ?_, ?_, hrtn, ?_, hsn, h4p, by rw [h5, hlink2], h4i⟩
      · rw [findT_mk, if_neg (fun h => hnei h.symm)]
        exact hfind
      · rw [removeT_mk, reprT_mk]
        refine ⟨by rw [h4i]; exact hitem, ?_⟩
        rw [h4c]
        rw [hlink] at hrl
        exact hrl
      · intro j hj
        refine hframe j ?_ ?_
        · intro h
          refine hj ?_
          simp only [idsT_mk, List.mem_cons]
          exact Or.inr h
        · intro h
          exact hj (by simp [h])

/-- Cutting `n` out of a represented sibling list whose entry link is not the
parent's pointer at `n` (i.e. `n` is not `pp`'s first child via `child`). -/
theorem cutL {s : St α} {n p : Nat} : ∀ (cs : List (PT α)) (first : Option Nat) (pp : Nat),
    ReprL s first pp cs → (idsF cs).Nodup → n ∈ idsF cs → (s n).prev = some p →
    (s pp).child ≠ some n → pp ∉ idsF cs →
    ∃ tn, findF n cs = some tn ∧
      ReprT (PairingHeap.cutNode s n p) tn ∧
      ReprL (PairingHeap.cutNode s n p) (cutLink n ((s n).next) first cs) pp
        (removeF n cs) ∧
      (PairingHeap.cutNode s n p pp).child = (s pp).child ∧
      (PairingHeap.cutNode s n p pp).prev = (s pp).prev ∧
      (PairingHeap.cutNode s n p pp).item = (s pp).item ∧
      (PairingHeap.cutNode s n p pp).next = cutLink n ((s n).next) ((s pp).next) cs ∧
      (∀ j, j ∉ idsF cs → j ≠ pp → PairingHeap.cutNode s n p j = s j) ∧
      PairingHeap.cutNode s n p n = s n
  | [], first, pp, hl, hnd, hmem, hp, hppc, hppn => by simp at hmem
  | c0 :: rest, first, pp, hl, hnd, hmem, hp, hppc, hppn => by
    obtain ⟨hfi, hprev0, hrc0, hrest⟩ := (reprL_cons).mp hl
    have hndc0 : (idsT c0).Nodup :=
      (by simpa using hnd : (idsT c0 ++ idsF rest).Nodup).of_append_left
    have hndr : (idsF rest).Nodup :=
      (by simpa using hnd : (idsT c0 ++ idsF rest).Nodup).of_append_right
    have hdisj : (idsT c0).Disjoint (idsF rest) :=
      List.disjoint_of_nodup_append (by simpa using hnd)
    have hppne : pp ≠ n := fun h => hppn (h ▸ hmem)
    by_cases hc0 : c0.idOf = n
    · -- n is the head of this (tail of a) sibling list
      have hppp : p = pp := by
        rw [hc0] at hprev0
        rw [hprev0] at hp
        exact (Option.some.inj hp).symm
      subst hppp
      have hnrest : n ∉ idsF rest := fun h => hdisj (hc0 ▸ idOf_mem_idsT c0) h
      have hfind : findF n (c0 :: rest) = some c0 := by
        rw [findF_cons, findT_self hc0]
      have hremove : removeF n (c0 :: rest) = rest := by
        rw [removeF_cons, if_pos hc0]
      have hlink : cutLink n ((s n).next) first (c0 :: rest) = (s n).next := by
        rw [cutLink, if_pos hc0]
      have hlink2 : cutLink n ((s n).next) ((s p).next) (c0 :: rest) = (s n).next := by
        rw [cutLink, if_pos hc0]
      match rest, hrest, hndr, hdisj, hnrest with
      | [], hrest, hndr, hdisj, hnrest =>
        have hnone : (s n).next = none := by
          rw [← hc0]
          exact (reprL_nil).mp hrest
        have hother : ∀ j, j ≠ p → PairingHeap.cutNode s n p j = s j := by
          intro j hj
          exact cutNode_other hj (by simp [hnone])
        have hself : PairingHeap.cutNode s n p p = { s p with next := (s n).next } :=
          cutNode_p_next hppc (by simp [hnone])
        refine ⟨c0, hfind, ?_, ?_, by rw [hself], by rw [hself], by rw [hself],
          by rw [hself, hlink2], ?_, hother n (fun h => hppne h.symm)⟩
        · refine reprT_frame c0 hrc0 ?_
          intro j hj
          refine hother j ?_
          intro h
          exact hppn (h ▸ (by simp [hj] : j ∈ idsF (c0 :: [])))
        · rw [hremove, hlink, hnone, reprL_nil]
        · intro j hj1 hj2
          exact hother j hj2
      | c1 :: rest2, hrest, hndr, hdisj, hnrest =>
        obtain ⟨hfi1, hprev1, hrc1, hrest2⟩ := (reprL_cons).mp hrest
        have hnext : (s n).next = some c1.idOf := by rwa [hc0] at hfi1
        have hc1mem : c1.idOf ∈ idsF (c1 :: rest2) :=
          mem_idsF_of_mem (by simp) (idOf_mem_idsT c1)
        have hc1memf : c1.idOf ∈ idsF (c0 :: c1 :: rest2) := by
          simp only [idsF_cons, List.mem_append]
          exact Or.inr (Or.inl (idOf_mem_idsT c1))
        have hc1pp : c1.idOf ≠ p := fun h => hppn (h ▸ hc1memf)
        have hc1n : c1.idOf ≠ n := fun h => hnrest (h ▸ hc1mem)
        have hother : ∀ j, j ≠ p → j ≠ c1.idOf → PairingHeap.cutNode s n p j = s j := by
          intro j hj1 hj2
          refine cutNode_other hj1 ?_
          rw [hnext]
          simpa using fun h => hj2 h.symm
        have hself : PairingHeap.cutNode s n p p = { s p with next := (s n).next } :=
          cutNode_p_next hppc (show (s n).next ≠ some p by
            rw [hnext]
            intro hh
            exact hc1pp (by simpa using hh))
        have hc1rec : PairingHeap.cutNode s n p c1.idOf =
            { s c1.idOf with prev := (s n).prev } := cutNode_nx hnext hc1pp
        have hndr2 : (idsF rest2).Nodup :=
          (by simpa using hndr : (idsT c1 ++ idsF rest2).Nodup).of_append_right
        have hd12 : (idsT c1).Disjoint (idsF rest2) :=
          List.disjoint_of_nodup_append (by simpa using hndr)
        refine ⟨c0, hfind, ?_, ?_, by rw [hself], by rw [hself], by rw [hself],
          by rw [hself, hlink2], ?_, hother n (fun h => hppne h.symm) (fun h => hc1n h.symm)⟩
        · refine reprT_frame c0 hrc0 ?_
          intro j hj
          refine hother j ?_ ?_
          · intro h
            exact hppn (h ▸ (by simp [hj] : j ∈ idsF (c0 :: c1 :: rest2)))
          · intro h
            exact hdisj (h ▸ hj) hc1mem
        · rw [hremove, hlink, hnext, reprL_cons]
          refine ⟨rfl, by rw [hc1rec, hp], ?_, ?_⟩
          · refine reprT_frame_root hrc1 (by rw [hc1rec]) (by rw [hc1rec]) ?_
            intro j hj
            have hjc1 : j ∈ idsT c1 := mem_idsT_children hj
            refine hother j ?_ ?_
            · intro h
              have hjmemf : j ∈ idsF (c0 :: c1 :: rest2) := by
                simp only [idsF_cons, List.mem_append]
                exact Or.inr (Or.inl hjc1)
              exact hppn (h ▸ hjmemf)
            · intro h
              exact idOf_not_mem_children
                ((by simpa using hndr : (idsT c1 ++ idsF rest2).Nodup).of_append_left)
                (h ▸ hj)
          · have hnx2 : (PairingHeap.cutNode s n p c1.idOf).next = (s c1.idOf).next := by
              rw [hc1rec]
            rw [hnx2]
            refine reprL_frame rest2 hrest2 ?_
            intro j hj
            refine hother j ?_ ?_
            · intro h
              exact hppn (h ▸ (by simp [hj] : j ∈ idsF (c0 :: c1 :: rest2)))
            · intro h
              exact hd12 (idOf_mem_idsT c1) (h ▸ hj)
        · intro j hj1 hj2
          refine hother j hj2 ?_
          intro h
          exact hj1 (h ▸ hc1memf)
    · -- n is not the head
      have hlink : cutLink n ((s n).next) first (c0 :: rest) = first := by
        rw [cutLink, if_neg hc0]
      have hlink2 : cutLink n ((s n).next) ((s pp).next) (c0 :: rest) = (s pp).next := by
        rw [cutLink, if_neg hc0]
      match hfc : findT n c0 with
      | some r =>
        -- n is strictly inside c0
        have hmemc : n ∈ idsT c0 := (findT_some n c0 hfc).2
        have hnec0 : n ≠ c0.idOf := fun h => hc0 h.symm
        have hct := cutT c0 hrc0 hndc0 hmemc hnec0 hp
        obtain ⟨tn, hfindT, hremT, hrtn, hframeT, hsnT, hprevT, hnextT, hitemT⟩ := hct
        have hppnotc0 : pp ∉ idsT c0 := fun h => hppn (by simp [h])
        have hfind : findF n (c0 :: rest) = some tn := by
          rw [findF_cons, hfindT]
        have hremove : removeF n (c0 :: rest) = removeT n c0 :: rest := by
          rw [removeF_cons, if_neg hc0, removeF_not_mem n rest
            (fun h => hdisj hmemc h)]
        refine ⟨tn, hfind, hrtn, ?_, by rw [hframeT pp hppnotc0],
          by rw [hframeT pp hppnotc0], by rw [hframeT pp hppnotc0],
          by rw [hframeT pp hppnotc0, hlink2], ?_, hsnT⟩
        · rw [hremove, hlink, hfi, reprL_cons, removeT_idOf]
          refine ⟨rfl, by rw [hprevT]; exact hprev0, hremT, ?_⟩
          rw [hnextT]
          refine reprL_frame rest hrest ?_
          intro j hj
          refine hframeT j ?_
          intro h
          exact hdisj h hj
        · intro j hj1 hj2
          refine hframeT j ?_
          intro h
          exact hj1 (by simp [h])
      | none =>
        -- n is in the rest of the list
        have hnmemc : n ∉ idsT c0 := fun h => findT_none_not_mem h hfc
        have hmemr : n ∈ idsF rest := by
          rcases (by simpa using hmem : n ∈ idsT c0 ∨ n ∈ idsF rest) with h | h
          · exact absurd h hnmemc
          · exact h
        have hppc' : (s c0.idOf).child ≠ some n := reprT_child_ne hrc0 hnmemc
        have hppn' : c0.idOf ∉ idsF rest := fun h => hdisj (idOf_mem_idsT c0) h
        have hcl := cutL rest ((s c0.idOf).next) c0.idOf hrest hndr hmemr hp hppc' hppn'
        obtain ⟨tn, hfindF, hrtn, hrl', h4c, h4p, h4i, h5, hframe', hsn'⟩ := hcl
        have hfind : findF n (c0 :: rest) = some tn := by
          rw [findF_cons, hfc]
          exact hfindF
        have hremove : removeF n (c0 :: rest) = c0 :: removeF n rest := by
          rw [removeF_cons, if_neg hc0, removeT_not_mem n c0 hnmemc]
        have hc0r : c0.idOf ∉ idsF rest := hppn'
        have hppc0 : pp ≠ c0.idOf := by
          intro h
          exact hppn (by simp [h ▸ idOf_mem_idsT c0])
        have hpprest : pp ∉ idsF rest := fun h => hppn (by simp [h])
        have hppfr : PairingHeap.cutNode s n p pp = s pp :=
          hframe' pp hpprest hppc0
        refine ⟨tn, hfind, hrtn, ?_, by rw [hppfr], by rw [hppfr], by rw [hppfr],
          by rw [hppfr, hlink2], ?_, hsn'⟩
        · rw [hremove, hlink, hfi, reprL_cons]
          refine ⟨rfl, by rw [h4p]; exact hprev0, ?_, ?_⟩
          · refine reprT_frame_root hrc0 h4i h4c ?_
            intro j hj
            have hjc0 : j ∈ idsT c0 := mem_idsT_children hj
            refine hframe' j (fun h => hdisj hjc0 h) ?_
            intro h
            exact idOf_not_mem_children hndc0 (h ▸ hj)
          · rw [h5]
            exact hrl'
        · intro j hj1 hj2
          refine hframe' j ?_ ?_
          · intro h
            exact hj1 (by simp [h])
          · intro h
            exact hj1 (by simp [h ▸ idOf_mem_idsT c0])
end

theorem length_le_of_nodup_lt {l : List Nat} {m : Nat} (hnd : l.Nodup)
    (hlt : ∀ i ∈ l, i < m) : l.length ≤ m := by
  have h1 : l.toFinset.card = l.length := List.toFinset_card_of_nodup hnd
  have h2 : l.toFinset ⊆ Finset.range m := by
    intro a ha
    rw [Finset.mem_range]
    exact hlt a (List.mem_toFinset.mp ha)
  have h3 := Finset.card_le_card h2
  rw [h1, Finset.card_range] at h3
  exact h3

/-- A pooled node is unreachable (its cleared item separates it from every
represented node). -/
theorem pool_not_reachable {h : PairingHeap α} {t : PT α} (hr : ReprT h.mem t)
    {f : Nat} (hf : h.mem f = blankNode) : f ∉ idsT t := by
  intro hmem
  have := reprT_item_isSome _ hr f hmem
  rw [hf] at this
  exact this rfl

theorem abs_items_length {h : PairingHeap α} {ot : Option (PT α)} (hA : Abs h ot) :
    h.size = ((itemsO ot).length : Int) := by
  obtain ⟨hp, hc⟩ := hA
  rcases hc with ⟨h1, h2, h3⟩ | ⟨t, h1, h2⟩
  · rw [h1, h3]
    rfl
  · rw [h1]
    exact h2.size_eq

/-- Adding refines consing: `add` refines consing the item onto the heap's contents. -/
theorem add_abs {h : PairingHeap α} {x : α} {ot : Option (PT α)}
    (hs : SWO h.lt) (hA : Abs h ot) :
    ∃ t', Abs (PairingHeap.add h x).2 (some t') ∧
      itemsT t' ~ x :: itemsO ot ∧
      (PairingHeap.add h x).2.lt = h.lt ∧
      (PairingHeap.add h x).1 ∉ idsO ot ∧
      (ot = none → t' = PT.mk (PairingHeap.add h x).1 x []) ∧
      (∀ t0, ot = some t0 →
        t' = specMerge h.lt t0 (PT.mk (PairingHeap.add h x).1 x [])) := by
  obtain ⟨hpool, hcase⟩ := hA
  -- which node is used, and the store right before the merge
  have main : ∀ (f : Nat) (s : St α) (fresh2 : Nat) (pool2 : Option (List Nat)),
      s f = ⟨some x, none, none, none⟩ →
      (∀ j, j ≠ f → s j = h.mem j) →
      f < fresh2 → h.fresh ≤ fresh2 →
      (∀ t, ot = some t → f ∉ idsT t) →
      (∀ fs2, pool2 = some fs2 → fs2.Nodup ∧ ∀ g ∈ fs2, g < fresh2 ∧ s g = blankNode) →
      ∃ t', Abs { h with
          mem := (merge h.lt s h.root (some f)).2,
          root := (merge h.lt s h.root (some f)).1,
          pool := pool2, fresh := fresh2, size := h.size + 1 } (some t') ∧
        itemsT t' ~ x :: itemsO ot ∧
        (ot = none → t' = PT.mk f x []) ∧
        (∀ t0, ot = some t0 → t' = specMerge h.lt t0 (PT.mk f x [])) := by
    intro f s fresh2 pool2 hnode hframe hffr hmono hnotin hpool2
    rcases hcase with ⟨h1, h2, h3⟩ | ⟨t, h1, h2⟩
    · -- empty heap: the new node becomes the root
      rw [h2]
      refine ⟨PT.mk f x [], ⟨?_, Or.inr ⟨PT.mk f x [], rfl, ?_⟩⟩, ?_, fun _ => rfl,
        fun t0 ht0 => absurd (h1 ▸ ht0) (by simp)⟩
      · intro fs2 hfs2
        exact hpool2 fs2 hfs2
      · refine ⟨rfl, ?_, ?_, ?_, by simp, ?_, ?_, ?_⟩
        · show ReprT s (PT.mk f x [])
          rw [reprT_mk]
          exact ⟨by rw [hnode], by rw [hnode, reprL_nil]⟩
        · show (s f).prev = none
          rw [hnode]
        · show (s f).next = none
          rw [hnode]
        · intro i hi
          have : i = f := by simpa using hi
          rw [this]
          exact hffr
        · show h.size + 1 = _
          rw [h3]
          simp
        · rw [hOrdT_mk]
          exact ⟨by simp, hOrdF_nil _⟩
      · rw [h1]
        rfl
    · -- non-empty heap: merge with the existing tree
      have hnotint : f ∉ idsT t := hnotin t h1
      have hrt : ReprT s t := by
        refine reprT_frame t h2.rep ?_
        intro j hj
        refine hframe j ?_
        intro hjf
        exact hnotint (hjf ▸ hj)
      have hrf : ReprT s (PT.mk f x []) := by
        rw [reprT_mk]
        exact ⟨by rw [hnode], by rw [hnode, reprL_nil]⟩
      have hnd : (idsT t ++ idsT (PT.mk f x [])).Nodup := by
        simp only [idsT_mk, idsF_nil]
        rw [List.nodup_append]
        refine ⟨h2.nodup, by simp, ?_⟩
        intro a ha hb
        have : a = f := by simpa using hb
        exact hnotint (this ▸ ha)
      have hms := @merge_sim _ h.lt _ _ _ hrt hrf hnd
      simp only [PT.idOf_mk] at hms
      rw [h2.root_eq]
      set t' := specMerge h.lt t (PT.mk f x []) with ht'
      have hsome : ∀ t0, ot = some t0 → t' = specMerge h.lt t0 (PT.mk f x []) := by
        intro t0 ht0
        have ht0t : t0 = t := by
          rw [h1] at ht0
          injection ht0 with he
          exact he.symm
        rw [ht0t, ht']
      refine ⟨t', ⟨?_, Or.inr ⟨t', rfl, ?_⟩⟩, ?_,
        fun hno => absurd (hno ▸ h1) (by simp), hsome⟩
      · intro fs2 hfs2
        obtain ⟨hnd2, hface⟩ := hpool2 fs2 hfs2
        refine ⟨hnd2, ?_⟩
        intro g hg
        obtain ⟨hglt, hgblank⟩ := hface g hg
        refine ⟨hglt, ?_⟩
        show (merge h.lt s (some t.idOf) (some f)).2 g = blankNode
        rw [hms.2.2.2.2 g ?_ ?_]
        · exact hgblank
        · intro hcon
          have := reprT_item_isSome _ hrt g hcon
          rw [hgblank] at this
          exact this rfl
        · intro hcon
          have := reprT_item_isSome _ hrf g hcon
          rw [hgblank] at this
          exact this rfl
      · have hidperm : idsT t' ~ idsT t ++ [f] := by
          rw [ht']
          simpa using idsT_specMerge h.lt t (PT.mk f x [])
        refine ⟨hms.1, hms.2.1, hms.2.2.2.1, hms.2.2.1, ?_, ?_, ?_, ?_⟩
        · refine hidperm.symm.nodup ?_
          rw [List.nodup_append]
          refine ⟨h2.nodup, by simp, ?_⟩
          intro a ha hb
          have : a = f := by simpa using hb
          exact hnotint (this ▸ ha)
        · intro i hi
          rcases (by simpa using hidperm.mem_iff.mp hi : i ∈ idsT t ∨ i = f) with hh | hh
          · exact lt_of_lt_of_le (h2.bounded i hh) hmono
          · rw [hh]
            exact hffr
        · show h.size + 1 = ((itemsT t').length : Int)
          have hip : itemsT t' ~ itemsT t ++ [x] := by
            rw [ht']
            simpa using itemsT_specMerge h.lt t (PT.mk f x [])
          rw [h2.size_eq, hip.length_eq]
          simp
        · exact hOrdT_specMerge hs h2.hord (by rw [hOrdT_mk]; exact ⟨by simp, hOrdF_nil _⟩)
      · rw [h1]
        have hip : itemsT t' ~ itemsT t ++ [x] := by
          rw [ht']
          simpa using itemsT_specMerge h.lt t (PT.mk f x [])
        refine hip.trans ?_
        show itemsT t ++ [x] ~ x :: itemsT t
        exact @List.perm_append_comm _ (itemsT t) [x]
  -- dispatch on the pool
  have notin_of_blank : ∀ (g : Nat), h.mem g = blankNode → ∀ t, ot = some t → g ∉ idsT t := by
    intro g hgb t ht
    rcases hcase with ⟨h1, h2, h3⟩ | ⟨t2, h1, h2⟩
    · rw [ht] at h1
      exact absurd h1 (by simp)
    · rw [ht] at h1
      injection h1 with he
      rw [he]
      exact pool_not_reachable h2.rep hgb
  have notin_of_fresh : ∀ t, ot = some t → h.fresh ∉ idsT t := by
    intro t ht hmem
    rcases hcase with ⟨h1, h2, h3⟩ | ⟨t2, h1, h2⟩
    · rw [ht] at h1
      exact absurd h1 (by simp)
    · rw [ht] at h1
      injection h1 with he
      rw [he] at hmem
      exact lt_irrefl _ (h2.bounded _ hmem)
  match hpl : h.pool with
  | some (f :: fs) =>
    obtain ⟨hfsnd, hface⟩ := hpool (f :: fs) hpl
    obtain ⟨hfl, hfblank⟩ := hface f (by simp)
    have hadd : PairingHeap.add h x =
        (f, { h with
          mem := (merge h.lt (wrItem h.mem f (some x)) h.root (some f)).2,
          root := (merge h.lt (wrItem h.mem f (some x)) h.root (some f)).1,
          pool := some fs, size := h.size + 1 }) := by
      simp only [PairingHeap.add, hpl, PairingHeap.poolGet]
    rw [hadd]
    have hm := main f (wrItem h.mem f (some x)) h.fresh (some fs) ?_ ?_ hfl le_rfl ?_ ?_
    · obtain ⟨t', hA', hperm, hempty, hsome⟩ := hm
      refine ⟨t', hA', hperm, rfl, ?_, hempty, hsome⟩
      rcases hcase with ⟨hno, hx1, hx2⟩ | ⟨t0, ht0, hI0⟩
      · rw [hno]
        simp [idsO]
      · rw [ht0]
        exact notin_of_blank f hfblank t0 ht0
    · rw [wrItem_self, hfblank]
      rfl
    · intro j hj
      rw [wrItem_other _ _ hj]
    · exact notin_of_blank f hfblank
    · intro fs2 hfs2
      injection hfs2 with hfs2
      rw [List.nodup_cons] at hfsnd
      refine ⟨hfs2 ▸ hfsnd.2, ?_⟩
      intro g hg
      have hg2 : g ∈ fs := hfs2 ▸ hg
      obtain ⟨hgl, hgb⟩ := hface g (List.mem_cons_of_mem _ hg2)
      have hne : g ≠ f := fun hgf => hfsnd.1 (hgf ▸ hg2)
      rw [wrItem_other _ _ hne]
      exact ⟨hgl, hgb⟩
  | none =>
    have hadd : PairingHeap.add h x =
        (h.fresh, { h with
          mem := (merge h.lt (wr h.mem h.fresh { item := some x, child := none, next := none, prev := none }) h.root (some h.fresh)).2,
          root := (merge h.lt (wr h.mem h.fresh { item := some x, child := none, next := none, prev := none }) h.root (some h.fresh)).1,
          pool := none, fresh := h.fresh + 1, size := h.size + 1 }) := by
      simp only [PairingHeap.add, hpl, PairingHeap.poolGet]
    rw [hadd]
    have hm := main h.fresh (wr h.mem h.fresh { item := some x, child := none, next := none, prev := none }) (h.fresh + 1) none (by rw [wr_self]) ?_ (Nat.lt_succ_self _) (Nat.le_succ _) notin_of_fresh ?_
    · obtain ⟨t', hA', hperm, hempty, hsome⟩ := hm
      refine ⟨t', hA', hperm, rfl, ?_, hempty, hsome⟩
      rcases hcase with ⟨hno, hx1, hx2⟩ | ⟨t0, ht0, hI0⟩
      · rw [hno]
        simp [idsO]
      · rw [ht0]
        exact notin_of_fresh t0 ht0
    · intro j hj
      rw [wr_other _ _ hj]
    · intro fs2 hfs2
      exact absurd hfs2 (by simp)
  | some [] =>
    have hadd : PairingHeap.add h x =
        (h.fresh, { h with
          mem := (merge h.lt (wr h.mem h.fresh { item := some x, child := none, next := none, prev := none }) h.root (some h.fresh)).2,
          root := (merge h.lt (wr h.mem h.fresh { item := some x, child := none, next := none, prev := none }) h.root (some h.fresh)).1,
          pool := some [], fresh := h.fresh + 1, size := h.size + 1 }) := by
      simp only [PairingHeap.add, hpl, PairingHeap.poolGet]
    rw [hadd]
    have hm := main h.fresh (wr h.mem h.fresh { item := some x, child := none, next := none, prev := none }) (h.fresh + 1) (some []) (by rw [wr_self]) ?_ (Nat.lt_succ_self _) (Nat.le_succ _) notin_of_fresh ?_
    · obtain ⟨t', hA', hperm, hempty, hsome⟩ := hm
      refine ⟨t', hA', hperm, rfl, ?_, hempty, hsome⟩
      rcases hcase with ⟨hno, hx1, hx2⟩ | ⟨t0, ht0, hI0⟩
      · rw [hno]
        simp [idsO]
      · rw [ht0]
        exact notin_of_fresh t0 ht0
    · intro j hj
      rw [wr_other _ _ hj]
    · intro fs2 hfs2
      injection hfs2 with hfs2
      refine ⟨hfs2 ▸ List.nodup_nil, ?_⟩
      intro g hg
      rw [← hfs2] at hg
      exact absurd hg (by simp)

theorem idsT_ne_nil : ∀ (t : PT α), idsT t ≠ []
  | .mk i x cs => by
    rw [idsT_mk]
    exact List.cons_ne_nil i (idsF cs)

theorem length_le_idsF : ∀ (cs : List (PT α)), cs.length ≤ (idsF cs).length
  | [] => le_refl 0
  | c :: rest => by
    obtain ⟨i, x, ccs⟩ := c
    simp only [idsF_cons, List.length_cons, List.length_append, idsT_mk]
    have := length_le_idsF rest
    omega

mutual
/-- A represented node other than the tree root carries a `some` `prev` link. -/
theorem reprT_prev_some {s : St α} : ∀ (t : PT α), ReprT s t →
    ∀ n ∈ idsT t, n ≠ t.idOf → ∃ p, (s n).prev = some p
  | .mk i x cs, h, n, hn, hne => by
    rw [reprT_mk] at h
    rcases (by simpa using hn : n = i ∨ n ∈ idsF cs) with rfl | hn2
    · exact absurd (PT.idOf_mk n x cs).symm hne
    · exact reprL_prev_some cs h.2 n hn2
theorem reprL_prev_some {s : St α} {first : Option Nat} {pp : Nat} :
    ∀ (cs : List (PT α)), ReprL s first pp cs → ∀ n ∈ idsF cs, ∃ p, (s n).prev = some p
  | [], h, n, hn => absurd hn (by simp)
  | c :: rest, h, n, hn => by
    rw [reprL_cons] at h
    rcases (by simpa using hn : n ∈ idsT c ∨ n ∈ idsF rest) with hn2 | hn2
    · by_cases hnc : n = c.idOf
      · exact ⟨pp, hnc ▸ h.2.1⟩
      · exact reprT_prev_some c h.2.2.1 n hn2 hnc
    · exact reprL_prev_some rest h.2.2.2 n hn2
end

/-- Under a strict weak order, heap order puts the root item at a global
minimum: nothing in the tree compares strictly before it. -/
theorem hOrdT_min {lt : α → α → Bool} (hs : SWO lt) {t : PT α} (h : hOrdT lt t) :
    ∀ y ∈ itemsT t, lt y t.itm = false := by
  obtain ⟨i, x, cs⟩ := t
  rw [hOrdT_mk] at h
  intro y hy
  rcases (by simpa using hy : y = x ∨ y ∈ itemsF cs) with rfl | hy2
  · exact swo_irrefl hs y
  · exact h.1 y hy2

/-- Deleting the node the root points at: the root is replaced by the
collapse of its child list, the node itself is cleared and released, and the
size is decremented (source lines 166-168 and 191-197). -/
theorem delete_root_abs {h : PairingHeap α} {t : PT α} (hs : SWO h.lt)
    (hA : Abs h (some t)) :
    ∃ h2, PairingHeap.delete h t.idOf = .ok h2 ∧
      Abs h2 (specCollapse h.lt t.children) ∧
      h2.lt = h.lt ∧ h2.fresh = h.fresh ∧ h2.size = h.size - 1 ∧
      h2.mem t.idOf = blankNode ∧
      h2.pool = PairingHeap.poolRelease t.idOf h.pool := by
  obtain ⟨hpool, hcase⟩ := hA
  have hI : InvT h t := by
    rcases hcase with ⟨hno, hr2, hs3⟩ | ⟨t2, heq, hI0⟩
    · exact absurd hno (by simp)
    · have ht2 : t2 = t := by injection heq with he; exact he.symm
      exact ht2 ▸ hI0
  obtain ⟨i, x, cs⟩ := t
  have hroot : h.root = some i := hI.root_eq
  have hitem : (h.mem i).item = some x := ((reprT_mk).mp hI.rep).1
  have hrL : ReprL h.mem ((h.mem i).child) i cs := ((reprT_mk).mp hI.rep).2
  have hrS : ReprS h.mem ((h.mem i).child) cs := reprS_of_reprL hrL
  have hndall : (i :: idsF cs).Nodup := by simpa using hI.nodup
  have hndc : (idsF cs).Nodup := (List.nodup_cons.mp hndall).2
  have hinotc : i ∉ idsF cs := (List.nodup_cons.mp hndall).1
  have hbnd : ∀ j ∈ idsF cs, j < h.fresh := fun j hj => hI.bounded j (by simp [hj])
  have hlen : cs.length ≤ h.fresh + 1 :=
    le_trans (le_trans (length_le_idsF cs) (length_le_of_nodup_lt hndc hbnd))
      (Nat.le_succ _)
  have hcol := @collapse_sim _ h.lt h.mem ((h.mem i).child) cs (h.fresh + 1) hrS hndc hlen
  set c2 := collapse h.lt (h.fresh + 1) h.mem ((h.mem i).child) with hc2
  have hdel : PairingHeap.delete h i =
      .ok (PairingHeap.clearRelease { h with mem := c2.2, root := c2.1 } i) := by
    simp only [PairingHeap.delete, if_pos hroot, hc2]
  have hsz : h.size = ((x :: itemsF cs).length : Int) := by
    have := hI.size_eq
    simpa using this
  have hfreepool : ∀ g fs, h.pool = some fs → g ∈ fs → g ∉ idsF cs := by
    intro g fs hfs hg hgmem
    have hgb := ((hpool fs hfs).2 g hg).2
    have hcon := reprT_item_isSome _ hI.rep g (by simp [hgmem])
    rw [hgb] at hcon
    exact hcon rfl
  have hinotpool : ∀ fs, h.pool = some fs → i ∉ fs := by
    intro fs hfs hg
    have hgb := ((hpool fs hfs).2 i hg).2
    rw [hgb] at hitem
    exact absurd hitem (by simp [blankNode])
  refine ⟨_, hdel, ⟨?_, ?_⟩, rfl, rfl, rfl,
    (by show wr c2.2 i blankNode i = blankNode; rw [wr_self]), rfl⟩
  · -- pool invariant after the release
    intro fs2 hfs2
    show _ ∧ ∀ g ∈ fs2, g < h.fresh ∧ wr c2.2 i blankNode g = blankNode
    have hfs2b : PairingHeap.poolRelease i h.pool = some fs2 := hfs2
    match hpl : h.pool with
    | none =>
      rw [show PairingHeap.poolRelease i h.pool = none by rw [hpl]; rfl] at hfs2b
      exact absurd hfs2b (by simp)
    | some fs =>
      obtain ⟨hfnd, hface⟩ := hpool fs hpl
      rw [show PairingHeap.poolRelease i h.pool = some (i :: fs) by rw [hpl]; rfl] at hfs2b
      injection hfs2b with hfs2b
      subst hfs2b
      refine ⟨List.nodup_cons.mpr ⟨hinotpool fs hpl, hfnd⟩, ?_⟩
      intro g hg
      rcases (by simpa using hg : g = i ∨ g ∈ fs) with rfl | hg2
      · exact ⟨hI.bounded g (by simp), by rw [wr_self]⟩
      · obtain ⟨hgl, hgb⟩ := hface g hg2
        have hgi : g ≠ i := by
          intro hcon
          exact hinotpool fs hpl (hcon ▸ hg2)
        refine ⟨hgl, ?_⟩
        rw [wr_other _ _ hgi, hcol.2.2 g (hfreepool g fs hpl hg2), hgb]
  · -- contents after the collapse
    match hsc : specCollapse h.lt cs with
    | none =>
      have hcnil : cs = [] := by
        have hperm := idsO_specCollapse h.lt cs
        rw [hsc] at hperm
        have hnil : idsF cs = [] := (hperm.symm).eq_nil
        cases cs with
        | nil => rfl
        | cons c rest =>
          exfalso
          rw [idsF_cons] at hnil
          exact idsT_ne_nil c (List.append_eq_nil.mp hnil).1
      refine Or.inl ⟨rfl, ?_, ?_⟩
      · show c2.1 = none
        have hon := hcol.1
        rw [hsc] at hon
        exact optRepr_none_inv hon
      · show h.size - 1 = 0
        rw [hsz, hcnil]
        simp
    | some tf =>
      have hor : OptRepr c2.2 c2.1 (some tf) := by rw [← hsc]; exact hcol.1
      obtain ⟨hr1, hrt2⟩ := optRepr_some_inv hor
      have hidperm : idsT tf ~ idsF cs := by
        have hp0 := idsO_specCollapse h.lt cs
        rw [hsc] at hp0
        exact hp0
      have hiperm : itemsT tf ~ itemsF cs := by
        have hp0 := itemsO_specCollapse h.lt cs
        rw [hsc] at hp0
        exact hp0
      have hine : ∀ j ∈ idsT tf, j ≠ i := by
        intro j hj hcon
        exact hinotc (hcon ▸ hidperm.mem_iff.mp hj)
      have hfe : tf.idOf ≠ i := hine tf.idOf (idOf_mem_idsT tf)
      have hrn := hcol.2.1 tf hsc
      refine Or.inr ⟨tf, rfl, ?_, ?_, ?_, ?_, ?_, ?_, ?_, ?_⟩
      · show c2.1 = some tf.idOf
        exact hr1
      · show ReprT (wr c2.2 i blankNode) tf
        refine reprT_frame tf hrt2 ?_
        intro j hj
        exact wr_other _ _ (hine j hj)
      · show (wr c2.2 i blankNode tf.idOf).prev = none
        rw [wr_other _ _ hfe]
        exact hrn.2
      · show (wr c2.2 i blankNode tf.idOf).next = none
        rw [wr_other _ _ hfe]
        exact hrn.1
      · exact hidperm.symm.nodup hndc
      · intro j hj
        exact hbnd j (hidperm.mem_iff.mp hj)
      · show h.size - 1 = ((itemsT tf).length : Int)
        rw [hsz, hiperm.length_eq]
        simp
      · show hOrdT h.lt tf
        have hof : hOrdF h.lt cs := ((hOrdT_mk h.lt i x cs).mp hI.hord).2
        have ho2 := hOrdO_specCollapse hs cs hof
        rw [hsc] at ho2
        exact ho2

/-- Running `deleteMin` on a represented heap returns the root item and leaves the
collapse of the root's children (source lines 143-154). -/
theorem deleteMin_abs {h : PairingHeap α} {t : PT α} (hs : SWO h.lt)
    (hA : Abs h (some t)) :
    (PairingHeap.deleteMin h).1 = some t.itm ∧
    Abs (PairingHeap.deleteMin h).2 (specCollapse h.lt t.children) ∧
    (PairingHeap.deleteMin h).2.lt = h.lt ∧
    (PairingHeap.deleteMin h).2.fresh = h.fresh ∧
    (PairingHeap.deleteMin h).2.size = h.size - 1 ∧
    (PairingHeap.deleteMin h).2.mem t.idOf = blankNode ∧
    (PairingHeap.deleteMin h).2.pool = PairingHeap.poolRelease t.idOf h.pool := by
  obtain ⟨h2, hdel, hA2, hlt2, hfr2, hsz2, hblank2, hpool2⟩ := delete_root_abs hs hA
  have hI : InvT h t := by
    obtain ⟨hpool, hcase⟩ := hA
    rcases hcase with ⟨hno, hx1, hx2⟩ | ⟨t2, heq, hI⟩
    · exact absurd hno (by simp)
    · have ht2 : t2 = t := by injection heq with he; exact he.symm
      exact ht2 ▸ hI
  have hroot : h.root = some t.idOf := hI.root_eq
  have hitem : (h.mem t.idOf).item = some t.itm := reprT_item hI.rep
  have hdm : PairingHeap.deleteMin h = (some t.itm, h2) := by
    rw [PairingHeap.deleteMin]
    rw [hroot]
    simp only [hitem, hdel]
  rw [hdm]
  exact ⟨rfl, hA2, hlt2, hfr2, hsz2, hblank2, hpool2⟩

/-- Running `deleteMin` on an empty heap is a no-op returning nothing (source lines
144-147). -/
theorem deleteMin_empty {h : PairingHeap α} (hA : Abs h none) :
    PairingHeap.deleteMin h = (none, h) := by
  obtain ⟨hpool, hcase⟩ := hA
  rcases hcase with ⟨h1, h2, h3⟩ | ⟨t2, heq, hI⟩
  · rw [PairingHeap.deleteMin, h2]
  · exact absurd heq (by simp)

theorem removeT_itm (n : Nat) (t : PT α) : (removeT n t).itm = t.itm := by
  obtain ⟨i, x, cs⟩ := t
  rw [removeT_mk]
  rfl

/-- Deleting a non-root node `n`: the source unlinks it, collapses its child
list and merges the result with the root (source lines 177-190), then clears
and releases the node (source lines 191-197).  Abstractly the heap goes from
`t` to `specMergeO (removeT n t) (specCollapse tn.children)` where `tn` is the
subtree rooted at `n`. -/
theorem delete_nonroot_abs {h : PairingHeap α} {t : PT α} {n : Nat}
    (hs : SWO h.lt) (hA : Abs h (some t)) (hmem : n ∈ idsT t) (hne : n ≠ t.idOf) :
    ∃ h2 tn t2, findT n t = some tn ∧
      PairingHeap.delete h n = .ok h2 ∧
      specMergeO h.lt (some (removeT n t)) (specCollapse h.lt tn.children) = some t2 ∧
      Abs h2 (some t2) ∧
      h2.lt = h.lt ∧ h2.fresh = h.fresh ∧ h2.size = h.size - 1 ∧
      h2.mem n = blankNode ∧ h2.pool = PairingHeap.poolRelease n h.pool ∧
      n ∉ idsT t2 := by
  obtain ⟨hpool, hcase⟩ := hA
  have hI : InvT h t := by
    rcases hcase with ⟨hno, hr2, hs3⟩ | ⟨t2, heq, hI0⟩
    · exact absurd hno (by simp)
    · have ht2 : t2 = t := by injection heq with he; exact he.symm
      exact ht2 ▸ hI0
  obtain ⟨p, hp⟩ := reprT_prev_some t hI.rep n hmem hne
  have hroot_ne : h.root ≠ some n := by
    rw [hI.root_eq]
    intro hcon
    injection hcon with hcon
    exact hne hcon.symm
  obtain ⟨tn, hfind, hrem, htn, hframe, hn_same, hrp, hrn, hri⟩ :=
    cutT t hI.rep hI.nodup hmem hne hp
  set s2 := PairingHeap.cutNode h.mem n p with hs2def
  -- nodup bookkeeping from the find/remove split
  have hfr := find_remove_T n t hI.nodup hne hfind
  have hnd2 : (idsT (removeT n t) ++ idsT tn).Nodup := hfr.1.nodup hI.nodup
  have hndtn : (idsT tn).Nodup := hnd2.of_append_right
  have hndrem : (idsT (removeT n t)).Nodup := hnd2.of_append_left
  have hdisj : (idsT (removeT n t)).Disjoint (idsT tn) :=
    List.disjoint_of_nodup_append hnd2
  have hboundtn : ∀ j ∈ idsT tn, j < h.fresh := by
    intro j hj
    exact hI.bounded j (hfr.1.mem_iff.mpr (by simp [hj]))
  have hboundrem : ∀ j ∈ idsT (removeT n t), j < h.fresh := by
    intro j hj
    exact hI.bounded j (hfr.1.mem_iff.mpr (by simp [hj]))
  -- open the found subtree
  obtain ⟨nid, y, ncs⟩ := tn
  have hnid : nid = n := by simpa using (findT_some n t hfind).1
  subst hnid
  have hndtn2 : (nid :: idsF ncs).Nodup := by simpa using hndtn
  have hndncs : (idsF ncs).Nodup := (List.nodup_cons.mp hndtn2).2
  have hn_notin_ncs : nid ∉ idsF ncs := (List.nodup_cons.mp hndtn2).1
  have hrLn : ReprL s2 ((s2 nid).child) nid ncs := ((reprT_mk).mp htn).2
  have hrSn : ReprS s2 ((s2 nid).child) ncs := reprS_of_reprL hrLn
  have hboundncs : ∀ j ∈ idsF ncs, j < h.fresh := fun j hj =>
    hboundtn j (by simp [hj])
  have hlen : ncs.length ≤ h.fresh + 1 :=
    le_trans (le_trans (length_le_idsF ncs) (length_le_of_nodup_lt hndncs hboundncs))
      (Nat.le_succ _)
  have hcol := @collapse_sim _ h.lt s2 ((s2 nid).child) ncs (h.fresh + 1) hrSn hndncs hlen
  set c2 := collapse h.lt (h.fresh + 1) s2 ((s2 nid).child) with hc2def
  -- the removed-tree representation survives the collapse
  have hncs_sub_tn : ∀ j ∈ idsF ncs, j ∈ idsT (PT.mk nid y ncs) := by
    intro j hj
    simp [hj]
  have hrem2 : ReprT c2.2 (removeT nid t) := by
    refine reprT_frame _ hrem ?_
    intro j hj
    exact hcol.2.2 j (fun hc => hdisj hj (hncs_sub_tn j hc))
  have hn_notin_rem : nid ∉ idsT (removeT nid t) := by
    intro hc
    exact hdisj hc (by simp)
  have hremid : (removeT nid t).idOf = t.idOf := removeT_idOf nid t
  have hrootid_mem : t.idOf ∈ idsT (removeT nid t) := by
    rw [← hremid]
    exact idOf_mem_idsT _
  have hrootid_notin_ncs : t.idOf ∉ idsF ncs := by
    intro hc
    exact hdisj hrootid_mem (hncs_sub_tn _ hc)
  -- the store seen by the final merge still holds the clean root fields
  have hroot_prev : (c2.2 t.idOf).prev = none := by
    rw [hcol.2.2 t.idOf hrootid_notin_ncs, hrp]
    exact hI.root_prev
  have hroot_next : (c2.2 t.idOf).next = none := by
    rw [hcol.2.2 t.idOf hrootid_notin_ncs, hrn]
    exact hI.root_next
  -- delete takes the cut/collapse/merge path
  set rs := merge h.lt c2.2 h.root c2.1 with hrsdef
  have hdel : PairingHeap.delete h nid =
      .ok (PairingHeap.clearRelease { h with mem := rs.2, root := rs.1 } nid) := by
    simp only [PairingHeap.delete, if_neg hroot_ne, hp, hs2def, hc2def, hrsdef]
  -- pool bookkeeping shared by both cases
  have hnitem : (h.mem nid).item ≠ none := reprT_item_isSome _ hI.rep nid hmem
  have hpool_not_t : ∀ g fs, h.pool = some fs → g ∈ fs → g ∉ idsT t := by
    intro g fs hfs hg hgmem
    have hgb := ((hpool fs hfs).2 g hg).2
    have hcon := reprT_item_isSome _ hI.rep g hgmem
    rw [hgb] at hcon
    exact hcon rfl
  have hn_notin_pool : ∀ fs, h.pool = some fs → nid ∉ fs := by
    intro fs hfs hg
    have hgb := ((hpool fs hfs).2 nid hg).2
    rw [hgb] at hnitem
    exact hnitem rfl
  have hsz : h.size = ((itemsT (removeT nid t)).length : Int) +
      ((y :: itemsF ncs).length : Int) := by
    have h1 := hI.size_eq
    have h2 := hfr.2.length_eq
    rw [h1, h2]
    simp
  -- case on the collapse of the children of nid
  match hsc : specCollapse h.lt ncs with
  | none =>
    have hc21 : c2.1 = none := by
      have hon := hcol.1
      rw [hsc] at hon
      exact optRepr_none_inv hon
    have hncs_nil : ncs = [] := by
      have hperm := idsO_specCollapse h.lt ncs
      rw [hsc] at hperm
      have hnil : idsF ncs = [] := (hperm.symm).eq_nil
      cases ncs with
      | nil => rfl
      | cons c rest =>
        exfalso
        rw [idsF_cons] at hnil
        exact idsT_ne_nil c (List.append_eq_nil.mp hnil).1
    have hmerge : rs = (h.root, c2.2) := by
      rw [hrsdef, hc21, hI.root_eq]
      rfl
    have hmoeq : specMergeO h.lt (some (removeT nid t))
        (specCollapse h.lt (PT.mk nid y ncs).children) = some (removeT nid t) := by
      rw [show (PT.mk nid y ncs).children = ncs from rfl, hsc]
      rfl
    refine ⟨_, PT.mk nid y ncs, removeT nid t, hfind, hdel, hmoeq, ⟨?_, Or.inr ⟨removeT nid t, rfl, ?_⟩⟩,
      rfl, rfl, rfl,
      (by show wr rs.2 nid blankNode nid = blankNode; rw [wr_self]), rfl,
      hn_notin_rem⟩
    · -- pool invariant
      intro fs2 hfs2
      have hfs2b : PairingHeap.poolRelease nid h.pool = some fs2 := hfs2
      match hpl : h.pool with
      | none =>
        rw [show PairingHeap.poolRelease nid h.pool = none by rw [hpl]; rfl] at hfs2b
        exact absurd hfs2b (by simp)
      | some fs =>
        obtain ⟨hfnd, hface⟩ := hpool fs hpl
        rw [show PairingHeap.poolRelease nid h.pool = some (nid :: fs) by rw [hpl]; rfl] at hfs2b
        injection hfs2b with hfs2b
        subst hfs2b
        refine ⟨List.nodup_cons.mpr ⟨hn_notin_pool fs hpl, hfnd⟩, ?_⟩
        intro g hg
        rcases (by simpa using hg : g = nid ∨ g ∈ fs) with rfl | hg2
        · exact ⟨hI.bounded g hmem, by show wr rs.2 g blankNode g = blankNode; rw [wr_self]⟩
        · obtain ⟨hgl, hgb⟩ := hface g hg2
          have hgnott : g ∉ idsT t := hpool_not_t g fs hpl hg2
          have hgn : g ≠ nid := fun hc => hgnott (hc ▸ hmem)
          refine ⟨hgl, ?_⟩
          show wr rs.2 nid blankNode g = blankNode
          rw [wr_other _ _ hgn, hmerge]
          show c2.2 g = blankNode
          rw [hcol.2.2 g (fun hc => hgnott (hfr.1.mem_iff.mpr (by simp only [idsT_mk, List.mem_append, List.mem_cons]; exact Or.inr (Or.inr hc)))),
            hframe g hgnott, hgb]
    · -- the heap invariant with tree removeT nid t
      refine ⟨?_, ?_, ?_, ?_, ?_, ?_, ?_, ?_⟩
      · show rs.1 = some (removeT nid t).idOf
        rw [hmerge, hremid]
        exact hI.root_eq
      · show ReprT (wr rs.2 nid blankNode) (removeT nid t)
        rw [hmerge]
        refine reprT_frame _ hrem2 ?_
        intro j hj
        exact wr_other _ _ (fun hc => hn_notin_rem (hc ▸ hj))
      · show (wr rs.2 nid blankNode (removeT nid t).idOf).prev = none
        rw [hremid, wr_other _ _ (fun hc => hne hc.symm), hmerge]
        exact hroot_prev
      · show (wr rs.2 nid blankNode (removeT nid t).idOf).next = none
        rw [hremid, wr_other _ _ (fun hc => hne hc.symm), hmerge]
        exact hroot_next
      · exact hndrem
      · exact hboundrem
      · show h.size - 1 = ((itemsT (removeT nid t)).length : Int)
        rw [hsz, hncs_nil]
        simp
      · exact hOrd_removeT nid t hI.hord
  | some tf =>
    have hor : OptRepr c2.2 c2.1 (some tf) := by rw [← hsc]; exact hcol.1
    obtain ⟨hc21, hrtf⟩ := optRepr_some_inv hor
    have hidperm : idsT tf ~ idsF ncs := by
      have hp0 := idsO_specCollapse h.lt ncs
      rw [hsc] at hp0
      exact hp0
    have hiperm : itemsT tf ~ itemsF ncs := by
      have hp0 := itemsO_specCollapse h.lt ncs
      rw [hsc] at hp0
      exact hp0
    have htf_sub : ∀ j ∈ idsT tf, j ∈ idsF ncs := fun j hj => hidperm.mem_iff.mp hj
    have hnd3 : (idsT (removeT nid t) ++ idsT tf).Nodup := by
      have hmid : (idsT (removeT nid t) ++ idsT (PT.mk nid y ncs)).Nodup := hnd2
      simp only [idsT_mk] at hmid
      have hmid2 : (idsT (removeT nid t) ++ nid :: idsF ncs).Nodup := hmid
      have hperm2 : (idsT (removeT nid t) ++ nid :: idsF ncs) ~
          nid :: (idsT (removeT nid t) ++ idsF ncs) :=
        @List.perm_middle _ nid (idsT (removeT nid t)) (idsF ncs)
      have hmid3 : (nid :: (idsT (removeT nid t) ++ idsF ncs)).Nodup := hperm2.nodup hmid2
      have hmid4 : (idsT (removeT nid t) ++ idsF ncs).Nodup := (List.nodup_cons.mp hmid3).2
      refine (List.Perm.append (List.Perm.refl _) hidperm.symm).nodup hmid4
    have hmsim := @merge_sim _ h.lt c2.2 (removeT nid t) tf hrem2 hrtf hnd3
    set t2 := specMerge h.lt (removeT nid t) tf with ht2def
    have hmerge_eq : rs = merge h.lt c2.2 (some (removeT nid t).idOf) (some tf.idOf) := by
      rw [hrsdef, hI.root_eq, hc21, hremid]
    have hn_notin_tf : nid ∉ idsT tf := fun hc => hn_notin_ncs (htf_sub nid hc)
    have hidperm2 : idsT t2 ~ idsT (removeT nid t) ++ idsT tf := by
      rw [ht2def]
      exact idsT_specMerge h.lt _ _
    have hiperm2 : itemsT t2 ~ itemsT (removeT nid t) ++ itemsT tf := by
      rw [ht2def]
      exact itemsT_specMerge h.lt _ _
    have hn_notin_t2 : nid ∉ idsT t2 := by
      intro hc
      rcases (by simpa using hidperm2.mem_iff.mp hc : nid ∈ idsT (removeT nid t) ∨ nid ∈ idsT tf)
        with hc2 | hc2
      · exact hn_notin_rem hc2
      · exact hn_notin_tf hc2
    have hmoeq : specMergeO h.lt (some (removeT nid t))
        (specCollapse h.lt (PT.mk nid y ncs).children) = some t2 := by
      rw [show (PT.mk nid y ncs).children = ncs from rfl, hsc, ht2def]
      rfl
    refine ⟨_, PT.mk nid y ncs, t2, hfind, hdel, hmoeq, ⟨?_, Or.inr ⟨t2, rfl, ?_⟩⟩,
      rfl, rfl, rfl,
      (by show wr rs.2 nid blankNode nid = blankNode; rw [wr_self]), rfl,
      hn_notin_t2⟩
    · -- pool invariant
      intro fs2 hfs2
      have hfs2b : PairingHeap.poolRelease nid h.pool = some fs2 := hfs2
      match hpl : h.pool with
      | none =>
        rw [show PairingHeap.poolRelease nid h.pool = none by rw [hpl]; rfl] at hfs2b
        exact absurd hfs2b (by simp)
      | some fs =>
        obtain ⟨hfnd, hface⟩ := hpool fs hpl
        rw [show PairingHeap.poolRelease nid h.pool = some (nid :: fs) by rw [hpl]; rfl] at hfs2b
        injection hfs2b with hfs2b
        subst hfs2b
        refine ⟨List.nodup_cons.mpr ⟨hn_notin_pool fs hpl, hfnd⟩, ?_⟩
        intro g hg
        rcases (by simpa using hg : g = nid ∨ g ∈ fs) with rfl | hg2
        · exact ⟨hI.bounded g hmem, by show wr rs.2 g blankNode g = blankNode; rw [wr_self]⟩
        · obtain ⟨hgl, hgb⟩ := hface g hg2
          have hgnott : g ∉ idsT t := hpool_not_t g fs hpl hg2
          have hgn : g ≠ nid := fun hc => hgnott (hc ▸ hmem)
          have hg_notin_rem : g ∉ idsT (removeT nid t) := fun hc =>
            hgnott (hfr.1.mem_iff.mpr (List.mem_append.mpr (Or.inl hc)))
          have hg_notin_tf : g ∉ idsT tf := fun hc =>
            hgnott (hfr.1.mem_iff.mpr (by simp only [idsT_mk, List.mem_append, List.mem_cons]; exact Or.inr (Or.inr (htf_sub g hc))))
          refine ⟨hgl, ?_⟩
          show wr rs.2 nid blankNode g = blankNode
          rw [wr_other _ _ hgn, hmerge_eq, hmsim.2.2.2.2 g hg_notin_rem hg_notin_tf]
          rw [hcol.2.2 g (fun hc => hgnott (hfr.1.mem_iff.mpr
            (by simp only [idsT_mk, List.mem_append, List.mem_cons]; exact Or.inr (Or.inr hc)))), hframe g hgnott, hgb]
    · -- the heap invariant with tree t2
      have ht2id_notn : t2.idOf ≠ nid := fun hc => hn_notin_t2 (hc ▸ idOf_mem_idsT t2)
      refine ⟨?_, ?_, ?_, ?_, ?_, ?_, ?_, ?_⟩
      · show rs.1 = some t2.idOf
        rw [hmerge_eq]
        exact hmsim.1
      · show ReprT (wr rs.2 nid blankNode) t2
        rw [hmerge_eq]
        refine reprT_frame _ hmsim.2.1 ?_
        intro j hj
        exact wr_other _ _ (fun hc => hn_notin_t2 (hc ▸ hj))
      · show (wr rs.2 nid blankNode t2.idOf).prev = none
        rw [wr_other _ _ ht2id_notn, hmerge_eq]
        exact hmsim.2.2.2.1
      · show (wr rs.2 nid blankNode t2.idOf).next = none
        rw [wr_other _ _ ht2id_notn, hmerge_eq]
        exact hmsim.2.2.1
      · exact hidperm2.symm.nodup hnd3
      · intro j hj
        rcases (by simpa using hidperm2.mem_iff.mp hj :
            j ∈ idsT (removeT nid t) ∨ j ∈ idsT tf) with hc | hc
        · exact hboundrem j hc
        · exact hboundncs j (htf_sub j hc)
      · show h.size - 1 = ((itemsT t2).length : Int)
        rw [hsz, hiperm2.length_eq]
        have hl3 : (itemsT tf).length = (itemsF ncs).length := hiperm.length_eq
        simp [hl3]
        omega
      · show hOrdT h.lt t2
        rw [ht2def]
        refine hOrdT_specMerge hs (hOrd_removeT nid t hI.hord) ?_
        have hof : hOrdF h.lt ncs := ((hOrdT_mk h.lt nid y ncs).mp
          (hOrd_findT nid t hI.hord hfind)).2
        have ho2 := hOrdO_specCollapse hs ncs hof
        rw [hsc] at ho2
        exact ho2

/-- A fresh heap is empty and well formed (an initial pool must be empty,
since no node ids exist yet). -/
theorem mkHeap_abs {lt : α → α → Bool} {pool : Option (List Nat)}
    (hp : pool = none ∨ pool = some []) :
    Abs (PairingHeap.mkHeap lt pool) none := by
  refine ⟨?_, Or.inl ⟨rfl, rfl, rfl⟩⟩
  intro fs hfs
  rcases hp with rfl | rfl
  · exact absurd hfs (by simp [PairingHeap.mkHeap])
  · have hfs2 : some ([] : List Nat) = some fs := hfs
    injection hfs2 with hfs2
    subst hfs2
    exact ⟨List.nodup_nil, by intro g hg; exact absurd hg (by simp)⟩

/-- Clearing empties the heap: `root` and `size` are reset, nothing else is
touched and nothing is released to the pool (source lines 69-73). -/
theorem clear_abs {h : PairingHeap α} {ot : Option (PT α)} (hA : Abs h ot) :
    Abs (PairingHeap.clear h) none ∧
    (PairingHeap.clear h).mem = h.mem ∧
    (PairingHeap.clear h).pool = h.pool ∧
    (PairingHeap.clear h).lt = h.lt := by
  obtain ⟨hpool, hcase⟩ := hA
  exact ⟨⟨fun fs hfs => hpool fs hfs, Or.inl ⟨rfl, rfl, rfl⟩⟩, rfl, rfl, rfl⟩

/-- Running `decreaseKey` on the root is a no-op (source lines 209-211). -/
theorem decreaseKey_root {h : PairingHeap α} {n : Nat} (hroot : h.root = some n) :
    PairingHeap.decreaseKey h n = .ok h := by
  simp only [PairingHeap.decreaseKey, if_pos hroot]

/-- Running `decreaseKey` on a non-root node whose `prev` link is absent dereferences
the absent link and faults (source line 213: `node.prev.child` with
`node.prev == null`) — unlike `delete`, which treats the same state as
"already deleted". -/
theorem decreaseKey_no_prev {h : PairingHeap α} {n : Nat}
    (hroot : h.root ≠ some n) (hp : (h.mem n).prev = none) :
    PairingHeap.decreaseKey h n = .error PairingHeap.typeErr := by
  simp only [PairingHeap.decreaseKey, if_neg hroot, hp]

/-- Running `delete` on a non-root node whose `prev` link is absent: an error when a
pool is configured, a silent no-op otherwise (source lines 170-176). -/
theorem delete_no_prev {h : PairingHeap α} {n : Nat}
    (hroot : h.root ≠ some n) (hp : (h.mem n).prev = none) :
    PairingHeap.delete h n =
      (if h.pool.isSome then .error PairingHeap.deleteErr else .ok h) := by
  simp only [PairingHeap.delete, if_neg hroot, hp]

/-- Running `decreaseKey` on a non-root node (with its `prev` present, as on every
represented non-root node): the node is unlinked with its children attached
and merged with the root (source lines 213-224). -/
theorem abs_invT {h : PairingHeap α} {t : PT α} (hA : Abs h (some t)) : InvT h t := by
  obtain ⟨hpool, hcase⟩ := hA
  rcases hcase with ⟨hno, hr2, hs3⟩ | ⟨t2, heq, hI0⟩
  · exact absurd hno (by simp)
  · have ht2 : t2 = t := by injection heq with he; exact he.symm
    exact ht2 ▸ hI0

theorem decreaseKey_nonroot_core {h : PairingHeap α} {t : PT α} {n : Nat}
    (hs : SWO h.lt) (hpool : PoolInv h)
    (hroot : h.root = some t.idOf) (hrep : ReprT h.mem t)
    (hndt : (idsT t).Nodup) (hbound : ∀ i ∈ idsT t, i < h.fresh)
    (hsizet : h.size = ((itemsT t).length : Int))
    (hordRem : hOrdT h.lt (removeT n t))
    (hordFind : ∀ tn0, findT n t = some tn0 → hOrdT h.lt tn0)
    (hmem : n ∈ idsT t) (hne : n ≠ t.idOf) :
    ∃ h2 tn, findT n t = some tn ∧
      PairingHeap.decreaseKey h n = .ok h2 ∧
      Abs h2 (some (specMerge h.lt (removeT n t) tn)) ∧
      h2.lt = h.lt ∧ h2.fresh = h.fresh ∧ h2.size = h.size := by
  obtain ⟨p, hp⟩ := reprT_prev_some t hrep n hmem hne
  have hroot_ne : h.root ≠ some n := by
    rw [hroot]
    intro hcon
    injection hcon with hcon
    exact hne hcon.symm
  obtain ⟨tn, hfind, hrem, htn, hframe, hn_same, hrp, hrn, hri⟩ :=
    cutT t hrep hndt hmem hne hp
  set s2 := PairingHeap.cutNode h.mem n p with hs2def
  have hfr := find_remove_T n t hndt hne hfind
  have hnd2 : (idsT (removeT n t) ++ idsT tn).Nodup := hfr.1.nodup hndt
  have hdisj : (idsT (removeT n t)).Disjoint (idsT tn) :=
    List.disjoint_of_nodup_append hnd2
  have htnid : tn.idOf = n := (findT_some n t hfind).1
  have hremid : (removeT n t).idOf = t.idOf := removeT_idOf n t
  set rs := merge h.lt s2 h.root (some n) with hrsdef
  have hdec : PairingHeap.decreaseKey h n = .ok { h with mem := rs.2, root := rs.1 } := by
    simp only [PairingHeap.decreaseKey, if_neg hroot_ne, hp, hs2def, hrsdef]
  have hmsim := @merge_sim _ h.lt s2 (removeT n t) tn hrem htn hnd2
  have hmerge_eq : rs = merge h.lt s2 (some (removeT n t).idOf) (some tn.idOf) := by
    rw [hrsdef, hroot, hremid, htnid]
  set t2 := specMerge h.lt (removeT n t) tn with ht2def
  have hid2 : idsT t2 ~ idsT (removeT n t) ++ idsT tn := by
    rw [ht2def]
    exact idsT_specMerge h.lt _ _
  have hit2 : itemsT t2 ~ itemsT (removeT n t) ++ itemsT tn := by
    rw [ht2def]
    exact itemsT_specMerge h.lt _ _
  refine ⟨_, tn, hfind, hdec, ⟨?_, Or.inr ⟨t2, rfl, ?_⟩⟩, rfl, rfl, rfl⟩
  · -- pool invariant: nothing represented is pooled, and the writes stay
    -- inside the tree
    intro fs hfs
    obtain ⟨hfnd, hface⟩ := hpool fs hfs
    refine ⟨hfnd, ?_⟩
    intro g hg
    obtain ⟨hgl, hgb⟩ := hface g hg
    have hgnott : g ∉ idsT t := by
      intro hgmem
      have hcon := reprT_item_isSome _ hrep g hgmem
      rw [hgb] at hcon
      exact hcon rfl
    have hg_notin_rem : g ∉ idsT (removeT n t) := fun hc =>
      hgnott (hfr.1.mem_iff.mpr (List.mem_append.mpr (Or.inl hc)))
    have hg_notin_tn : g ∉ idsT tn := fun hc =>
      hgnott (hfr.1.mem_iff.mpr (List.mem_append.mpr (Or.inr hc)))
    refine ⟨hgl, ?_⟩
    show rs.2 g = blankNode
    rw [hmerge_eq, hmsim.2.2.2.2 g hg_notin_rem hg_notin_tn, hframe g hgnott, hgb]
  · refine ⟨?_, ?_, ?_, ?_, ?_, ?_, ?_, ?_⟩
    · show rs.1 = some t2.idOf
      rw [hmerge_eq]
      exact hmsim.1
    · show ReprT rs.2 t2
      rw [hmerge_eq]
      exact hmsim.2.1
    · show (rs.2 t2.idOf).prev = none
      rw [hmerge_eq]
      exact hmsim.2.2.2.1
    · show (rs.2 t2.idOf).next = none
      rw [hmerge_eq]
      exact hmsim.2.2.1
    · exact hid2.symm.nodup hnd2
    · intro j hj
      exact hbound j (hfr.1.mem_iff.mpr (hid2.mem_iff.mp hj))
    · show h.size = ((itemsT t2).length : Int)
      rw [hsizet, hit2.length_eq, hfr.2.length_eq]
    · show hOrdT h.lt t2
      rw [ht2def]
      exact hOrdT_specMerge hs hordRem (hordFind tn hfind)

/-- Running `decreaseKey` on a non-root node of a fully well-formed heap
(wrapper over `decreaseKey_nonroot_core`). -/
theorem decreaseKey_nonroot_abs {h : PairingHeap α} {t : PT α} {n : Nat}
    (hs : SWO h.lt) (hA : Abs h (some t)) (hmem : n ∈ idsT t) (hne : n ≠ t.idOf) :
    ∃ h2 tn, findT n t = some tn ∧
      PairingHeap.decreaseKey h n = .ok h2 ∧
      Abs h2 (some (specMerge h.lt (removeT n t) tn)) ∧
      h2.lt = h.lt ∧ h2.fresh = h.fresh ∧ h2.size = h.size := by
  have hI := abs_invT hA
  obtain ⟨hpool, hcase⟩ := hA
  exact decreaseKey_nonroot_core hs hpool hI.root_eq hI.rep hI.nodup hI.bounded
    hI.size_eq (hOrd_removeT n t hI.hord) (fun tn0 hf0 => hOrd_findT n t hI.hord hf0)
    hmem hne

/-- A strict weak order is transitive. -/
theorem swo_trans {lt : α → α → Bool} (hs : SWO lt) {a b c : α}
    (h1 : lt a b = true) (h2 : lt b c = true) : lt a c = true := by
  by_contra hc
  rw [Bool.not_eq_true] at hc
  have hcb : lt c b = false := hs.1 b c h2
  have h3 := hs.2 a c b hc hcb
  rw [h1] at h3
  cases h3

/-- Lowering a dominating item keeps it dominating: if `v` ranks strictly
before `x` and `y` does not rank before `x`, then `y` does not rank before
`v`. -/
theorem swo_lower {lt : α → α → Bool} (hs : SWO lt) {v x y : α}
    (hvx : lt v x = true) (hyx : lt y x = false) : lt y v = false := by
  cases hyv : lt y v with
  | false => rfl
  | true =>
    have h3 := swo_trans hs hyv hvx
    rw [hyx] at h3
    cases h3

theorem wrItem_prev (s : St α) (n : Nat) (x : Option α) (j : Nat) :
    (wrItem s n x j).prev = (s j).prev := by
  by_cases hj : j = n
  · subst hj
    rw [wrItem_self]
  · rw [wrItem_other _ _ hj]

theorem wrItem_next (s : St α) (n : Nat) (x : Option α) (j : Nat) :
    (wrItem s n x j).next = (s j).next := by
  by_cases hj : j = n
  · subst hj
    rw [wrItem_self]
  · rw [wrItem_other _ _ hj]

/-- The modelled `decreaseKey` call under its spec precondition (spec 4.3):
the caller has already mutated the node's item (`setItem`, i.e.
`node.item = v`) to a value ranking strictly before its prior one — a state
in which heap order may be broken at the node's ancestors.  From every such
state `decreaseKey` restores the full invariant: on the root it is a no-op
and the lowered item still dominates every descendant; on a non-root node
the node is cut with its children attached and re-merged with the root. -/
theorem decreaseKey_setItem_abs {h : PairingHeap α} {t : PT α} {n : Nat} {v : α}
    {tn : PT α} (hs : SWO h.lt) (hA : Abs h (some t)) (hmem : n ∈ idsT t)
    (hfind : findT n t = some tn) (hvlt : h.lt v tn.itm = true) :
    ∃ h2, PairingHeap.decreaseKey (PairingHeap.setItem h n v) n = .ok h2 ∧
      HeapInv h2 ∧ h2.lt = h.lt ∧ h2.size = h.size := by
  have hI := abs_invT hA
  obtain ⟨hpool, hcase⟩ := hA
  set h1 := PairingHeap.setItem h n v with hh1
  set t1 := setItemT n v t with ht1def
  have h1mem : h1.mem = wrItem h.mem n (some v) := rfl
  have hnitem : (h.mem n).item ≠ none := reprT_item_isSome _ hI.rep n hmem
  have hpool1 : PoolInv h1 := by
    intro fs hfs
    obtain ⟨hfnd, hface⟩ := hpool fs hfs
    refine ⟨hfnd, ?_⟩
    intro g hg
    obtain ⟨hgl, hgb⟩ := hface g hg
    refine ⟨hgl, ?_⟩
    have hgn : g ≠ n := by
      intro hc
      rw [← hc, hgb] at hnitem
      exact hnitem rfl
    show wrItem h.mem n (some v) g = blankNode
    rw [wrItem_other _ _ hgn, hgb]
  have hrep1 : ReprT h1.mem t1 := reprT_setItem t hI.rep
  have hnd1 : (idsT t1).Nodup := by
    rw [ht1def, setItemT_ids]
    exact hI.nodup
  have hbound1 : ∀ i ∈ idsT t1, i < h1.fresh := by
    rw [ht1def, setItemT_ids]
    exact hI.bounded
  have hsz1 : h1.size = ((itemsT t1).length : Int) := by
    show h.size = ((itemsT (setItemT n v t)).length : Int)
    rw [items_length_setItemT]
    exact hI.size_eq
  by_cases hne : n = t.idOf
  · -- the root: decreaseKey is a no-op; the lowered root item still
    -- dominates every descendant, so the whole invariant survives
    have htn_t : tn = t := by
      have hself := findT_self (hne.symm)
      rw [hfind] at hself
      exact Option.some.inj hself
    have hvlt2 : h.lt v t.itm = true := by
      rw [htn_t] at hvlt
      exact hvlt
    obtain ⟨i, x, cs⟩ := t
    have hin : i = n := by simpa using hne.symm
    subst hin
    have hncs : i ∉ idsF cs := (List.nodup_cons.mp (by simpa using hI.nodup)).1
    have ht1eq : setItemT i v (PT.mk i x cs) = PT.mk i v cs := by
      rw [setItemT_mk, if_pos rfl, setItemF_not_mem i v cs hncs]
    have hroot1 : h1.root = some i := by
      show h.root = some i
      simpa using hI.root_eq
    have hord0 := (hOrdT_mk h.lt i x cs).mp hI.hord
    have hvx : h.lt v x = true := by simpa using hvlt2
    refine ⟨h1, decreaseKey_root hroot1, ⟨some (PT.mk i v cs),
      hpool1, Or.inr ⟨PT.mk i v cs, rfl, ?_, ?_, ?_, ?_, ?_, ?_, ?_, ?_⟩⟩, rfl, rfl⟩
    · show h1.root = some (PT.mk i v cs).idOf
      simpa using hroot1
    · show ReprT h1.mem (PT.mk i v cs)
      rw [← ht1eq]
      exact hrep1
    · show (h1.mem (PT.mk i v cs).idOf).prev = none
      rw [PT.idOf_mk, h1mem, wrItem_prev]
      simpa using hI.root_prev
    · show (h1.mem (PT.mk i v cs).idOf).next = none
      rw [PT.idOf_mk, h1mem, wrItem_next]
      simpa using hI.root_next
    · show (idsT (PT.mk i v cs)).Nodup
      simpa using hI.nodup
    · intro j hj
      refine hI.bounded j ?_
      simpa using hj
    · show h1.size = ((itemsT (PT.mk i v cs)).length : Int)
      have hsz0 := hI.size_eq
      simp only [itemsT_mk, List.length_cons] at hsz0 ⊢
      exact hsz0
    · rw [hOrdT_mk]
      refine ⟨?_, hord0.2⟩
      intro y hy
      exact swo_lower hs hvx (hord0.1 y hy)
  · -- a non-root node: cut and re-merge via the core lemma, whose only
    -- order hypotheses concern the removed tree and the cut subtree
    have hne1 : n ≠ t1.idOf := by
      rw [ht1def, setItemT_idOf]
      exact hne
    have hmem1 : n ∈ idsT t1 := by
      rw [ht1def, setItemT_ids]
      exact hmem
    have hroot1 : h1.root = some t1.idOf := by
      show h.root = some t1.idOf
      rw [ht1def, setItemT_idOf]
      exact hI.root_eq
    have hordRem1 : hOrdT h1.lt (removeT n t1) := by
      show hOrdT h.lt (removeT n (setItemT n v t))
      rw [remove_setItem_T n v t hI.nodup hne]
      exact hOrd_removeT n t hI.hord
    have hfind1 : findT n t1 = some (PT.mk n v tn.children) :=
      find_setItem_T n v t hI.nodup hfind
    have hordFind1 : ∀ tn0, findT n t1 = some tn0 → hOrdT h1.lt tn0 := by
      intro tn0 hf0
      rw [hfind1] at hf0
      injection hf0 with he
      rw [← he]
      have hordtn := hOrd_findT n t hI.hord hfind
      obtain ⟨m, xm, mcs⟩ := tn
      show hOrdT h.lt (PT.mk n v (PT.mk m xm mcs).children)
      simp only [PT.children_mk]
      rw [hOrdT_mk] at hordtn ⊢
      refine ⟨?_, hordtn.2⟩
      intro y hy
      exact swo_lower hs (by simpa using hvlt) (hordtn.1 y hy)
    obtain ⟨h2, tn2, hfind2, hdec, hA2, hlt2, hfr2, hsz2⟩ :=
      decreaseKey_nonroot_core (h := h1) (t := t1) hs hpool1 hroot1 hrep1 hnd1
        hbound1 hsz1 hordRem1 hordFind1 hmem1 hne1
    exact ⟨h2, hdec, ⟨some (specMerge h1.lt (removeT n t1) tn2), hA2⟩, hlt2, hsz2⟩

theorem itemsT_eq (t : PT α) : itemsT t = t.itm :: itemsF t.children := by
  obtain ⟨i, x, cs⟩ := t
  rw [itemsT_mk]
  rfl

theorem itm_mem_itemsT (t : PT α) : t.itm ∈ itemsT t := by
  rw [itemsT_eq]
  simp

/-- Given enough fuel the extraction sequence is a permutation of the tree
items. -/
theorem specSeq_perm (lt : α → α → Bool) :
    ∀ (fuel : Nat) (ot : Option (PT α)), (itemsO ot).length ≤ fuel →
      specSeq lt fuel ot ~ itemsO ot
  | 0, none, _ => List.Perm.refl _
  | 0, some t, hf => by
    exfalso
    rw [show itemsO (some t) = itemsT t from rfl, itemsT_eq] at hf
    simp at hf
  | fuel + 1, none, _ => List.Perm.refl _
  | fuel + 1, some t, hf => by
    rw [specSeq]
    have hlen : (itemsO (specCollapse lt t.children)).length ≤ fuel := by
      rw [(itemsO_specCollapse lt t.children).length_eq]
      rw [show itemsO (some t) = itemsT t from rfl, itemsT_eq] at hf
      simp only [List.length_cons] at hf
      omega
    have hrec := specSeq_perm lt fuel (specCollapse lt t.children) hlen
    have hstep : specSeq lt fuel (specCollapse lt t.children) ~ itemsF t.children :=
      hrec.trans (itemsO_specCollapse lt t.children)
    rw [show itemsO (some t) = itemsT t from rfl, itemsT_eq]
    exact List.Perm.cons _ hstep

/-- Every extracted element is an item of the tree. -/
theorem specSeq_mem (lt : α → α → Bool) :
    ∀ (fuel : Nat) (ot : Option (PT α)) {y : α}, y ∈ specSeq lt fuel ot →
      y ∈ itemsO ot
  | 0, _, y, hy => absurd hy (by rw [specSeq]; simp)
  | fuel + 1, none, y, hy => absurd hy (by rw [specSeq]; simp)
  | fuel + 1, some t, y, hy => by
    rw [specSeq] at hy
    rw [show itemsO (some t) = itemsT t from rfl, itemsT_eq]
    rcases (by simpa using hy : y = t.itm ∨ y ∈ specSeq lt fuel (specCollapse lt t.children))
      with rfl | hy2
    · simp
    · have := (itemsO_specCollapse lt t.children).mem_iff.mp
        (specSeq_mem lt fuel _ hy2)
      simp [this]

/-- Under a strict weak order the extraction sequence is sorted: no element
ranks strictly before an earlier one. -/
theorem specSeq_sorted {lt : α → α → Bool} (hs : SWO lt) :
    ∀ (fuel : Nat) (ot : Option (PT α)), hOrdO lt ot →
      (specSeq lt fuel ot).Pairwise (fun a b => lt b a = false)
  | 0, _, _ => by rw [specSeq]; simp
  | fuel + 1, none, _ => by rw [specSeq]; simp
  | fuel + 1, some t, ho => by
    rw [specSeq]
    have hot : hOrdT lt t := ho
    have hoc : hOrdO lt (specCollapse lt t.children) := by
      obtain ⟨i, x, cs⟩ := t
      exact hOrdO_specCollapse hs cs ((hOrdT_mk lt i x cs).mp hot).2
    refine List.Pairwise.cons ?_ (specSeq_sorted hs fuel _ hoc)
    intro b hb
    have hbmem : b ∈ itemsF t.children :=
      (itemsO_specCollapse lt t.children).mem_iff.mp (specSeq_mem lt fuel _ hb)
    obtain ⟨i, x, cs⟩ := t
    exact ((hOrdT_mk lt i x cs).mp hot).1 b hbmem

/-- Repeated `deleteMin` realises the extraction sequence (source lines
143-154 driven to exhaustion). -/
theorem extractAll_sim {lt : α → α → Bool} (hs : SWO lt) :
    ∀ (fuel : Nat) (h : PairingHeap α) (ot : Option (PT α)), h.lt = lt →
      Abs h ot → extractAll fuel h = (specSeq lt fuel ot).map some
  | 0, h, ot, hlt, hA => by rw [extractAll, specSeq]; rfl
  | fuel + 1, h, none, hlt, hA => by
    have hroot : h.root = none := by
      obtain ⟨hpool, hcase⟩ := hA
      rcases hcase with ⟨h1, h2, h3⟩ | ⟨t2, heq, hI⟩
      · exact h2
      · exact absurd heq (by simp)
    rw [extractAll, hroot, specSeq]
    rfl
  | fuel + 1, h, some t, hlt, hA => by
    have hI : InvT h t := by
      obtain ⟨hpool, hcase⟩ := hA
      rcases hcase with ⟨hno, hr2, hs3⟩ | ⟨t2, heq, hI0⟩
      · exact absurd hno (by simp)
      · have ht2 : t2 = t := by injection heq with he; exact he.symm
        exact ht2 ▸ hI0
    have hs2 : SWO h.lt := hlt ▸ hs
    obtain ⟨hmin1, hmin2, hmin3, hmin4, hmin5⟩ := deleteMin_abs hs2 hA
    have hroot : h.root = some t.idOf := hI.root_eq
    rw [extractAll, hroot]
    have hrec := extractAll_sim hs fuel (PairingHeap.deleteMin h).2
      (specCollapse h.lt t.children) (hmin3.trans hlt) hmin2
    rw [specSeq]
    show (PairingHeap.deleteMin h).1 :: extractAll fuel (PairingHeap.deleteMin h).2 = _
    rw [hmin1, hrec, hlt]
    rfl

/-- The driver `addAll` builds a well-formed heap holding exactly the added items. -/
theorem addAll_aux {lt : α → α → Bool} (hs : SWO lt) :
    ∀ (xs : List α) (h : PairingHeap α) (ot : Option (PT α)), h.lt = lt →
      Abs h ot →
      ∃ ot2, Abs (xs.foldl (fun h x => (PairingHeap.add h x).2) h) ot2 ∧
        itemsO ot2 ~ itemsO ot ++ xs ∧
        (xs.foldl (fun h x => (PairingHeap.add h x).2) h).lt = lt
  | [], h, ot, hlt, hA => ⟨ot, hA, by simp, hlt⟩
  | x :: rest, h, ot, hlt, hA => by
    obtain ⟨t2, hA2, hperm2, hlt2, hrest2⟩ := add_abs (hlt ▸ hs) hA
    obtain ⟨ot3, hA3, hperm3, hlt3⟩ :=
      addAll_aux hs rest (PairingHeap.add h x).2 (some t2) (hlt2.trans hlt) hA2
    refine ⟨ot3, hA3, ?_, hlt3⟩
    refine hperm3.trans ?_
    have hstep : itemsO (some t2) ++ rest ~ (x :: itemsO ot) ++ rest :=
      List.Perm.append hperm2 (List.Perm.refl _)
    refine hstep.trans ?_
    show x :: (itemsO ot ++ rest) ~ itemsO ot ++ x :: rest
    exact @List.perm_middle _ x (itemsO ot) rest |>.symm

theorem addAll_abs {lt : α → α → Bool} (hs : SWO lt) (xs : List α) :
    ∃ ot, Abs (addAll lt xs) ot ∧ itemsO ot ~ xs ∧ (addAll lt xs).lt = lt := by
  obtain ⟨ot, hA, hperm, hlt⟩ := addAll_aux hs xs (PairingHeap.mkHeap lt none) none rfl
    (mkHeap_abs (Or.inl rfl))
  exact ⟨ot, hA, by simpa using hperm, hlt⟩

theorem reprL_none_inv {s : St α} {p : Nat} {cs : List (PT α)}
    (h : ReprL s none p cs) : cs = [] := by
  cases cs with
  | nil => rfl
  | cons c rest =>
    rw [reprL_cons] at h
    exact absurd h.1 (by simp)

theorem length_le_itemsF : ∀ (cs : List (PT α)), cs.length ≤ (itemsF cs).length
  | [] => le_refl 0
  | c :: rest => by
    obtain ⟨i, x, ccs⟩ := c
    simp only [itemsF_cons, List.length_cons, List.length_append, itemsT_mk]
    have := length_le_itemsF rest
    omega

theorem idsT_eq (t : PT α) : idsT t = t.idOf :: idsF t.children := by
  obtain ⟨i, x, cs⟩ := t
  rw [idsT_mk]
  rfl

theorem specSeq_none (lt : α → α → Bool) : ∀ (fuel : Nat),
    specSeq lt fuel (none : Option (PT α)) = []
  | 0 => rfl
  | _ + 1 => rfl

theorem specCollapse_single (lt : α → α → Bool) (a : PT α) :
    specCollapse lt [a] = some a := rfl

/-- One step of the fuelled iterator. -/
theorem iterate_succ (lt : α → α → Bool) (fuel : Nat) (s : St α) (i : Nat) :
    iterate lt (fuel + 1) s (some i) =
      (let s2 : St α := match (s i).child with
        | none => s
        | some c => match (s c).next with
          | none => s
          | some _ =>
            let cs := collapse lt (fuel + 1) s (some c)
            match cs.1 with
            | some rc => wrPrev (wrChild cs.2 i (some rc)) rc (some i)
            | none => wrChild cs.2 i none
      match (s2 i).child with
      | none => ([(s i).item], s2)
      | some c2 =>
        let rest := iterate lt fuel s2 (some c2)
        ((s i).item :: rest.1, rest.2)) := rfl

/-- The default iteration yields exactly the extraction sequence: after the
in-place collapse of a multi-sibling child list the node's subtree is the
collapsed tree, and the iterator descends into it (source lines 248-271).
The iterator writes only inside the tree, and the visited root's own
`prev`/`next` are untouched. -/
theorem iterate_sim {lt : α → α → Bool} :
    ∀ (fuel : Nat) (s : St α) (t : PT α), ReprT s t → (idsT t).Nodup →
      (itemsT t).length ≤ fuel →
      (iterate lt fuel s (some t.idOf)).1 = (specSeq lt fuel (some t)).map some ∧
      (∀ j, j ∉ idsT t → (iterate lt fuel s (some t.idOf)).2 j = s j) ∧
      ((iterate lt fuel s (some t.idOf)).2 t.idOf).prev = (s t.idOf).prev ∧
      ((iterate lt fuel s (some t.idOf)).2 t.idOf).next = (s t.idOf).next
  | 0, s, t, _, _, hf => by
    rw [itemsT_eq] at hf
    simp at hf
  | fuel + 1, s, t, hr, hnd, hf => by
    obtain ⟨i, x, cs⟩ := t
    simp only [PT.idOf_mk]
    rw [iterate_succ]
    have hitem : (s i).item = some x := ((reprT_mk).mp hr).1
    have hrL : ReprL s ((s i).child) i cs := ((reprT_mk).mp hr).2
    have hnd2 : (i :: idsF cs).Nodup := by simpa using hnd
    have hndcs : (idsF cs).Nodup := (List.nodup_cons.mp hnd2).2
    have hinotcs : i ∉ idsF cs := (List.nodup_cons.mp hnd2).1
    have hflen : (itemsF cs).length + 1 ≤ fuel + 1 := by
      rw [show itemsT (PT.mk i x cs) = x :: itemsF cs from itemsT_mk i x cs] at hf
      simpa using hf
    cases cs with
    | nil =>
      have hchild : (s i).child = none := (reprL_nil).mp hrL
      simp only [hchild]
      refine ⟨?_, fun j _ => trivial, trivial, trivial⟩
      rw [specSeq]
      simp only [PT.children_mk, PT.itm_mk]
      rw [show specCollapse lt ([] : List (PT α)) = none from rfl, specSeq_none, hitem]
      rfl
    | cons tc rest0 =>
    cases rest0 with
    | nil =>
      have hfc : (s i).child = some tc.idOf := by
        rw [reprL_cons] at hrL
        exact hrL.1
      have hrest := ((reprL_cons).mp (hfc ▸ hrL)).2.2.2
      have hnext : (s tc.idOf).next = none := (reprL_nil).mp hrest
      have hrtc : ReprT s tc := ((reprL_cons).mp (hfc ▸ hrL)).2.2.1
      simp only [hfc, hnext]
      have hndtc : (idsT tc).Nodup := by simpa using hndcs.of_append_left
      have hrec := @iterate_sim lt fuel s tc hrtc hndtc (by
          simp only [itemsF_cons, itemsF_nil, List.append_nil] at hflen
          omega)
      have hinottc : i ∉ idsT tc := by
        intro hcon
        refine hinotcs ?_
        simp [hcon]
      refine ⟨?_, ?_, ?_, ?_⟩
      · rw [specSeq]
        simp only [PT.children_mk, PT.itm_mk, specCollapse_single, hitem]
        simp only [hrec.1]
        rfl
      · intro j hj
        refine hrec.2.1 j ?_
        intro hcon
        refine hj ?_
        simp only [idsT_mk, idsF_cons, idsF_nil, List.append_nil, List.mem_cons]
        exact Or.inr hcon
      · show ((iterate lt fuel s (some tc.idOf)).2 i).prev = (s i).prev
        rw [hrec.2.1 i hinottc]
      · show ((iterate lt fuel s (some tc.idOf)).2 i).next = (s i).next
        rw [hrec.2.1 i hinottc]
    | cons d rest2 =>
      have hfc : (s i).child = some tc.idOf := by
        rw [reprL_cons] at hrL
        exact hrL.1
      have hrtc : ReprT s tc := ((reprL_cons).mp (hfc ▸ hrL)).2.2.1
      have hrest := ((reprL_cons).mp (hfc ▸ hrL)).2.2.2
      have hnext : (s tc.idOf).next = some d.idOf := by
        rw [reprL_cons] at hrest
        exact hrest.1
      have hrS : ReprS s (some tc.idOf) (tc :: d :: rest2) :=
        reprS_of_reprL (hfc ▸ hrL)
      have hlencs : (tc :: d :: rest2).length ≤ fuel + 1 := by
        have h1 := length_le_itemsF (tc :: d :: rest2)
        omega
      have hcol := @collapse_sim _ lt s (some tc.idOf) (tc :: d :: rest2)
        (fuel + 1) hrS hndcs hlencs
      obtain ⟨tc2, hsc⟩ := Option.isSome_iff_exists.mp
        (specCollapse_isSome lt (tc :: d :: rest2) (by simp))
      set c2 := collapse lt (fuel + 1) s (some tc.idOf) with hc2def
      have hor : OptRepr c2.2 c2.1 (some tc2) := by rw [← hsc]; exact hcol.1
      obtain ⟨hc21, hrtc2⟩ := optRepr_some_inv hor
      have hidperm : idsT tc2 ~ idsF (tc :: d :: rest2) := by
        have hp0 := idsO_specCollapse lt (tc :: d :: rest2)
        rw [hsc] at hp0
        exact hp0
      have hiperm : itemsT tc2 ~ itemsF (tc :: d :: rest2) := by
        have hp0 := itemsO_specCollapse lt (tc :: d :: rest2)
        rw [hsc] at hp0
        exact hp0
      have hndtc2 : (idsT tc2).Nodup := hidperm.symm.nodup hndcs
      have hine : ∀ j ∈ idsT tc2, j ≠ i := by
        intro j hj hcon
        exact hinotcs (hcon ▸ hidperm.mem_iff.mp hj)
      have htc2i : tc2.idOf ≠ i := hine tc2.idOf (idOf_mem_idsT tc2)
      set s3 := wrPrev (wrChild c2.2 i (some tc2.idOf)) tc2.idOf (some i) with hs3def
      have hs3i : s3 i = { c2.2 i with child := some tc2.idOf } := by
        rw [hs3def, wrPrev_other _ _ (fun hcon => htc2i hcon.symm), wrChild_self]
      have hrtc2' : ReprT s3 tc2 := by
        refine reprT_frame_root hrtc2 ?_ ?_ ?_
        · rw [hs3def, wrPrev_self, wrChild_other _ _ htc2i]
        · rw [hs3def, wrPrev_self, wrChild_other _ _ htc2i]
        · intro j hj
          have hjmem : j ∈ idsT tc2 := by
            rw [idsT_eq]
            simp [hj]
          have hji : j ≠ i := hine j hjmem
          have hjr : j ≠ tc2.idOf := by
            intro hcon
            have hh := (List.nodup_cons.mp (by rw [idsT_eq] at hndtc2; exact hndtc2)).1
            exact hh (hcon ▸ hj)
          rw [hs3def, wrPrev_other _ _ hjr, wrChild_other _ _ hji]
      have hrec := @iterate_sim lt fuel s3 tc2 hrtc2' hndtc2 (by
        rw [hiperm.length_eq]
        omega)
      have hinottc2 : i ∉ idsT tc2 := fun hcon => hine i hcon rfl
      have hs3_frame : ∀ j, j ≠ i → j ∉ idsF (tc :: d :: rest2) → s3 j = s j := by
        intro j hji hjcs
        have hjr : j ≠ tc2.idOf := by
          intro hcon
          exact hjcs (hidperm.mem_iff.mp (hcon ▸ idOf_mem_idsT tc2))
        rw [hs3def, wrPrev_other _ _ hjr, wrChild_other _ _ hji, hc2def,
          hcol.2.2 j hjcs]
      simp only [hfc, hnext, ← hc2def, hc21]
      rw [← hs3def]
      simp only [hs3i]
      have hitem2 : (c2.2 i).item = (s i).item := by
        rw [hc2def]
        exact congrArg PairingNode.item (hcol.2.2 i hinotcs)
      refine ⟨?_, ?_, ?_, ?_⟩
      · rw [specSeq]
        simp only [PT.children_mk, PT.itm_mk, hsc]
        simp only [hrec.1, hitem, hitem2]
        rfl
      · intro j hj
        have hji : j ≠ i := by
          intro hcon
          refine hj ?_
          simp [hcon]
        have hjcs : j ∉ idsF (tc :: d :: rest2) := by
          intro hcon
          refine hj ?_
          simp only [idsT_mk, List.mem_cons]
          exact Or.inr hcon
        have hjtc2 : j ∉ idsT tc2 := fun hcon => hjcs (hidperm.mem_iff.mp hcon)
        rw [hrec.2.1 j hjtc2, hs3_frame j hji hjcs]
      · show ((iterate lt fuel s3 (some tc2.idOf)).2 i).prev = (s i).prev
        rw [hrec.2.1 i hinottc2, hs3i]
        show (c2.2 i).prev = (s i).prev
        rw [hc2def]
        exact congrArg PairingNode.prev (hcol.2.2 i hinotcs)
      · show ((iterate lt fuel s3 (some tc2.idOf)).2 i).next = (s i).next
        rw [hrec.2.1 i hinottc2, hs3i]
        show (c2.2 i).next = (s i).next
        rw [hc2def]
        exact congrArg PairingNode.next (hcol.2.2 i hinotcs)

mutual
theorem itemsT_length_eq : ∀ (t : PT α), (itemsT t).length = (idsT t).length
  | .mk i x cs => by
    simp only [itemsT_mk, idsT_mk, List.length_cons]
    rw [itemsF_length_eq cs]
theorem itemsF_length_eq : ∀ (cs : List (PT α)), (itemsF cs).length = (idsF cs).length
  | [] => rfl
  | c :: rest => by
    simp only [itemsF_cons, idsF_cons, List.length_append]
    rw [itemsT_length_eq c, itemsF_length_eq rest]
end

/-- The extraction sequence does not depend on the fuel, as long as there is
enough of it. -/
theorem specSeq_congr (lt : α → α → Bool) :
    ∀ (f1 f2 : Nat) (ot : Option (PT α)), (itemsO ot).length ≤ f1 →
      (itemsO ot).length ≤ f2 → specSeq lt f1 ot = specSeq lt f2 ot
  | 0, 0, ot, h1, h2 => rfl
  | 0, f2 + 1, none, h1, h2 => by rw [specSeq_none, specSeq_none]
  | f1 + 1, 0, none, h1, h2 => by rw [specSeq_none, specSeq_none]
  | 0, f2 + 1, some t, h1, h2 => by
    exfalso
    rw [show itemsO (some t) = itemsT t from rfl, itemsT_eq] at h1
    simp at h1
  | f1 + 1, 0, some t, h1, h2 => by
    exfalso
    rw [show itemsO (some t) = itemsT t from rfl, itemsT_eq] at h2
    simp at h2
  | f1 + 1, f2 + 1, none, h1, h2 => by rw [specSeq_none, specSeq_none]
  | f1 + 1, f2 + 1, some t, h1, h2 => by
    rw [specSeq, specSeq]
    have hlen : (itemsO (specCollapse lt t.children)).length ≤ f1 ∧
        (itemsO (specCollapse lt t.children)).length ≤ f2 := by
      rw [(itemsO_specCollapse lt t.children).length_eq]
      rw [show itemsO (some t) = itemsT t from rfl, itemsT_eq] at h1 h2
      simp only [List.length_cons] at h1 h2
      omega
    rw [specSeq_congr lt f1 f2 (specCollapse lt t.children) hlen.1 hlen.2]

/-- The default iteration over a well-formed heap yields the extraction
sequence and leaves `size` and `root` untouched (source lines 236-238,
248-271). -/
theorem heapItems_sim {h : PairingHeap α} {ot : Option (PT α)} (hA : Abs h ot) :
    (heapItems h).1 = (specSeq h.lt (h.fresh + 1) ot).map some ∧
    (heapItems h).2.size = h.size ∧ (heapItems h).2.root = h.root ∧
    (heapItems h).2.pool = h.pool := by
  refine ⟨?_, rfl, rfl, rfl⟩
  obtain ⟨hpool, hcase⟩ := hA
  rcases hcase with ⟨h1, h2, h3⟩ | ⟨t, h1, hI⟩
  · subst h1
    show (iterate h.lt (h.fresh + 1) h.mem h.root).1 = _
    rw [h2, specSeq_none]
    rfl
  · subst h1
    show (iterate h.lt (h.fresh + 1) h.mem h.root).1 = _
    rw [hI.root_eq]
    refine (iterate_sim (h.fresh + 1) h.mem t hI.rep hI.nodup ?_).1
    rw [itemsT_length_eq t]
    exact le_trans (length_le_of_nodup_lt hI.nodup hI.bounded) (Nat.le_succ _)

theorem getMin_abs {h : PairingHeap α} {t : PT α} (hA : Abs h (some t)) :
    PairingHeap.getMin h = some t.itm := by
  have hI : InvT h t := by
    obtain ⟨hpool, hcase⟩ := hA
    rcases hcase with ⟨hno, hr2, hs3⟩ | ⟨t2, heq, hI0⟩
    · exact absurd hno (by simp)
    · have ht2 : t2 = t := by injection heq with he; exact he.symm
      exact ht2 ▸ hI0
  rw [PairingHeap.getMin, hI.root_eq]
  exact reprT_item hI.rep

theorem getMin_empty {h : PairingHeap α} (hA : Abs h none) :
    PairingHeap.getMin h = none := by
  obtain ⟨hpool, hcase⟩ := hA
  rcases hcase with ⟨h1, h2, h3⟩ | ⟨t2, heq, hI⟩
  · rw [PairingHeap.getMin, h2]
  · exact absurd heq (by simp)

/-- Calling `add(x)` immediately followed by `delete` on the returned handle restores
`size` and `getMin()` (source lines 91-113 and 165-198). -/
theorem add_delete_roundtrip {h : PairingHeap α} {ot : Option (PT α)}
    (hs : SWO h.lt) (hA : Abs h ot) (x : α) :
    ∃ h2, PairingHeap.delete (PairingHeap.add h x).2 (PairingHeap.add h x).1 = .ok h2 ∧
      h2.size = h.size ∧ PairingHeap.getMin h2 = PairingHeap.getMin h := by
  obtain ⟨t', hA', hperm, hlt', hnotin, hempty, hsome⟩ := add_abs hs hA
  have hs1 : SWO (PairingHeap.add h x).2.lt := hlt' ▸ hs
  have hsz1 : (PairingHeap.add h x).2.size = h.size + 1 := by
    rw [abs_items_length hA', abs_items_length hA]
    show ((itemsT t').length : Int) = ((itemsO ot).length : Int) + 1
    rw [hperm.length_eq]
    simp
  rcases ot with _ | t
  · -- the heap was empty: the new node is the root, collapse of no children
    have ht'e : t' = PT.mk (PairingHeap.add h x).1 x [] := hempty rfl
    obtain ⟨h2, hdel, hA2, hlt2, hfr2, hsz2, hblank2, hpool2⟩ := delete_root_abs hs1 hA'
    rw [ht'e] at hdel hA2
    refine ⟨h2, hdel, ?_, ?_⟩
    · rw [hsz2, hsz1, abs_items_length hA]
      simp [itemsO]
    · have hA2e : Abs h2 none := by
        simpa using hA2
      rw [getMin_empty hA2e, getMin_empty hA]
  · -- the heap held tree t
    have ht'm : t' = specMerge h.lt t (PT.mk (PairingHeap.add h x).1 x []) :=
      hsome t rfl
    have hfnotint : (PairingHeap.add h x).1 ∉ idsT t := by
      simpa [idsO] using hnotin
    have hfne : (PairingHeap.add h x).1 ≠ t.idOf :=
      fun hc => hfnotint (hc ▸ idOf_mem_idsT t)
    have hgmin : PairingHeap.getMin h = some t.itm := getMin_abs hA
    obtain ⟨i, y, cs⟩ := t
    set f := (PairingHeap.add h x).1 with hfdef
    rw [specMerge] at ht'm
    by_cases hcmp : h.lt (PT.mk f x []).itm (PT.mk i y cs).itm = true
    · -- the new node won the comparison and became the root
      rw [if_pos hcmp] at ht'm
      simp only [PT.idOf_mk, PT.itm_mk, PT.children_mk] at ht'm
      obtain ⟨h2, hdel, hA2, hlt2, hfr2, hsz2, hblank2, hpool2⟩ := delete_root_abs hs1 hA'
      rw [ht'm] at hdel hA2
      simp only [PT.idOf_mk, PT.children_mk] at hdel hA2
      rw [specCollapse_single] at hA2
      refine ⟨h2, hdel, ?_, ?_⟩
      · rw [hsz2, hsz1]
        simp
      · rw [getMin_abs hA2, hgmin]
    · -- the old root kept the title; the new node is its first child, a leaf
      rw [if_neg hcmp] at ht'm
      simp only [PT.idOf_mk, PT.itm_mk, PT.children_mk] at ht'm
      have hmem : f ∈ idsT t' := by
        rw [ht'm]
        simp
      have hne : f ≠ t'.idOf := by
        rw [ht'm]
        simpa using hfne
      obtain ⟨h2, tn, t2, hfind, hdel, hmo, hA2, hlt2, hfr2, hsz2, hblank2, hpool2⟩ :=
        delete_nonroot_abs hs1 hA' hmem hne
      -- compute the found subtree and the removal
      have hfind2 : findT f t' = some (PT.mk f x []) := by
        rw [ht'm, findT_mk, if_neg (fun hc => hfne hc.symm), findF_cons,
          findT_mk, if_pos rfl]
      have htn : tn = PT.mk f x [] := by
        rw [hfind] at hfind2
        injection hfind2 with he
      have hrem : removeT f t' = PT.mk i y cs := by
        rw [ht'm, removeT_mk, removeF_cons, if_pos (by simp)]
      rw [htn, hrem] at hmo
      simp only [PT.children_mk] at hmo
      rw [show specCollapse (PairingHeap.add h x).2.lt ([] : List (PT α)) = none
        from rfl] at hmo
      have ht2 : t2 = PT.mk i y cs := by
        injection hmo with he
        exact he.symm
      rw [ht2] at hA2
      refine ⟨h2, hdel, ?_, ?_⟩
      · rw [hsz2, hsz1]
        simp
      · rw [getMin_abs hA2, hgmin]

theorem swo_natLtB : SWO natLtB := by
  constructor
  · intro a b hab
    simp only [natLtB, decide_eq_true_eq] at hab
    simp only [natLtB, decide_eq_false_iff_not]
    omega
  · intro a b c h1 h2
    simp only [natLtB, decide_eq_false_iff_not] at h1 h2
    simp only [natLtB, decide_eq_false_iff_not]
    omega

theorem wHeap_lt : wHeap.lt = natLtB := rfl

theorem wAbs : Abs wHeap (some wTree) := by
  refine ⟨?_, Or.inr ⟨wTree, rfl, ⟨rfl, ?_, rfl, rfl, by decide, by decide, by decide,
    ?_⟩⟩⟩
  · intro fs hfs
    exact absurd hfs (by simp [wHeap])
  · show ReprT wMem wTree
    rw [wTree, reprT_mk]
    refine ⟨rfl, ?_⟩
    rw [show (wMem 0).child = some ((PT.mk 1 5 ([] : List (PT Nat))).idOf) from rfl]
    rw [reprL_cons]
    refine ⟨rfl, rfl, ?_, ?_⟩
    · rw [reprT_mk]
      refine ⟨rfl, ?_⟩
      rw [show (wMem 1).child = none from rfl, reprL_nil]
    · rw [show (wMem (PT.mk 1 5 ([] : List (PT Nat))).idOf).next = none from rfl,
        reprL_nil]
  · show hOrdT natLtB wTree
    rw [wTree, hOrdT_mk]
    refine ⟨by decide, ?_⟩
    rw [hOrdF_cons, hOrdT_mk]
    exact ⟨⟨by decide, hOrdF_nil _⟩, hOrdF_nil _⟩

theorem wMem2_reprS : ReprS wMem2 (some 0) [PT.mk 0 4 [], PT.mk 1 2 []] := by
  rw [reprS_cons]
  refine ⟨rfl, ?_, ?_⟩
  · rw [reprT_mk]
    exact ⟨rfl, by rw [show (wMem2 0).child = none from rfl, reprL_nil]⟩
  rw [show (wMem2 (PT.mk 0 4 ([] : List (PT Nat))).idOf).next = some 1 from rfl]
  rw [reprS_cons]
  refine ⟨rfl, ?_, ?_⟩
  · rw [reprT_mk]
    exact ⟨rfl, by rw [show (wMem2 1).child = none from rfl, reprL_nil]⟩
  rw [show (wMem2 (PT.mk 1 2 ([] : List (PT Nat))).idOf).next = none from rfl]
  rw [reprS_nil]

theorem abs_items_le_fresh {h : PairingHeap α} {ot : Option (PT α)}
    (hA : Abs h ot) : (itemsO ot).length ≤ h.fresh := by
  rcases ot with _ | t
  · simp [itemsO]
  · have hI := abs_invT hA
    show (itemsT t).length ≤ h.fresh
    rw [itemsT_length_eq t]
    exact length_le_of_nodup_lt hI.nodup hI.bounded

/-!
## The claims
-/

/-- C1: for every multiset of items inserted via `add` in any order, repeated
`deleteMin()` returns the items in non-decreasing order under the comparator,
and the default item iteration yields exactly that same sequence while leaving
`size` unchanged. -/
theorem claim_C1 {α : Type} (lt : α → α → Bool) (hs : SWO lt) (xs : List α) :
    ∃ ys : List α,
      ys ~ xs ∧
      ys.Pairwise (fun a b => lt b a = false) ∧
      extractAll xs.length (addAll lt xs) = ys.map some ∧
      (heapItems (addAll lt xs)).1 = ys.map some ∧
      (heapItems (addAll lt xs)).2.size = (addAll lt xs).size := by
  obtain ⟨ot, hA, hperm, hlt⟩ := addAll_abs hs xs
  have hlen : (itemsO ot).length = xs.length := hperm.length_eq
  refine ⟨specSeq lt xs.length ot, ?_, ?_, ?_, ?_, ?_⟩
  · exact (specSeq_perm lt xs.length ot (le_of_eq hlen)).trans hperm
  · refine specSeq_sorted hs xs.length ot ?_
    rcases ot with _ | t
    · trivial
    · show hOrdT lt t
      exact hlt ▸ (abs_invT hA).hord
  · exact extractAll_sim hs xs.length _ ot hlt hA
  · rw [(heapItems_sim hA).1, hlt,
      specSeq_congr lt ((addAll lt xs).fresh + 1) xs.length ot
        (le_trans (abs_items_le_fresh hA) (Nat.le_succ _)) (le_of_eq hlen)]
  · exact (heapItems_sim hA).2.1

theorem claim_C1_witness :
    ∃ ys : List Nat,
      ys ~ [5, 3, 8, 1] ∧
      ys.Pairwise (fun a b => natLtB b a = false) ∧
      extractAll [5, 3, 8, 1].length (addAll natLtB [5, 3, 8, 1]) = ys.map some ∧
      (heapItems (addAll natLtB [5, 3, 8, 1])).1 = ys.map some ∧
      (heapItems (addAll natLtB [5, 3, 8, 1])).2.size =
        (addAll natLtB [5, 3, 8, 1]).size :=
  claim_C1 natLtB swo_natLtB [5, 3, 8, 1]

/-- C2: after every public operation the heap invariants hold — heap order
(no descendant ranks strictly before a node; the root holds a global minimum)
and `size` counting the nodes reachable from `root` (0 when absent).  The
`decreaseKey` conjunct models its spec precondition: the caller has already
mutated the node's item (`setItem`) to a value ranking strictly before the
prior one — a state whose heap order may be broken at the node's ancestors —
and `decreaseKey` restores the full invariant from there. -/
theorem claim_C2 {α : Type} {h : PairingHeap α} (hs : SWO h.lt) (hInv : HeapInv h) :
    (∀ x, HeapInv (PairingHeap.add h x).2) ∧
    HeapInv (PairingHeap.deleteMin h).2 ∧
    (∀ t n, Abs h (some t) → n ∈ idsT t →
      ∃ h2, PairingHeap.delete h n = .ok h2 ∧ HeapInv h2) ∧
    (∀ t n v tn, Abs h (some t) → n ∈ idsT t → findT n t = some tn →
      h.lt v tn.itm = true →
      ∃ h2, PairingHeap.decreaseKey (PairingHeap.setItem h n v) n = .ok h2 ∧
        HeapInv h2) ∧
    HeapInv (PairingHeap.clear h) ∧
    (∀ t, Abs h (some t) →
      h.size = ((itemsT t).length : Int) ∧ ∀ y ∈ itemsT t, h.lt y t.itm = false) ∧
    (h.root = none → h.size = 0) := by
  obtain ⟨ot, hA⟩ := hInv
  refine ⟨?_, ?_, ?_, ?_, ?_, ?_, ?_⟩
  · intro x
    obtain ⟨t', hA', hrest⟩ := add_abs hs hA
    exact ⟨some t', hA'⟩
  · rcases ot with _ | t
    · rw [deleteMin_empty hA]
      exact ⟨none, hA⟩
    · obtain ⟨hm1, hA2, hrest⟩ := deleteMin_abs hs hA
      exact ⟨_, hA2⟩
  · intro t n hAt hmem
    by_cases hne : n = t.idOf
    · subst hne
      obtain ⟨h2, hdel, hA2, hrest⟩ := delete_root_abs hs hAt
      exact ⟨h2, hdel, _, hA2⟩
    · obtain ⟨h2, tn, t2, hfind, hdel, hmo, hA2, hrest⟩ :=
        delete_nonroot_abs hs hAt hmem hne
      exact ⟨h2, hdel, some t2, hA2⟩
  · intro t n v tn hAt hmem hfind hvlt
    obtain ⟨h2, hdec, hInv2, hrest⟩ := decreaseKey_setItem_abs hs hAt hmem hfind hvlt
    exact ⟨h2, hdec, hInv2⟩
  · exact ⟨none, (clear_abs hA).1⟩
  · intro t hAt
    have hI := abs_invT hAt
    exact ⟨hI.size_eq, fun y hy => hOrdT_min hs hI.hord y hy⟩
  · intro hroot
    obtain ⟨hpool, hcase⟩ := hA
    rcases hcase with ⟨h1, h2, h3⟩ | ⟨t, h1, hI⟩
    · exact h3
    · rw [hI.root_eq] at hroot
      cases hroot

theorem claim_C2_witness :
    (∀ x, HeapInv (PairingHeap.add wHeap x).2) ∧
    HeapInv (PairingHeap.deleteMin wHeap).2 ∧
    (∀ t n, Abs wHeap (some t) → n ∈ idsT t →
      ∃ h2, PairingHeap.delete wHeap n = .ok h2 ∧ HeapInv h2) ∧
    (∀ t n v tn, Abs wHeap (some t) → n ∈ idsT t → findT n t = some tn →
      wHeap.lt v tn.itm = true →
      ∃ h2, PairingHeap.decreaseKey (PairingHeap.setItem wHeap n v) n = .ok h2 ∧
        HeapInv h2) ∧
    HeapInv (PairingHeap.clear wHeap) ∧
    (∀ t, Abs wHeap (some t) →
      wHeap.size = ((itemsT t).length : Int) ∧
      ∀ y ∈ itemsT t, wHeap.lt y t.itm = false) ∧
    (wHeap.root = none → wHeap.size = 0) :=
  claim_C2 swo_natLtB ⟨some wTree, wAbs⟩

/-- C3: `merge(a, b)` returns the other side when one is absent, is the
identity on a repeated reference, picks `b` as parent exactly when `b`'s item
ranks strictly before `a`'s (ties to `a`), and rewires exactly as described:
the new child's `next` becomes the parent's former first child (whose `prev`
is repointed at the new child), the child's `prev` becomes the parent, and the
parent's `next`/`prev` are cleared. -/
theorem claim_C3 {α : Type} (lt : α → α → Bool) (s : St α) :
    (∀ b, merge lt s none b = (b, s)) ∧
    (∀ a, merge lt s (some a) none = (some a, s)) ∧
    (∀ a, merge lt s (some a) (some a) = (some a, s)) ∧
    (∀ a b, a ≠ b →
      (ltO lt (s b).item (s a).item = true →
        merge lt s (some a) (some b) = (some b, mergeWr s b a)) ∧
      (ltO lt (s b).item (s a).item = false →
        merge lt s (some a) (some b) = (some a, mergeWr s a b))) ∧
    (∀ p c, p ≠ c →
      mergeWr s p c p = ⟨(s p).item, some c, none, none⟩ ∧
      mergeWr s p c c = ⟨(s c).item, (s c).child, (s p).child, some p⟩ ∧
      (∀ j, j ≠ p → j ≠ c →
        mergeWr s p c j =
          if (s p).child = some j then { s j with prev := some c } else s j)) := by
  refine ⟨fun b => rfl, fun a => rfl, ?_, ?_, ?_⟩
  · intro a
    simp [merge]
  · intro a b hne
    have hm : merge lt s (some a) (some b) =
        (some (mergeCore lt s a b).1, (mergeCore lt s a b).2) := by
      rw [merge, if_neg hne]
    constructor
    · intro hlt
      rw [hm, mergeCore_def, hlt]
      simp
    · intro hlt
      rw [hm, mergeCore_def, hlt]
      simp
  · intro p c hne
    exact ⟨mergeWr_p s hne, mergeWr_c s hne, fun j hjp hjc => mergeWr_other s hne hjp hjc⟩

theorem claim_C3_witness :
    (∀ b, merge natLtB wMem2 none b = (b, wMem2)) ∧
    (∀ a, merge natLtB wMem2 (some a) none = (some a, wMem2)) ∧
    (∀ a, merge natLtB wMem2 (some a) (some a) = (some a, wMem2)) ∧
    (∀ a b, a ≠ b →
      (ltO natLtB (wMem2 b).item (wMem2 a).item = true →
        merge natLtB wMem2 (some a) (some b) = (some b, mergeWr wMem2 b a)) ∧
      (ltO natLtB (wMem2 b).item (wMem2 a).item = false →
        merge natLtB wMem2 (some a) (some b) = (some a, mergeWr wMem2 a b))) ∧
    (∀ p c, p ≠ c →
      mergeWr wMem2 p c p = ⟨(wMem2 p).item, some c, none, none⟩ ∧
      mergeWr wMem2 p c c =
        ⟨(wMem2 c).item, (wMem2 c).child, (wMem2 p).child, some p⟩ ∧
      (∀ j, j ≠ p → j ≠ c →
        mergeWr wMem2 p c j =
          if (wMem2 p).child = some j then { wMem2 j with prev := some c }
          else wMem2 j)) :=
  claim_C3 natLtB wMem2

/-- C4: for every represented sibling list the iterative `collapse` computes
the tree of the recursive two-pass method — pass 1 merges each adjacent pair
left to right with an odd final node passing through unmerged (`specPass1`),
pass 2 reduces the results right to left, from the last-produced result back
to the first, via repeated merge (`specPass2`) — and an absent input returns
absent. -/
theorem claim_C4 {α : Type} (lt : α → α → Bool) {s : St α} {first : Option Nat}
    {ts : List (PT α)} (fuel : Nat) (hr : ReprS s first ts)
    (hnd : (idsF ts).Nodup) (hfuel : ts.length ≤ fuel) :
    (∀ s0 : St α, collapse lt fuel s0 none = (none, s0)) ∧
    OptRepr (collapse lt fuel s first).2 (collapse lt fuel s first).1
      (specPass2 lt (specPass1 lt ts)) := by
  refine ⟨fun s0 => rfl, ?_⟩
  rw [show specPass2 lt (specPass1 lt ts) = specCollapse lt ts from rfl]
  exact (collapse_sim fuel hr hnd hfuel).1

theorem claim_C4_witness :
    (∀ s0 : St Nat, collapse natLtB 2 s0 none = (none, s0)) ∧
    OptRepr (collapse natLtB 2 wMem2 (some 0)).2 (collapse natLtB 2 wMem2 (some 0)).1
      (specPass2 natLtB (specPass1 natLtB [PT.mk 0 4 [], PT.mk 1 2 []])) :=
  claim_C4 natLtB 2 wMem2_reprS (by decide) (by decide)

/-- C5 counterexample: `decreaseKey` does NOT replicate `delete`'s handling
of a node whose `prev` link is absent — on the same state `delete` (no pool)
is a silent no-op while `decreaseKey` dereferences the absent link and
faults. -/
theorem claim_C5_counterexample :
    c5Heap.root ≠ some 1 ∧ (c5Heap.mem 1).prev = none ∧
    PairingHeap.delete c5Heap 1 = .ok c5Heap ∧
    PairingHeap.decreaseKey c5Heap 1 = .error PairingHeap.typeErr :=
  ⟨by decide, rfl, rfl, rfl⟩

/-- C5 (amended): `decreaseKey` is a no-op on the root; on a represented
non-root node (whose `prev` is present) it unlinks the node exactly as
`delete` does, leaves its children attached, and merges it with the root;
but on a non-root node whose `prev` is absent it faults with a type error,
where `delete` either errors (pool configured) or silently no-ops. -/
theorem claim_C5_amended {α : Type} {h : PairingHeap α} {t : PT α} {n : Nat}
    (hs : SWO h.lt) (hA : Abs h (some t)) :
    (h.root = some n → PairingHeap.decreaseKey h n = .ok h) ∧
    (h.root ≠ some n → (h.mem n).prev = none →
      PairingHeap.decreaseKey h n = .error PairingHeap.typeErr ∧
      PairingHeap.delete h n =
        (if h.pool.isSome then .error PairingHeap.deleteErr else .ok h)) ∧
    (n ∈ idsT t → n ≠ t.idOf →
      ∃ h2 tn, findT n t = some tn ∧
        PairingHeap.decreaseKey h n = .ok h2 ∧
        Abs h2 (some (specMerge h.lt (removeT n t) tn)) ∧
        h2.size = h.size) := by
  refine ⟨decreaseKey_root,
    fun hr hp => ⟨decreaseKey_no_prev hr hp, delete_no_prev hr hp⟩, ?_⟩
  intro hmem hne
  obtain ⟨h2, tn, hfind, hdec, hA2, hlt2, hfr2, hsz2⟩ :=
    decreaseKey_nonroot_abs hs hA hmem hne
  exact ⟨h2, tn, hfind, hdec, hA2, hsz2⟩

theorem claim_C5_amended_witness :
    (wHeap.root = some 1 → PairingHeap.decreaseKey wHeap 1 = .ok wHeap) ∧
    (wHeap.root ≠ some 1 → (wHeap.mem 1).prev = none →
      PairingHeap.decreaseKey wHeap 1 = .error PairingHeap.typeErr ∧
      PairingHeap.delete wHeap 1 =
        (if wHeap.pool.isSome then .error PairingHeap.deleteErr else .ok wHeap)) ∧
    (1 ∈ idsT wTree → 1 ≠ wTree.idOf →
      ∃ h2 tn, findT 1 wTree = some tn ∧
        PairingHeap.decreaseKey wHeap 1 = .ok h2 ∧
        Abs h2 (some (specMerge wHeap.lt (removeT 1 wTree) tn)) ∧
        h2.size = wHeap.size) :=
  claim_C5_amended swo_natLtB wAbs

/-- C6: after a live non-root handle is deleted, deleting it again is an
error when a pool is configured and a silent no-op (returning the heap
unchanged, so root and size are untouched) without one. -/
theorem claim_C6 {α : Type} {h : PairingHeap α} {t : PT α} {n : Nat}
    (hs : SWO h.lt) (hA : Abs h (some t)) (hmem : n ∈ idsT t) (hne : n ≠ t.idOf) :
    ∃ h2, PairingHeap.delete h n = .ok h2 ∧
      (h.pool.isSome = true →
        PairingHeap.delete h2 n = .error PairingHeap.deleteErr) ∧
      (h.pool = none → PairingHeap.delete h2 n = .ok h2) := by
  obtain ⟨h2, tn, t2, hfind, hdel, hmo, hA2, hlt2, hfr2, hsz2, hblank2, hpool2,
    hnotin2⟩ := delete_nonroot_abs hs hA hmem hne
  have hI2 := abs_invT hA2
  have hroot2 : h2.root ≠ some n := by
    rw [hI2.root_eq]
    intro hcon
    injection hcon with hcon
    exact hnotin2 (hcon ▸ idOf_mem_idsT t2)
  have hprev2 : (h2.mem n).prev = none := by
    rw [hblank2]
    rfl
  have hd2 := delete_no_prev hroot2 hprev2
  refine ⟨h2, hdel, ?_, ?_⟩
  · intro hsome
    rw [hd2]
    obtain ⟨fs, hfs⟩ := Option.isSome_iff_exists.mp hsome
    have hp2 : h2.pool = some (n :: fs) := by
      rw [hpool2, hfs]
      rfl
    rw [hp2]
    rfl
  · intro hnone
    rw [hd2]
    have hp2 : h2.pool = none := by
      rw [hpool2, hnone]
      rfl
    rw [hp2]
    rfl

theorem claim_C6_witness :
    ∃ h2, PairingHeap.delete wHeap 1 = .ok h2 ∧
      (wHeap.pool.isSome = true →
        PairingHeap.delete h2 1 = .error PairingHeap.deleteErr) ∧
      (wHeap.pool = none → PairingHeap.delete h2 1 = .ok h2) :=
  claim_C6 swo_natLtB wAbs (by decide) (by decide)

/-- C7 counterexample: on the pooled path `add` does NOT clear the node's
links before merging — a pool-supplied node with a leftover `child` link
keeps it. -/
theorem claim_C7_counterexample :
    (PairingHeap.poolGet c7Heap.pool).1 = some (PairingHeap.add c7Heap 7).1 ∧
    ((PairingHeap.add c7Heap 7).2.mem (PairingHeap.add c7Heap 7).1).child =
      some 5 :=
  ⟨rfl, by decide⟩

/-- C7 (amended): `add` is total — it takes the pool's node when one is
supplied and otherwise allocates fresh, increments `size`, merges the node
with the root and returns it as the handle; only the fresh path allocates the
node with cleared links, while the pooled path assigns the item alone and
leaves the supplied node's links exactly as they are. -/
theorem claim_C7_amended {α : Type} (h : PairingHeap α) (x : α) :
    (PairingHeap.add h x).2.size = h.size + 1 ∧
    ((PairingHeap.poolGet h.pool).1 = none →
      PairingHeap.add h x = (h.fresh, { h with
        mem := (merge h.lt (wr h.mem h.fresh { item := some x, child := none, next := none, prev := none }) h.root (some h.fresh)).2,
        root := (merge h.lt (wr h.mem h.fresh { item := some x, child := none, next := none, prev := none }) h.root (some h.fresh)).1,
        pool := (PairingHeap.poolGet h.pool).2, fresh := h.fresh + 1,
        size := h.size + 1 })) ∧
    (∀ f fs, h.pool = some (f :: fs) →
      PairingHeap.add h x = (f, { h with
        mem := (merge h.lt (wrItem h.mem f (some x)) h.root (some f)).2,
        root := (merge h.lt (wrItem h.mem f (some x)) h.root (some f)).1,
        pool := some fs, size := h.size + 1 })) := by
  have hfreshEq : (PairingHeap.poolGet h.pool).1 = none →
      PairingHeap.add h x = (h.fresh, { h with
        mem := (merge h.lt (wr h.mem h.fresh { item := some x, child := none, next := none, prev := none }) h.root (some h.fresh)).2,
        root := (merge h.lt (wr h.mem h.fresh { item := some x, child := none, next := none, prev := none }) h.root (some h.fresh)).1,
        pool := (PairingHeap.poolGet h.pool).2, fresh := h.fresh + 1,
        size := h.size + 1 }) := by
    intro hg
    match hpl : h.pool with
    | none => simp only [PairingHeap.add, hpl, PairingHeap.poolGet]
    | some [] => simp only [PairingHeap.add, hpl, PairingHeap.poolGet]
    | some (f :: fs) =>
      rw [hpl] at hg
      exact absurd hg (by simp [PairingHeap.poolGet])
  have hpoolEq : ∀ f fs, h.pool = some (f :: fs) →
      PairingHeap.add h x = (f, { h with
        mem := (merge h.lt (wrItem h.mem f (some x)) h.root (some f)).2,
        root := (merge h.lt (wrItem h.mem f (some x)) h.root (some f)).1,
        pool := some fs, size := h.size + 1 }) := by
    intro f fs hpl
    simp only [PairingHeap.add, hpl, PairingHeap.poolGet]
  refine ⟨?_, hfreshEq, hpoolEq⟩
  match hpl : h.pool with
  | some (f :: fs) => rw [hpoolEq f fs hpl]
  | none => rw [hfreshEq (by rw [hpl]; rfl)]
  | some [] => rw [hfreshEq (by rw [hpl]; rfl)]

/-- C8: for every well-formed heap state and item `x`, `add(x)` followed
immediately by `delete` on the returned handle restores both `size` and the
value `getMin()` returns. -/
theorem claim_C8 {α : Type} {h : PairingHeap α} {ot : Option (PT α)}
    (hs : SWO h.lt) (hA : Abs h ot) (x : α) :
    ∃ h2, PairingHeap.delete (PairingHeap.add h x).2 (PairingHeap.add h x).1 =
        .ok h2 ∧
      h2.size = h.size ∧ PairingHeap.getMin h2 = PairingHeap.getMin h :=
  add_delete_roundtrip hs hA x

theorem claim_C8_witness :
    ∃ h2, PairingHeap.delete (PairingHeap.add wHeap 9).2
        (PairingHeap.add wHeap 9).1 = .ok h2 ∧
      h2.size = wHeap.size ∧ PairingHeap.getMin h2 = PairingHeap.getMin wHeap :=
  claim_C8 swo_natLtB wAbs 9

/-- C9 counterexample: `clear()` drops every node without clearing it — after
building a two-node heap and clearing it, the former child node keeps its
`prev` link although the heap no longer contains it. -/
theorem claim_C9_counterexample :
    (PairingHeap.clear (addAll natLtB [0, 1])).root = none ∧
    ((PairingHeap.clear (addAll natLtB [0, 1])).mem 1).prev ≠ none :=
  ⟨rfl, by decide⟩

/-- C9 (amended): a node removed by `delete` (hence also by `deleteMin`) has
all three links and its item cleared; but `clear()` resets only `root` and
`size`, leaving every dropped node's fields untouched, so the
"not in the heap implies cleared" invariant does not survive `clear()`. -/
theorem claim_C9_amended {α : Type} {h : PairingHeap α} {t : PT α} {n : Nat}
    (hs : SWO h.lt) (hA : Abs h (some t)) (hmem : n ∈ idsT t) :
    (∃ h2, PairingHeap.delete h n = .ok h2 ∧ h2.mem n = blankNode) ∧
    (PairingHeap.deleteMin h).2.mem t.idOf = blankNode ∧
    (PairingHeap.clear h).mem = h.mem ∧ (PairingHeap.clear h).root = none := by
  refine ⟨?_, ?_, rfl, rfl⟩
  · by_cases hne : n = t.idOf
    · subst hne
      obtain ⟨h2, hdel, hA2, hlt2, hfr2, hsz2, hblank2, hpool2⟩ :=
        delete_root_abs hs hA
      exact ⟨h2, hdel, hblank2⟩
    · obtain ⟨h2, tn, t2, hfind, hdel, hmo, hA2, hlt2, hfr2, hsz2, hblank2,
        hrest⟩ := delete_nonroot_abs hs hA hmem hne
      exact ⟨h2, hdel, hblank2⟩
  · exact (deleteMin_abs hs hA).2.2.2.2.2.1

theorem claim_C9_amended_witness :
    (∃ h2, PairingHeap.delete wHeap 1 = .ok h2 ∧ h2.mem 1 = blankNode) ∧
    (PairingHeap.deleteMin wHeap).2.mem wTree.idOf = blankNode ∧
    (PairingHeap.clear wHeap).mem = wHeap.mem ∧
    (PairingHeap.clear wHeap).root = none :=
  claim_C9_amended swo_natLtB wAbs (by decide)

theorem heapInv_rootDetached {h : PairingHeap α} (hInv : HeapInv h) :
    RootDetached h := by
  obtain ⟨ot, hA⟩ := hInv
  rcases ot with _ | t
  · intro r hr
    obtain ⟨hpool, hcase⟩ := hA
    rcases hcase with ⟨h1, h2, h3⟩ | ⟨t2, heq, hI⟩
    · rw [h2] at hr
      cases hr
    · exact absurd heq (by simp)
  · intro r hr
    have hI := abs_invT hA
    rw [hI.root_eq] at hr
    injection hr with hr
    rw [← hr]
    exact ⟨hI.root_prev, hI.root_next⟩

/-- The iterator rewrites links only inside the tree and never the root's
own `prev`/`next`, so iteration keeps the root detached. -/
theorem heapItems_rootDetached {h : PairingHeap α} {ot : Option (PT α)}
    (hA : Abs h ot) : RootDetached (heapItems h).2 := by
  rcases ot with _ | t
  · intro r hr
    obtain ⟨hpool, hcase⟩ := hA
    rcases hcase with ⟨h1, h2, h3⟩ | ⟨t2, heq, hI⟩
    · have : (heapItems h).2.root = h.root := rfl
      rw [this, h2] at hr
      cases hr
    · exact absurd heq (by simp)
  · intro r hr
    have hI := abs_invT hA
    have hroot : (heapItems h).2.root = h.root := rfl
    rw [hroot, hI.root_eq] at hr
    injection hr with hr
    have hit := @iterate_sim _ h.lt (h.fresh + 1) h.mem t hI.rep hI.nodup (by
      rw [itemsT_length_eq t]
      exact le_trans (length_le_of_nodup_lt hI.nodup hI.bounded) (Nat.le_succ _))
    have hmemev : (heapItems h).2.mem =
        (iterate h.lt (h.fresh + 1) h.mem h.root).2 := rfl
    rw [← hr, hmemev, hI.root_eq]
    rw [hit.2.2.1, hit.2.2.2]
    exact ⟨hI.root_prev, hI.root_next⟩

/-- C10: every public operation preserves the invariant that a non-empty
heap's root node carries no `prev`/`next` links — the top level is always a
single detached root. -/
theorem claim_C10 {α : Type} {h : PairingHeap α} (hs : SWO h.lt)
    (hInv : HeapInv h) :
    RootDetached h ∧
    (∀ x, RootDetached (PairingHeap.add h x).2) ∧
    RootDetached (PairingHeap.deleteMin h).2 ∧
    (∀ t n, Abs h (some t) → n ∈ idsT t →
      ∃ h2, PairingHeap.delete h n = .ok h2 ∧ RootDetached h2) ∧
    (∀ t n, Abs h (some t) → n ∈ idsT t →
      ∃ h2, PairingHeap.decreaseKey h n = .ok h2 ∧ RootDetached h2) ∧
    RootDetached (PairingHeap.clear h) ∧
    RootDetached (heapItems h).2 := by
  obtain ⟨ot, hA⟩ := hInv
  refine ⟨heapInv_rootDetached ⟨ot, hA⟩, ?_, ?_, ?_, ?_, ?_, ?_⟩
  · intro x
    obtain ⟨t', hA', hrest⟩ := add_abs hs hA
    exact heapInv_rootDetached ⟨some t', hA'⟩
  · rcases ot with _ | t
    · rw [deleteMin_empty hA]
      exact heapInv_rootDetached ⟨none, hA⟩
    · obtain ⟨hm1, hA2, hrest⟩ := deleteMin_abs hs hA
      exact heapInv_rootDetached ⟨_, hA2⟩
  · intro t n hAt hmem
    by_cases hne : n = t.idOf
    · subst hne
      obtain ⟨h2, hdel, hA2, hrest⟩ := delete_root_abs hs hAt
      exact ⟨h2, hdel, heapInv_rootDetached ⟨_, hA2⟩⟩
    · obtain ⟨h2, tn, t2, hfind, hdel, hmo, hA2, hrest⟩ :=
        delete_nonroot_abs hs hAt hmem hne
      exact ⟨h2, hdel, heapInv_rootDetached ⟨some t2, hA2⟩⟩
  · intro t n hAt hmem
    by_cases hne : n = t.idOf
    · have hroot : h.root = some n := by
        rw [hne]
        exact (abs_invT hAt).root_eq
      rw [decreaseKey_root hroot]
      exact ⟨h, rfl, heapInv_rootDetached ⟨some t, hAt⟩⟩
    · obtain ⟨h2, tn, hfind, hdec, hA2, hrest⟩ :=
        decreaseKey_nonroot_abs hs hAt hmem hne
      exact ⟨h2, hdec, heapInv_rootDetached ⟨some _, hA2⟩⟩
  · exact heapInv_rootDetached ⟨none, (clear_abs hA).1⟩
  · exact heapItems_rootDetached hA

theorem claim_C10_witness :
    RootDetached wHeap ∧
    (∀ x, RootDetached (PairingHeap.add wHeap x).2) ∧
    RootDetached (PairingHeap.deleteMin wHeap).2 ∧
    (∀ t n, Abs wHeap (some t) → n ∈ idsT t →
      ∃ h2, PairingHeap.delete wHeap n = .ok h2 ∧ RootDetached h2) ∧
    (∀ t n, Abs wHeap (some t) → n ∈ idsT t →
      ∃ h2, PairingHeap.decreaseKey wHeap n = .ok h2 ∧ RootDetached h2) ∧
    RootDetached (PairingHeap.clear wHeap) ∧
    RootDetached (heapItems wHeap).2 :=
  claim_C10 swo_natLtB ⟨some wTree, wAbs⟩

-- Sanity checks against the spec's scenarios (SECTION8): scenario A and B.
example :
    extractAll 4 (addAll (fun a b : Nat => a < b) [5, 3, 8, 1]) =
      [some 1, some 3, some 5, some 8] := by decide

example :
    extractAll 4 (addAll (fun a b : Nat => b < a) [5, 3, 8, 1]) =
      [some 8, some 5, some 3, some 1] := by decide

example :
    (heapItems (addAll (fun a b : Nat => a < b) [5, 3, 8, 1])).1 =
      [some 1, some 3, some 5, some 8] := by decide

example :
    (heapItems (addAll (fun a b : Nat => a < b) [5, 3, 8, 1])).2.size = 4 := by decide



-- Scenario D (SECTION8): lower a non-root item, then decreaseKey restores
-- the order and the lowered item surfaces as the minimum.
example :
    (PairingHeap.decreaseKey
      (PairingHeap.setItem (addAll (fun a b : Nat => a < b) [3, 5]) 1 0) 1).map
        PairingHeap.getMin = .ok (some 0) := by rfl

example :
    (PairingHeap.decreaseKey
      (PairingHeap.setItem (addAll (fun a b : Nat => a < b) [3, 5]) 1 0) 1).map
        (fun h2 => h2.size) = .ok 2 := by rfl
